import Mathlib

/-!
Verification development for the `bliss` interpreter (Rust).

The Rust sources are shallowly embedded below.  Conventions used throughout:

* `f64` numbers are modelled as `ℚ`.  Every claim settled here concerns
  programs whose arithmetic is exact (small literals, comparisons,
  concatenation), where the IEEE-754 double behaviour and the rational
  behaviour coincide; `f64::round` (round half away from zero) is modelled
  explicitly by `rustRound`.
* `Rc<RefCell<Environment>>` sharing is modelled by an arena of environments
  (`EvalState.arena`); an `Rc` pointer is the arena index of its target, and
  `Rc::clone` is copying the index.
* Fallible Rust code returns `Except Err _`; a Rust `panic!` (failed
  `unwrap`, slice out of bounds, integer underflow) is the distinguished
  error `Err.panic`, and recursion through stored values is cut with a fuel
  parameter whose exhaustion is the distinguished error `Err.fuel` (a model
  artefact, never produced at the fuel values used in the theorems).
* Rust `HashMap` is modelled as an association list with insert-replace
  (`listInsert`); the claims below never depend on iteration order.
-/

namespace Bliss

/-- Identifiers and string payloads. -/
abbrev Name := String

/-- `code::Opcode` from `src/lib/src/code/mod.rs`.  The `Array` opcode
(discriminant 19, one 16-bit operand) is emitted by the compiler and
executed by the VM; the enum in `code/mod.rs` predates it. -/
inductive Opcode where
  | constant
  | add
  | pop
  | sub
  | mul
  | div
  | mod
  | true_
  | false_
  | equal
  | notEqual
  | greater
  | greaterEqual
  | minus
  | bang
  | jumpNotTruthy
  | jump
  | getGlobal
  | setGlobal
  | array
deriving DecidableEq, Repr

/-- The discriminant of each opcode (the `u8` the Rust enum is cast to). -/
def Opcode.byte : Opcode → Nat
  | .constant => 0
  | .add => 1
  | .pop => 2
  | .sub => 3
  | .mul => 4
  | .div => 5
  | .mod => 6
  | .true_ => 7
  | .false_ => 8
  | .equal => 9
  | .notEqual => 10
  | .greater => 11
  | .greaterEqual => 12
  | .minus => 13
  | .bang => 14
  | .jumpNotTruthy => 15
  | .jump => 16
  | .getGlobal => 17
  | .setGlobal => 18
  | .array => 19

/-- `Opcode::from_u8` (via the `FromPrimitive` impl in `code/mod.rs`). -/
def Opcode.fromByte : Nat → Option Opcode
  | 0 => some .constant
  | 1 => some .add
  | 2 => some .pop
  | 3 => some .sub
  | 4 => some .mul
  | 5 => some .div
  | 6 => some .mod
  | 7 => some .true_
  | 8 => some .false_
  | 9 => some .equal
  | 10 => some .notEqual
  | 11 => some .greater
  | 12 => some .greaterEqual
  | 13 => some .minus
  | 14 => some .bang
  | 15 => some .jumpNotTruthy
  | 16 => some .jump
  | 17 => some .getGlobal
  | 18 => some .setGlobal
  | 19 => some .array
  | _ => none

/-! ### The AST (`src/lib/src/ast.rs`)

`Expr::Member` is matched by the evaluator (`evaluation/mod.rs`), so the
variant is part of the AST the evaluator consumes; the dead `Expr::Pattern`
variant is never constructed nor evaluated and is omitted. -/

mutual

inductive Expr where
  | number (n : ℚ)
  | ident (name : Name)
  | prefixE (op : String) (right : Expr)
  | infixE (left : Expr) (op : String) (right : Expr)
  | boolean (b : Bool)
  | str (s : String)
  | symbol (s : String)
  | ifE (condition : Expr) (consequence : List Stmt) (alternative : List Stmt)
  | function (parameters : List Name) (body : List Stmt)
  | call (function : Expr) (arguments : List Expr)
  | matchE (condition : Expr) (cases : List (Pattern × List Stmt))
  | array (elements : List Expr)
  | hash (entries : List (Name × Expr))
  | member (property : Expr) (object : Expr) (computed : Bool)
deriving Repr

inductive Stmt where
  | assign (name : Pattern) (value : Expr)
  | ret (e : Expr)
  | expr (e : Expr)
  | importS (source : Expr) (name : Pattern)
deriving Repr

inductive Pattern where
  | str (s : String)
  | number (n : ℚ)
  | boolean (b : Bool)
  | symbol (s : String)
  | ident (name : Name)
  | array (ps : List Pattern)
  | hash (entries : List (Name × Option Name))
  | nothing
deriving Repr

end

/-! Structural equality on the AST (Rust's `#[derive(PartialEq)]`). -/

mutual

def exprBeq : Expr → Expr → Bool
  | .number a, .number b => a == b
  | .ident a, .ident b => a == b
  | .prefixE o r, .prefixE o' r' => o == o' && exprBeq r r'
  | .infixE l o r, .infixE l' o' r' => exprBeq l l' && (o == o') && exprBeq r r'
  | .boolean a, .boolean b => a == b
  | .str a, .str b => a == b
  | .symbol a, .symbol b => a == b
  | .ifE c t e, .ifE c' t' e' => exprBeq c c' && stmtListBeq t t' && stmtListBeq e e'
  | .function p b, .function p' b' => p == p' && stmtListBeq b b'
  | .call f a, .call f' a' => exprBeq f f' && exprListBeq a a'
  | .matchE c cs, .matchE c' cs' => exprBeq c c' && caseListBeq cs cs'
  | .array a, .array b => exprListBeq a b
  | .hash a, .hash b => hashEntryListBeq a b
  | .member p o c, .member p' o' c' => exprBeq p p' && exprBeq o o' && (c == c')
  | _, _ => false

def exprListBeq : List Expr → List Expr → Bool
  | [], [] => true
  | x :: xs, y :: ys => exprBeq x y && exprListBeq xs ys
  | _, _ => false

def hashEntryListBeq : List (Name × Expr) → List (Name × Expr) → Bool
  | [], [] => true
  | (k, v) :: xs, (k', v') :: ys => k == k' && exprBeq v v' && hashEntryListBeq xs ys
  | _, _ => false

def stmtBeq : Stmt → Stmt → Bool
  | .assign n v, .assign n' v' => patternBeq n n' && exprBeq v v'
  | .ret e, .ret e' => exprBeq e e'
  | .expr e, .expr e' => exprBeq e e'
  | .importS s n, .importS s' n' => exprBeq s s' && patternBeq n n'
  | _, _ => false

def stmtListBeq : List Stmt → List Stmt → Bool
  | [], [] => true
  | x :: xs, y :: ys => stmtBeq x y && stmtListBeq xs ys
  | _, _ => false

def caseListBeq : List (Pattern × List Stmt) → List (Pattern × List Stmt) → Bool
  | [], [] => true
  | (p, b) :: xs, (p', b') :: ys => patternBeq p p' && stmtListBeq b b' && caseListBeq xs ys
  | _, _ => false

def patternBeq : Pattern → Pattern → Bool
  | .str a, .str b => a == b
  | .number a, .number b => a == b
  | .boolean a, .boolean b => a == b
  | .symbol a, .symbol b => a == b
  | .ident a, .ident b => a == b
  | .array a, .array b => patternListBeq a b
  | .hash a, .hash b => a == b
  | .nothing, .nothing => true
  | _, _ => false

def patternListBeq : List Pattern → List Pattern → Bool
  | [], [] => true
  | x :: xs, y :: ys => patternBeq x y && patternListBeq xs ys
  | _, _ => false

end

/-- `BlockStatement` / `Program`. -/
abbrev Program := List Stmt

/-! ### Runtime values (`src/lib/src/evaluation/object.rs`)

A `Builtin` carries the arity and (in Rust) a function pointer; the pointer
is identified here by the builtin's name.  A `Function` captures its
environment as an arena index (the `Rc`). -/

inductive BuiltinName where
  | head
  | init
  | last
  | tail
  | len
  | log
  | map
deriving DecidableEq, Repr

inductive Object where
  | number (n : ℚ)
  | str (s : String)
  | symbol (s : String)
  | ident (name : Name)
  | boolean (b : Bool)
  | array (xs : List Object)
  | hash (entries : List (Name × Object))
  | ret (o : Object)
  | function (parameters : List Name) (body : List Stmt) (env : Nat)
  | builtin (params : Int) (f : BuiltinName)
  | void
  | null
deriving Repr

/-! Structural equality on values (Rust's `#[derive(PartialEq)]` on `Object`).

Deviations from Rust, irrelevant to every claim settled below: a `hash` is
compared as its (insertion-ordered) entry list, where Rust's `HashMap`
equality ignores order; a `function`'s captured environment is compared by
arena index (`Rc` target identity) where Rust borrows and compares the
environments structurally; a `builtin`'s function pointer is compared by the
builtin it points at. -/

mutual

def objBeq : Object → Object → Bool
  | .number a, .number b => a == b
  | .str a, .str b => a == b
  | .symbol a, .symbol b => a == b
  | .ident a, .ident b => a == b
  | .boolean a, .boolean b => a == b
  | .array a, .array b => objListBeq a b
  | .hash a, .hash b => objHashBeq a b
  | .ret a, .ret b => objBeq a b
  | .function p b e, .function p' b' e' => p == p' && stmtListBeq b b' && (e == e')
  | .builtin a f, .builtin a' f' => a == a' && f == f'
  | .void, .void => true
  | .null, .null => true
  | _, _ => false

def objListBeq : List Object → List Object → Bool
  | [], [] => true
  | x :: xs, y :: ys => objBeq x y && objListBeq xs ys
  | _, _ => false

def objHashBeq : List (Name × Object) → List (Name × Object) → Bool
  | [], [] => true
  | (k, v) :: xs, (k', v') :: ys => k == k' && objBeq v v' && objHashBeq xs ys
  | _, _ => false

end

/-! ### Association lists standing in for `HashMap` -/

/-- `HashMap::get`. -/
def listGet {α : Type} (m : List (Name × α)) (k : Name) : Option α :=
  match m with
  | [] => none
  | (k', v) :: rest => if k' == k then some v else listGet rest k

/-- `HashMap::insert` (replaces an existing binding, otherwise adds one). -/
def listInsert {α : Type} (m : List (Name × α)) (k : Name) (v : α) : List (Name × α) :=
  match m with
  | [] => [(k, v)]
  | (k', v') :: rest => if k' == k then (k, v) :: rest else (k', v') :: listInsert rest k v

/-! ### Environments (`src/lib/src/evaluation/env.rs`)

`Rc<RefCell<Environment>>` is modelled by an arena: `EvalState.arena` holds
every environment ever created; an `Rc` is the index of its target, and the
evaluator's `env` field is `EvalState.cur`.  `Environment::new_enclosed`
appends a fresh environment, so a `parent` index is always strictly smaller
than the child's own index in every reachable state. -/

structure Environment where
  store : List (Name × Object)
  parent : Option Nat
deriving Repr

structure EvalState where
  arena : List Environment
  cur : Nat
deriving Repr

def EvalState.getEnv (st : EvalState) (idx : Nat) : Environment :=
  st.arena.getD idx ⟨[], none⟩

/-- `Environment::get`: lookup walking the parent chain.  The fuel is a model
artefact: parent indexes strictly decrease in reachable states, so
`st.arena.length` steps always suffice. -/
def envGetAux (st : EvalState) : Nat → Nat → Name → Option Object
  | 0, _, _ => none
  | fuel + 1, idx, key =>
    let e := st.getEnv idx
    match listGet e.store key with
    | some v => some v
    | none =>
      match e.parent with
      | some p => envGetAux st fuel p key
      | none => none

def envGet (st : EvalState) (idx : Nat) (key : Name) : Option Object :=
  envGetAux st st.arena.length idx key

/-- `Environment::set` on the environment at `idx` (writes the innermost store). -/
def envSet (st : EvalState) (idx : Nat) (key : Name) (v : Object) : EvalState :=
  let e := st.getEnv idx
  { st with arena := st.arena.set idx { e with store := listInsert e.store key v } }

/-- `Environment::new_enclosed(parent).into()`: allocate a fresh child. -/
def newEnclosed (st : EvalState) (parent : Nat) : Nat × EvalState :=
  (st.arena.length, { st with arena := st.arena ++ [⟨[], some parent⟩] })

/-- `builtins::get_builtins`, inserted into the root environment by
`Evaluator::new` (iteration order of the Rust `HashMap` is arbitrary; the
source's insertion order is used, and no claim depends on it). -/
def rootBuiltins : List (Name × Object) :=
  [("head", .builtin 1 .head), ("init", .builtin 1 .init),
   ("last", .builtin 1 .last), ("tail", .builtin 1 .tail),
   ("len", .builtin 1 .len), ("log", .builtin (-1) .log),
   ("map", .builtin 2 .map)]

/-- The state of a fresh `Evaluator::new(Environment::new().into())`. -/
def initState : EvalState := ⟨[⟨rootBuiltins, none⟩], 0⟩

/-! ### The evaluation monad

`EvalResult = Result<Object, String>` together with the mutable evaluator;
errors keep the state mutated so far (Rust mutates in place). -/

inductive Err where
  | msg (s : String)
  | panic
  | fuel
deriving DecidableEq, Repr

def M (α : Type) : Type := EvalState → Except Err α × EvalState

def M.pure {α : Type} (a : α) : M α := fun s => (.ok a, s)

def M.bind {α β : Type} (x : M α) (f : α → M β) : M β := fun s =>
  match x s with
  | (.ok a, s') => f a s'
  | (.error e, s') => (.error e, s')

instance : Monad M where
  pure := M.pure
  bind := M.bind

def M.throw {α : Type} (e : Err) : M α := fun s => (.error e, s)

def M.ofExcept {α : Type} (x : Except Err α) : M α := fun s => (x, s)

def M.get : M EvalState := fun s => (.ok s, s)

def M.set (s' : EvalState) : M Unit := fun _ => (.ok (), s')

def M.modify (f : EvalState → EvalState) : M Unit := fun s => (.ok (), f s)

/-- A builtin receives `Rc::new(RefCell::new(self.clone()))`: it works on a
clone of the evaluator sharing the heap, so heap mutations persist but the
original evaluator's `env` pointer is untouched. -/
def M.withCurRestored {α : Type} (x : M α) : M α := fun st =>
  let (r, st') := x st
  (r, { st' with cur := st.cur })

/-- `self.env.borrow_mut().set(key, v)` on the current environment. -/
def M.setVar (key : Name) (v : Object) : M Unit := fun st =>
  (.ok (), envSet st st.cur key v)

/-! ### Pure evaluator helpers (`src/lib/src/evaluation/mod.rs`)

Formatted error messages (`format!` with interpolation) are modelled by
their format string; no claim depends on the interpolated text. -/

/-- `Evaluator::is_truthy`: only `Boolean(true)` is truthy. -/
def isTruthy : Object → Bool
  | .boolean true => true
  | _ => false

/-- `Evaluator::native_bool_to_object`. -/
def nativeBoolToObject (b : Bool) : Object :=
  if b then .boolean true else .boolean false

/-- `Evaluator::eval_bang_operator`. -/
def evalBangOperator (right : Object) : Object :=
  nativeBoolToObject (!isTruthy right)

/-- `Evaluator::eval_prefix_expression`. -/
def evalPrefixExpression (operator : String) (right : Object) : Except Err Object :=
  match operator with
  | "!" => .ok (evalBangOperator right)
  | "-" =>
    match right with
    | .number n => .ok (.number (-n))
    | _ => .error (.msg "Can't negate {}")
  | _ => .error (.msg "Couldn't evaluate operator {}")

/-- Truncation toward zero, the semantics of Rust's `%` on doubles
(`a % b = a - b * trunc(a / b)`). -/
def ratTrunc (q : ℚ) : ℤ := if 0 ≤ q then ⌊q⌋ else ⌈q⌉

/-- Rust `f64 % f64` (remainder with the dividend's sign); `% 0` is the one
spot where the rational model diverges from IEEE NaN, and no claim uses it. -/
def ratRem (a b : ℚ) : ℚ := a - b * (ratTrunc (a / b) : ℚ)

/-- `Evaluator::eval_number_operator`. -/
def evalNumberOperator (left : Object) (operator : String) (right : Object) :
    Except Err Object :=
  match left with
  | .number l =>
    match right with
    | .number r =>
      match operator with
      | "-" => .ok (.number (l - r))
      | "*" => .ok (.number (l * r))
      | "/" => .ok (.number (l / r))
      | "%" => .ok (.number (ratRem l r))
      | ">" => .ok (.boolean (decide (l > r)))
      | "<" => .ok (.boolean (decide (l < r)))
      | ">=" => .ok (.boolean (decide (l ≥ r)))
      | "<=" => .ok (.boolean (decide (l ≤ r)))
      | _ => .error (.msg "invalid operator {}")
    | _ => .error (.msg "Can't use {} on {:?} and {:?}")
  | _ => .error (.msg "Can't use {} on {:?} and {:?}")

/-- `Evaluator::eval_boolean_operator` (structural `==` / `!=`). -/
def evalBooleanOperator (left : Object) (operator : String) (right : Object) :
    Except Err Object :=
  match operator with
  | "==" => .ok (nativeBoolToObject (objBeq left right))
  | "!=" => .ok (nativeBoolToObject (!objBeq left right))
  | _ => .error (.msg "Invalid operator {}")

/-- `f64::round`: nearest integer, ties away from zero. -/
def rustRound (q : ℚ) : ℤ := if 0 ≤ q then ⌊q + 1 / 2⌋ else -⌊-q + 1 / 2⌋

/-- The `for item in left..right { items.push(Number(item as f64)) }` loop
of `eval_range_operator` (a Rust `i64` range iterates `l, l+1, …, r-1`, and
is empty when `l ≥ r`). -/
def rangeItems (l r : ℤ) : List Object :=
  if l < r then Object.number (l : ℚ) :: rangeItems (l + 1) r else []
termination_by (r - l).toNat
decreasing_by simp_wf; omega

/-- `Evaluator::eval_range_operator`: both operands must be numbers; each is
rounded with `f64::round` and cast to `i64`, and the loop above collects the
range. -/
def evalRangeOperator (left right : Object) : Except Err Object :=
  match left, right with
  | .number l, .number r => .ok (.array (rangeItems (rustRound l) (rustRound r)))
  | _, _ => .error (.msg "Can't use range operator on {} and {}")

/-- `Evaluator::eval_plus_operator`: numbers add, strings and arrays
concatenate, anything else errors. -/
def evalPlusOperator (left right : Object) : Except Err Object :=
  match left with
  | .number l =>
    match right with
    | .number r => .ok (.number (l + r))
    | _ => .error (.msg "Unable to add {:?} and {:?}")
  | .str l =>
    match right with
    | .str r => .ok (.str (l ++ r))
    | _ => .error (.msg "Unable to add {:?} and {:?}")
  | .array l =>
    match right with
    | .array r => .ok (.array (l ++ r))
    | _ => .error (.msg "Unable to add {:?} and {:?}")
  | _ => .error (.msg "Unable to add {:?} and {:?}")

/-- `Evaluator::eval_infix_expression`. -/
def evalInfixExpression (left : Object) (operator : String) (right : Object) :
    Except Err Object :=
  match operator with
  | "+" => evalPlusOperator left right
  | "-" => evalNumberOperator left operator right
  | "*" => evalNumberOperator left operator right
  | "/" => evalNumberOperator left operator right
  | "%" => evalNumberOperator left operator right
  | ">" => evalNumberOperator left operator right
  | "<" => evalNumberOperator left operator right
  | ">=" => evalNumberOperator left operator right
  | "<=" => evalNumberOperator left operator right
  | "==" => evalBooleanOperator left operator right
  | "!=" => evalBooleanOperator left operator right
  | ".." => evalRangeOperator left right
  | _ => .error (.msg "Unsupported operator")

/-- `f64 as usize` (truncating, saturating at zero; the `usize::MAX` clamp
is irrelevant at the magnitudes any claim uses). -/
def f64AsUsize (q : ℚ) : Nat := if q ≤ 0 then 0 else q.floor.toNat

/-! ### Pure builtins (`src/lib/src/evaluation/builtins.rs`) -/

/-- builtin `init`: `array[0..array.len() - 1]`; on an empty array the
`usize` subtraction underflows (a Rust panic). -/
def builtinInit (arg : Object) : Except Err Object :=
  match arg with
  | .array xs =>
    match xs with
    | [] => .error .panic
    | _ :: _ => .ok (.array xs.dropLast)
  | _ => .error (.msg "{} isn't an array")

/-- builtin `tail`: `array[1..array.len()]`; on an empty array the slice
`[1..0]` is out of bounds (a Rust panic). -/
def builtinTail (arg : Object) : Except Err Object :=
  match arg with
  | .array xs =>
    match xs with
    | [] => .error .panic
    | _ :: rest => .ok (.array rest)
  | _ => .error (.msg "{} isn't an array")

/-- builtin `head`: `array.first()`, `None ⇒ Null`. -/
def builtinHead (arg : Object) : Except Err Object :=
  match arg with
  | .array xs =>
    match xs with
    | [] => .ok .null
    | x :: _ => .ok x
  | _ => .error (.msg "{} isn't an array")

/-- builtin `last`: `array.last()`, `None ⇒ Null`. -/
def builtinLast (arg : Object) : Except Err Object :=
  match arg with
  | .array xs =>
    match xs.getLast? with
    | some x => .ok x
    | none => .ok .null
  | _ => .error (.msg "{} isn't an array")

/-- builtin `len` (string length is a byte count in Rust). -/
def builtinLen (arg : Object) : Except Err Object :=
  let n : Nat :=
    match arg with
    | .array xs => xs.length
    | .str s => s.utf8ByteSize
    | .hash entries => entries.length
    | .function ps _ _ => ps.length
    | _ => 0
  .ok (.number (n : ℚ))

/-! ### Pattern matching (`Evaluator::eval_match_case`,
`Evaluator::eval_pattern_matching`) -/

mutual

/-- `Evaluator::eval_match_case`.  `none` models the Rust panic when the
loop indexes `condition[index]` out of bounds. -/
def evalMatchCase : Object → Object → Option Bool
  | .array array, condition =>
    match condition with
    | .array cond => evalMatchCaseList array cond
    | _ => some false
  | .ident _, _ => some true
  | case, condition => some (objBeq case condition)

/-- The `for (index, element) in array.iter().enumerate()` loop of
`eval_match_case`: each element is matched against `condition[index]`. -/
def evalMatchCaseList : List Object → List Object → Option Bool
  | [], _ => some true
  | _ :: _, [] => none
  | x :: xs, y :: ys =>
    match evalMatchCase x y with
    | none => none
    | some false => some false
    | some true => evalMatchCaseList xs ys

end

mutual

/-- `Evaluator::eval_pattern_matching`: builds the comparison object for a
case, binding identifier sub-patterns into `env` as it goes. -/
def evalPatternMatching (env : Nat) : Pattern → Object → M Object
  | .nothing, _ => M.pure (.ident "_")
  | .ident id, condition => fun st => (.ok condition, envSet st env id condition)
  | .array ps, condition =>
    match condition with
    | .array cs => M.bind (evalPatternArray env ps cs) (fun arr => M.pure (.array arr))
    | _ => M.throw (.msg "Mismatched types")
  | .hash entries, condition =>
    match condition with
    | .hash ch => M.bind (evalPatternHash env entries ch) (fun arr => M.pure (.array arr))
    | _ => M.throw (.msg "Mismatched types")
  | .str s, _ => M.pure (.str s)
  | .number n, _ => M.pure (.number n)
  | .symbol s, _ => M.pure (.symbol s)
  | .boolean b, _ => M.pure (.boolean b)

/-- The `array.iter().zip(condition_array)` loop of `eval_pattern_matching`:
pairs are truncated to the shorter of the two lists. -/
def evalPatternArray (env : Nat) : List Pattern → List Object → M (List Object)
  | [], _ => M.pure []
  | _ :: _, [] => M.pure []
  | p :: ps, c :: cs =>
    M.bind (evalPatternMatching env p c) (fun r =>
      M.bind (evalPatternArray env ps cs) (fun rs => M.pure (r :: rs)))

/-- The `for (key, alias) in hash` loop of `eval_pattern_matching`: a
missing key matches against `Null`.  The source recurses through
`eval_pattern_matching` with a fresh `Pattern::Ident(alias.unwrap_or(key))`;
that call's `Ident` branch (bind the name, return the condition) is inlined
here. -/
def evalPatternHash (env : Nat) :
    List (Name × Option Name) → List (Name × Object) → M (List Object)
  | [], _ => M.pure []
  | (key, al) :: rest, ch =>
    let condition := (listGet ch key).getD .null
    M.bind (fun st => (.ok condition, envSet st env (al.getD key) condition)) (fun r =>
      M.bind (evalPatternHash env rest ch) (fun rs => M.pure (r :: rs)))

end

/-- The array-destructuring loop of `Evaluator::eval_stmt` for
`Stmt::Assign(Pattern::Array(names), _)`: identifier sub-patterns are bound
to `values[index]` (a panic when the pattern overruns the value array);
every other sub-pattern is skipped. -/
def assignArrayIdents : List Pattern → List Object → M Unit
  | [], _ => M.pure ()
  | .ident id :: ps, values =>
    (match values with
     | [] => M.throw .panic
     | v :: vs => M.bind (M.setVar id v) (fun _ => assignArrayIdents ps vs))
  | _ :: ps, values => assignArrayIdents ps (values.drop 1)

/-- The parameter-binding loop of `eval_call_expression` /
`eval_function_call` (`function_env.set(param, args[index])`; the caller has
already checked the two lists have equal length). -/
def bindParams : EvalState → Nat → List Name → List Object → EvalState
  | st, _, [], _ => st
  | st, _, _ :: _, [] => st
  | st, env, p :: ps, a :: rest => bindParams (envSet st env p a) env ps rest

/-- `args[0]` inside a builtin (a panic when absent). -/
def arg0 (args : List Object) : Except Err Object :=
  match args with
  | [] => .error .panic
  | a :: _ => .ok a

/-- `args[1]` inside a builtin (a panic when absent). -/
def arg1 (args : List Object) : Except Err Object :=
  match args with
  | _ :: a :: _ => .ok a
  | _ => .error .panic

/-! ### The evaluator (`src/lib/src/evaluation/mod.rs`)

Every function takes a fuel that every (mutually) recursive call decrements;
`Err.fuel` never occurs at the fuel values used by the theorems below. -/

mutual

/-- `Evaluator::eval_program`. -/
def evalProgram : Nat → List Stmt → M Object
  | 0, _ => M.throw .fuel
  | fuel + 1, stmts => evalProgramGo fuel stmts .void

/-- The statement loop of `eval_program` (`result` starts as `Void`; a
`Return` is unwrapped and ends the program). -/
def evalProgramGo : Nat → List Stmt → Object → M Object
  | 0, _, _ => M.throw .fuel
  | _ + 1, [], result => M.pure result
  | fuel + 1, stmt :: rest, _ =>
    M.bind (evalStmt fuel stmt) (fun v =>
      match v with
      | .ret value => M.pure value
      | value => evalProgramGo fuel rest value)

/-- `Evaluator::eval_block_stmt`. -/
def evalBlockStmt : Nat → List Stmt → M Object
  | 0, _ => M.throw .fuel
  | fuel + 1, stmts => evalBlockGo fuel stmts .void

/-- The statement loop of `eval_block_stmt` (a `Return` propagates still
wrapped). -/
def evalBlockGo : Nat → List Stmt → Object → M Object
  | 0, _, _ => M.throw .fuel
  | _ + 1, [], result => M.pure result
  | fuel + 1, stmt :: rest, _ =>
    M.bind (evalStmt fuel stmt) (fun v =>
      match v with
      | .ret value => M.pure (.ret value)
      | value => evalBlockGo fuel rest value)

/-- `Evaluator::eval_stmt`.  `Stmt::Import` falls into the catch-all arm
`_ => Err("statement not supported")`. -/
def evalStmt : Nat → Stmt → M Object
  | 0, _ => M.throw .fuel
  | fuel + 1, stmt =>
    match stmt with
    | .expr e => evalExpr fuel e
    | .ret e => M.bind (evalExpr fuel e) (fun v => M.pure (.ret v))
    | .assign name value =>
      M.bind (evalExpr fuel value) (fun v =>
        M.bind
          (match name with
           | .ident id => M.setVar id v
           | .array names =>
             (match v with
              | .array values => assignArrayIdents names values
              | _ => M.pure ())
           | _ => M.pure ())
          (fun _ => M.pure .void))
    | .importS _ _ => M.throw (.msg "statement not supported")

/-- `Evaluator::eval_expr`. -/
def evalExpr : Nat → Expr → M Object
  | 0, _ => M.throw .fuel
  | fuel + 1, e =>
    match e with
    | .number n => M.pure (.number n)
    | .str s => M.pure (.str s)
    | .boolean b => M.pure (nativeBoolToObject b)
    | .symbol s => M.pure (.symbol s)
    | .array elements =>
      M.bind (evalExprList fuel elements) (fun items => M.pure (.array items))
    | .hash entries =>
      M.bind (evalHashPairs fuel entries []) (fun h => M.pure (.hash h))
    | .prefixE op right =>
      M.bind (evalExpr fuel right) (fun r => M.ofExcept (evalPrefixExpression op r))
    | .infixE left op right =>
      M.bind (evalExpr fuel left) (fun l =>
        M.bind (evalExpr fuel right) (fun r =>
          M.ofExcept (evalInfixExpression l op r)))
    | .ifE condition consequence alternative =>
      evalIfExpression fuel condition consequence alternative
    | .matchE condition cases => evalMatchExpression fuel condition cases
    | .ident name =>
      fun st =>
        match envGet st st.cur name with
        | some v => (.ok v, st)
        | none => (.error (.msg "Identifier not found: {}"), st)
    | .call f args => evalCallExpression fuel f args
    | .member property object computed =>
      evalMemberExpression fuel property object computed
    | .function parameters body =>
      fun st =>
        let (idx, st') := newEnclosed st st.cur
        (.ok (.function parameters body idx), st')

/-- The element loop of `eval_expr` for arrays and the argument loop of
`eval_call_expression`. -/
def evalExprList : Nat → List Expr → M (List Object)
  | 0, _ => M.throw .fuel
  | _ + 1, [] => M.pure []
  | fuel + 1, e :: rest =>
    M.bind (evalExpr fuel e) (fun v =>
      M.bind (evalExprList fuel rest) (fun vs => M.pure (v :: vs)))

/-- The entry loop of `eval_expr` for hash literals (`hash.insert`). -/
def evalHashPairs : Nat → List (Name × Expr) → List (Name × Object) →
    M (List (Name × Object))
  | 0, _, _ => M.throw .fuel
  | _ + 1, [], acc => M.pure acc
  | fuel + 1, (k, e) :: rest, acc =>
    M.bind (evalExpr fuel e) (fun v => evalHashPairs fuel rest (listInsert acc k v))

/-- `Evaluator::eval_if_expression`. -/
def evalIfExpression : Nat → Expr → List Stmt → List Stmt → M Object
  | 0, _, _, _ => M.throw .fuel
  | fuel + 1, condition, consequence, alternative =>
    M.bind (evalExpr fuel condition) (fun c =>
      if isTruthy c then evalBlockStmt fuel consequence
      else evalBlockStmt fuel alternative)

/-- `Evaluator::eval_call_expression`.  After a successful body evaluation
`self.env` is set to the callee's captured environment (`self.env = env`);
a failing body evaluation propagates through `?` without touching
`self.env`, leaving the activation environment current. -/
def evalCallExpression : Nat → Expr → List Expr → M Object
  | 0, _, _ => M.throw .fuel
  | fuel + 1, function, arguments =>
    M.bind (evalExpr fuel function) (fun f =>
      M.bind (evalExprList fuel arguments) (fun args =>
        match f with
        | .function params body env =>
          if params.length ≠ args.length then
            M.throw (.msg "Wrong number of arguments: expected {}, found {}")
          else
            M.bind
              (fun st =>
                let (idx, st1) := newEnclosed st env
                let st2 := bindParams st1 idx params args
                (.ok (), { st2 with cur := idx }))
              (fun _ =>
                M.bind (evalBlockStmt fuel body) (fun res =>
                  M.bind (M.modify (fun s => { s with cur := env })) (fun _ =>
                    M.pure res)))
        | .builtin params bf =>
          if params < 0 || params == (args.length : Int) then
            M.withCurRestored (applyBuiltin fuel bf args)
          else M.throw (.msg "Incorrect number of arguments passed: expected {}, got {}")
        | _ => M.throw (.msg "Cannot call expression {}")))

/-- `Evaluator::eval_function_call` (the entry point builtins use for
callbacks); identical to the call expression after argument evaluation. -/
def evalFunctionCall : Nat → Object → List Object → M Object
  | 0, _, _ => M.throw .fuel
  | fuel + 1, f, args =>
    match f with
    | .function params body env =>
      if params.length ≠ args.length then
        M.throw (.msg "Wrong number of arguments: expected {}, found {}")
      else
        M.bind
          (fun st =>
            let (idx, st1) := newEnclosed st env
            let st2 := bindParams st1 idx params args
            (.ok (), { st2 with cur := idx }))
          (fun _ =>
            M.bind (evalBlockStmt fuel body) (fun res =>
              M.bind (M.modify (fun s => { s with cur := env })) (fun _ =>
                M.pure res)))
    | .builtin params bf =>
      if params < 0 || params == (args.length : Int) then
        M.withCurRestored (applyBuiltin fuel bf args)
      else M.throw (.msg "Incorrect number of arguments passed: expected {}, got {}")
    | _ => M.throw (.msg "Cannot call expression {}")

/-- `Evaluator::eval_member_expression` (`unreachable!()` for a non-computed
non-identifier property is a panic). -/
def evalMemberExpression : Nat → Expr → Expr → Bool → M Object
  | 0, _, _, _ => M.throw .fuel
  | fuel + 1, property, object, computed =>
    M.bind (evalExpr fuel object) (fun obj =>
      M.bind
        (if computed then evalExpr fuel property
         else
           match property with
           | .ident id => M.pure (.ident id)
           | _ => M.throw .panic)
        (fun prop => evalMemberComponents fuel prop obj computed))

/-- `Evaluator::eval_member_components`.  Both element lookups use
`.unwrap()`: a missing array index or hash key is a panic, not an error. -/
def evalMemberComponents : Nat → Object → Object → Bool → M Object
  | 0, _, _, _ => M.throw .fuel
  | fuel + 1, property, object, computed =>
    match property, object with
    | .number n, .array arr =>
      (match arr.get? (f64AsUsize n) with
       | some v => M.pure v
       | none => M.throw .panic)
    | .str s, .hash h =>
      (match listGet h s with
       | some v => M.pure v
       | none => M.throw .panic)
    | .ident prop, obj =>
      M.bind
        (if computed then
          (fun st =>
            match envGet st st.cur prop with
            | some v => (.ok v, st)
            | none => (.error .panic, st))
         else M.pure (.str prop))
        (fun index => evalMemberComponents fuel index obj computed)
    | _, _ => M.throw (.msg "Incompatible types, {} and {}")

/-- `Evaluator::eval_match_expression`. -/
def evalMatchExpression : Nat → Expr → List (Pattern × List Stmt) → M Object
  | 0, _, _ => M.throw .fuel
  | fuel + 1, condition, cases =>
    M.bind (evalExpr fuel condition) (fun c =>
      M.bind M.get (fun st => evalMatchLoop fuel cases c st.cur))

/-- The case loop of `eval_match_expression`.  `current` is
`Rc::clone(&self.env)`; each iteration's `env` is another clone of the same
target, so bindings made while testing a pattern land in the current
environment. -/
def evalMatchLoop : Nat → List (Pattern × List Stmt) → Object → Nat → M Object
  | 0, _, _, _ => M.throw .fuel
  | _ + 1, [], _, _ => M.pure .void
  | fuel + 1, (case, consequence) :: rest, condition, current =>
    M.bind (evalPatternMatching current case condition) (fun evaled =>
      match evalMatchCase evaled condition with
      | none => M.throw .panic
      | some true =>
        M.bind (M.modify (fun s => { s with cur := current })) (fun _ =>
          M.bind (evalBlockStmt fuel consequence) (fun result =>
            M.bind (M.modify (fun s => { s with cur := current })) (fun _ =>
              M.pure result)))
      | some false => evalMatchLoop fuel rest condition current)

/-- Dispatch of a `Object::Builtin` call (`func(args, …)`). -/
def applyBuiltin : Nat → BuiltinName → List Object → M Object
  | 0, _, _ => M.throw .fuel
  | fuel + 1, bf, args =>
    match bf with
    | .head => M.ofExcept ((arg0 args).bind builtinHead)
    | .init => M.ofExcept ((arg0 args).bind builtinInit)
    | .last => M.ofExcept ((arg0 args).bind builtinLast)
    | .tail => M.ofExcept ((arg0 args).bind builtinTail)
    | .len => M.ofExcept ((arg0 args).bind builtinLen)
    | .log => M.pure .void
    | .map =>
      M.bind (M.ofExcept (arg0 args)) (fun a0 =>
        match a0 with
        | .array array =>
          M.bind (M.ofExcept (arg1 args)) (fun a1 =>
            match a1 with
            | .function p b env => mapLoop fuel p b env array []
            | _ => M.throw (.msg "Expected function, got {}"))
        | _ => M.throw (.msg "{} isn't an array"))

/-- The element loop of builtin `map` (each element is passed through
`eval_function_call`). -/
def mapLoop : Nat → List Name → List Stmt → Nat → List Object → List Object →
    M Object
  | 0, _, _, _, _, _ => M.throw .fuel
  | _ + 1, _, _, _, [], acc => M.pure (.array acc)
  | fuel + 1, p, b, env, el :: rest, acc =>
    M.bind (evalFunctionCall fuel (.function p b env) [el]) (fun res =>
      mapLoop fuel p b env rest (acc ++ [res]))

end

/-! ### Symbol table (`src/lib/src/compiler/symbol_table.rs`) -/

structure Symbol where
  name : Name
  scope : String
  index : Nat
deriving DecidableEq, Repr

structure SymbolTable where
  store : List (Name × Symbol)
  num_definitions : Nat
deriving Repr

def SymbolTable.new : SymbolTable := ⟨[], 0⟩

/-- `SymbolTable::define`: the new symbol's index is always
`num_definitions`, and the store entry for `name` is replaced. -/
def SymbolTable.define (t : SymbolTable) (name : Name) : Symbol × SymbolTable :=
  let symbol : Symbol := ⟨name, "GLOBAL", t.num_definitions⟩
  (symbol, ⟨listInsert t.store name symbol, t.num_definitions + 1⟩)

/-- `SymbolTable::resolve`. -/
def SymbolTable.resolve (t : SymbolTable) (name : Name) : Option Symbol :=
  listGet t.store name

/-! ### Instruction encoding (`src/lib/src/code/mod.rs`) -/

/-- The operand-width vector of each opcode (`get_definitions`). -/
def operandWidths : Opcode → List Nat
  | .constant => [2]
  | .jumpNotTruthy => [2]
  | .jump => [2]
  | .getGlobal => [2]
  | .setGlobal => [2]
  | .array => [2]
  | _ => []

/-- `put_u16(operand as u16)` for width 2, nothing for other widths. -/
def putOperand (w : Nat) (x : Nat) : List Nat :=
  if w = 2 then [x % 65536 / 256, x % 256] else []

/-- `code::make`: the opcode byte followed by each operand encoded at its
width (operands are zipped with the width vector). -/
def make (op : Opcode) (operands : List Nat) : List Nat :=
  op.byte :: ((operands.zip (operandWidths op)).map (fun ow => putOperand ow.2 ow.1)).flatten

/-- `code::read_u16` (big endian; indexing an undersized slice panics). -/
def readU16 (ins : List Nat) : Except Err Nat :=
  match ins with
  | b0 :: b1 :: _ => .ok (b0 * 256 + b1)
  | _ => .error .panic

/-! ### The compiler (`src/lib/src/compiler/mod.rs`) -/

structure EmittedInstruction where
  code : Opcode
  position : Nat
deriving DecidableEq, Repr

structure Compiler where
  instructions : List Nat
  constants : List Object
  last_instruction : EmittedInstruction
  previous_instruction : EmittedInstruction
  symbols : SymbolTable
deriving Repr

structure Bytecode where
  instructions : List Nat
  constants : List Object
deriving Repr

/-- `Compiler::new` (`last` and `previous` start as `Pop` at position 0). -/
def Compiler.new : Compiler :=
  ⟨[], [], ⟨.pop, 0⟩, ⟨.pop, 0⟩, SymbolTable.new⟩

/-- `impl Into<Bytecode> for Compiler`. -/
def Compiler.toBytecode (c : Compiler) : Bytecode :=
  ⟨c.instructions, c.constants⟩

/-- `Compiler::add_constant`. -/
def Compiler.addConstant (c : Compiler) (obj : Object) : Nat × Compiler :=
  (c.constants.length, { c with constants := c.constants ++ [obj] })

/-- `Compiler::add_instructions`. -/
def Compiler.addInstructions (c : Compiler) (ins : List Nat) : Nat × Compiler :=
  (c.instructions.length, { c with instructions := c.instructions ++ ins })

/-- `Compiler::set_last`. -/
def Compiler.setLast (c : Compiler) (op : Opcode) (pos : Nat) : Compiler :=
  { c with previous_instruction := c.last_instruction,
           last_instruction := ⟨op, pos⟩ }

/-- `Compiler::emit`: encode, append, record as last (pushing the old last
into previous), return the byte position. -/
def Compiler.emit (c : Compiler) (op : Opcode) (operands : List Nat) :
    Nat × Compiler :=
  let ins := make op operands
  let (pos, c') := c.addInstructions ins
  (pos, c'.setLast op pos)

/-- `Compiler::last_instruction_is`. -/
def Compiler.lastInstructionIs (c : Compiler) (op : Opcode) : Bool :=
  c.last_instruction.code = op

/-- `Compiler::remove_last_pop`: truncate the buffer to the last
instruction's position and restore `last` from `previous` (`previous`
itself keeps its value). -/
def Compiler.removeLastPop (c : Compiler) : Compiler :=
  { c with instructions := c.instructions.take c.last_instruction.position,
           last_instruction := c.previous_instruction }

/-- The byte-overwrite loop of `Compiler::replace_instruction`
(`List.set` ignores out-of-range positions, which `replace_instruction`
never produces: patches stay inside the buffer). -/
def writeAt (xs : List Nat) (pos : Nat) : List Nat → List Nat
  | [] => xs
  | b :: rest => writeAt (xs.set pos b) (pos + 1) rest

/-- `Compiler::replace_instruction`. -/
def Compiler.replaceInstruction (c : Compiler) (pos : Nat) (new : List Nat) :
    Compiler :=
  { c with instructions := writeAt c.instructions pos new }

/-- `Compiler::change_operand` (re-reads the opcode byte at `pos`;
a missing byte or unknown opcode is a panic via `.unwrap()`). -/
def Compiler.changeOperand (c : Compiler) (pos : Nat) (operand : Nat) :
    Except Err Compiler :=
  match c.instructions.get? pos with
  | none => .error .panic
  | some b =>
    match Opcode.fromByte b with
    | none => .error .panic
    | some op => .ok (c.replaceInstruction pos (make op [operand]))

mutual

/-- `Compiler::compile` (a statement loop). -/
def compileProgram (c : Compiler) : List Stmt → Except Err Compiler
  | [] => .ok c
  | stmt :: rest =>
    match compileStmt c stmt with
    | .error e => .error e
    | .ok c' => compileProgram c' rest

/-- `Compiler::compile_stmt`.  An `Assign` whose target is not an identifier
hits `unreachable!()`; `Return` and `Import` fall into `_ => Ok(())` and
emit nothing. -/
def compileStmt (c : Compiler) : Stmt → Except Err Compiler
  | .assign name value =>
    match compileExpr c value with
    | .error e => .error e
    | .ok c1 =>
      match name with
      | .ident nm =>
        let (symbol, symbols') := c1.symbols.define nm
        let c2 := { c1 with symbols := symbols' }
        .ok (c2.emit .setGlobal [symbol.index]).2
      | _ => .error .panic
  | .expr e =>
    match compileExpr c e with
    | .error err => .error err
    | .ok c1 => .ok (c1.emit .pop []).2
  | .ret _ => .ok c
  | .importS _ _ => .ok c

/-- `Compiler::compile_expr`.  Hash, function, call, match and member
expressions fall into `_ => Ok(())` and emit nothing. -/
def compileExpr (c : Compiler) : Expr → Except Err Compiler
  | .ident id =>
    match c.symbols.resolve id with
    | some symbol => .ok (c.emit .getGlobal [symbol.index]).2
    | none => .error (.msg "Undefined variable: {}")
  | .infixE left op right =>
    if op == "<" || op == "<=" then
      match compileExpr c right with
      | .error e => .error e
      | .ok c1 =>
        match compileExpr c1 left with
        | .error e => .error e
        | .ok c2 =>
          if op == "<" then .ok (c2.emit .greater []).2
          else .ok (c2.emit .greaterEqual []).2
    else
      match compileExpr c left with
      | .error e => .error e
      | .ok c1 =>
        match compileExpr c1 right with
        | .error e => .error e
        | .ok c2 =>
          match op with
          | "+" => .ok (c2.emit .add []).2
          | "-" => .ok (c2.emit .sub []).2
          | "*" => .ok (c2.emit .mul []).2
          | "/" => .ok (c2.emit .div []).2
          | "%" => .ok (c2.emit .mod []).2
          | ">" => .ok (c2.emit .greater []).2
          | ">=" => .ok (c2.emit .greaterEqual []).2
          | "==" => .ok (c2.emit .equal []).2
          | "!=" => .ok (c2.emit .notEqual []).2
          | _ => .error (.msg "unknown operator {}")
  | .number n =>
    let (constant, c1) := c.addConstant (.number n)
    .ok (c1.emit .constant [constant]).2
  | .str s =>
    let (constant, c1) := c.addConstant (.str s)
    .ok (c1.emit .constant [constant]).2
  | .boolean b =>
    .ok (c.emit (if b then .true_ else .false_) []).2
  | .prefixE op e =>
    match compileExpr c e with
    | .error err => .error err
    | .ok c1 =>
      match op with
      | "!" => .ok (c1.emit .bang []).2
      | "-" => .ok (c1.emit .minus []).2
      | _ => .error (.msg "Unknown operator: {}")
  | .ifE condition consequence alternative =>
    match compileExpr c condition with
    | .error e => .error e
    | .ok c1 =>
      let (jumpNotTruthyPos, c2) := c1.emit .jumpNotTruthy [9999]
      match compileProgram c2 consequence with
      | .error e => .error e
      | .ok c3 =>
        let c4 := if c3.lastInstructionIs .pop then c3.removeLastPop else c3
        let (jumpPos, c5) := c4.emit .jump [9999]
        let afterConsequencePos := c5.instructions.length
        match c5.changeOperand jumpNotTruthyPos afterConsequencePos with
        | .error e => .error e
        | .ok c6 =>
          match compileProgram c6 alternative with
          | .error e => .error e
          | .ok c7 =>
            let c8 := if c7.lastInstructionIs .pop then c7.removeLastPop else c7
            let afterAlternativePos := c8.instructions.length
            c8.changeOperand jumpPos afterAlternativePos
  | .array elements =>
    let len := elements.length
    match compileExprList c elements with
    | .error e => .error e
    | .ok c1 => .ok (c1.emit .array [len]).2
  | .symbol _ => .ok c
  | .hash _ => .ok c
  | .function _ _ => .ok c
  | .call _ _ => .ok c
  | .matchE _ _ => .ok c
  | .member _ _ _ => .ok c

/-- The element loop of `compile_expr` for array literals. -/
def compileExprList (c : Compiler) : List Expr → Except Err Compiler
  | [] => .ok c
  | e :: rest =>
    match compileExpr c e with
    | .error err => .error err
    | .ok c1 => compileExprList c1 rest

end

/-! ### The stack virtual machine (`src/lib/src/vm/mod.rs`) -/

def STACK_SIZE : Nat := 2048

def GLOBALS_SIZE : Nat := 65536

/-- The mutable part of the `VM` (`stack` is the physical `Vec`, which keeps
popped values above `sp`; `last_stack_top` reads one of them). -/
structure VMState where
  stack : List Object
  sp : Nat
  globals : List Object
deriving Repr

def VMState.new : VMState := ⟨[], 0, []⟩

/-- `VM::new_with_globals` (the stack starts empty, globals carry over). -/
def VMState.newWithGlobals (globals : List Object) : VMState := ⟨[], 0, globals⟩

/-- `VM::last_stack_top`: `self.stack.get(self.sp)` — the slot just above
the stack pointer, i.e. the most recently popped value.  This is how both
the REPL and the VM tests read the result of a run. -/
def VMState.lastStackTop (st : VMState) : Option Object :=
  st.stack.get? st.sp

/-- `VM::push`: error at `sp == STACK_SIZE`; grow the `Vec` or overwrite
in place below its length. -/
def VMState.push (st : VMState) (obj : Object) : Except Err VMState :=
  if st.sp ≥ STACK_SIZE then .error (.msg "stack overflow")
  else
    .ok { st with
          stack :=
            if st.sp ≥ st.stack.length then st.stack ++ [obj]
            else st.stack.set st.sp obj,
          sp := st.sp + 1 }

/-- `VM::pop`: `self.sp -= 1; self.stack[self.sp]` — popping an empty stack
underflows the `usize` (a panic), as does reading past the `Vec`. -/
def VMState.pop (st : VMState) : Except Err (Object × VMState) :=
  match st.sp with
  | 0 => .error .panic
  | sp + 1 =>
    match st.stack.get? sp with
    | some v => .ok (v, { st with sp := sp })
    | none => .error .panic

/-- `VM::set_global`: error at `GLOBALS_SIZE`; push or overwrite. -/
def VMState.setGlobal (st : VMState) (index : Nat) (obj : Object) :
    Except Err VMState :=
  if index ≥ GLOBALS_SIZE then .error (.msg "globals overflow")
  else
    .ok { st with
          globals :=
            if index ≥ st.globals.length then st.globals ++ [obj]
            else st.globals.set index obj }

/-- `VM::is_truthy`: everything except `Boolean(false)` is truthy. -/
def vmIsTruthy : Object → Bool
  | .boolean false => false
  | _ => true

/-- `VM::execute_binary_number_op`. -/
def executeBinaryNumberOp (op : Opcode) (l r : ℚ) : Except Err Object :=
  match op with
  | .add => .ok (.number (l + r))
  | .sub => .ok (.number (l - r))
  | .mul => .ok (.number (l * r))
  | .div => .ok (.number (l / r))
  | .mod => .ok (.number (ratRem l r))
  | .greater => .ok (.boolean (decide (l > r)))
  | .greaterEqual => .ok (.boolean (decide (l ≥ r)))
  | _ => .error (.msg "Unknown operator: {:?}")

/-- `VM::execute_binary_string_op`. -/
def executeBinaryStringOp (op : Opcode) (l r : String) : Except Err Object :=
  match op with
  | .add => .ok (.str (l ++ r))
  | _ => .error (.msg "Unknown operator: {:?}")

/-- `VM::execute_binary_op` (pop right, pop left, dispatch on the operand
types; mixed or non-number/non-string operands error). -/
def executeBinaryOp (st : VMState) (op : Opcode) : Except Err VMState :=
  match st.pop with
  | .error e => .error e
  | .ok (right, st1) =>
    match st1.pop with
    | .error e => .error e
    | .ok (left, st2) =>
      match left, right with
      | .number l, .number r =>
        match executeBinaryNumberOp op l r with
        | .error e => .error e
        | .ok v => st2.push v
      | .str l, .str r =>
        match executeBinaryStringOp op l r with
        | .error e => .error e
        | .ok v => st2.push v
      | _, _ => .error (.msg "Invalid types for binary operation: {} {}")

/-- `VM::execute_minus_op`. -/
def executeMinusOp (st : VMState) : Except Err VMState :=
  match st.pop with
  | .error e => .error e
  | .ok (operand, st1) =>
    match operand with
    | .number n => st1.push (.number (-n))
    | _ => .error (.msg "Can't negate type: {}")

/-- `VM::execute_bang_op`. -/
def executeBangOp (st : VMState) : Except Err VMState :=
  match st.pop with
  | .error e => .error e
  | .ok (operand, st1) => st1.push (.boolean (!vmIsTruthy operand))

/-- `VM::execute_equality_op` (structural `==` / `!=`). -/
def executeEqualityOp (st : VMState) (op : Opcode) : Except Err VMState :=
  match st.pop with
  | .error e => .error e
  | .ok (right, st1) =>
    match st1.pop with
    | .error e => .error e
    | .ok (left, st2) =>
      match op with
      | .equal => st2.push (.boolean (objBeq left right))
      | .notEqual => st2.push (.boolean (!objBeq left right))
      | _ => .error (.msg "Unsupported equality operator: {:?}")

/-- `VM::build_array`: read `stack[start..end)` (indexing past the `Vec` is
a panic, unreachable in compiled code). -/
def buildArray (st : VMState) (start fin : Nat) : Except Err Object :=
  if fin ≤ st.stack.length then
    .ok (.array ((st.stack.drop start).take (fin - start)))
  else .error .panic

/-- One iteration of the `VM::run` loop at instruction pointer `ip` (the
returned pointer includes the loop's trailing `ip += 1`).  The opcode byte
is read with `self.instructions[ip]` and decoded with `.unwrap()`; operands
are read from the slice starting at `ip + 1`. -/
def vmStep (I : List Nat) (consts : List Object) (st : VMState) (ip : Nat) :
    Except Err (VMState × Nat) :=
  match I.get? ip with
  | none => .error .panic
  | some b =>
    match Opcode.fromByte b with
    | none => .error .panic
    | some op =>
      match op with
      | .constant =>
        match readU16 (I.drop (ip + 1)) with
        | .error e => .error e
        | .ok index =>
          match consts.get? index with
          | none => .error .panic
          | some constant =>
            match st.push constant with
            | .error e => .error e
            | .ok st' => .ok (st', ip + 3)
      | .add =>
        match executeBinaryOp st op with
        | .error e => .error e
        | .ok st' => .ok (st', ip + 1)
      | .sub =>
        match executeBinaryOp st op with
        | .error e => .error e
        | .ok st' => .ok (st', ip + 1)
      | .mul =>
        match executeBinaryOp st op with
        | .error e => .error e
        | .ok st' => .ok (st', ip + 1)
      | .div =>
        match executeBinaryOp st op with
        | .error e => .error e
        | .ok st' => .ok (st', ip + 1)
      | .mod =>
        match executeBinaryOp st op with
        | .error e => .error e
        | .ok st' => .ok (st', ip + 1)
      | .greater =>
        match executeBinaryOp st op with
        | .error e => .error e
        | .ok st' => .ok (st', ip + 1)
      | .greaterEqual =>
        match executeBinaryOp st op with
        | .error e => .error e
        | .ok st' => .ok (st', ip + 1)
      | .minus =>
        match executeMinusOp st with
        | .error e => .error e
        | .ok st' => .ok (st', ip + 1)
      | .bang =>
        match executeBangOp st with
        | .error e => .error e
        | .ok st' => .ok (st', ip + 1)
      | .equal =>
        match executeEqualityOp st op with
        | .error e => .error e
        | .ok st' => .ok (st', ip + 1)
      | .notEqual =>
        match executeEqualityOp st op with
        | .error e => .error e
        | .ok st' => .ok (st', ip + 1)
      | .true_ =>
        match st.push (.boolean true) with
        | .error e => .error e
        | .ok st' => .ok (st', ip + 1)
      | .false_ =>
        match st.push (.boolean false) with
        | .error e => .error e
        | .ok st' => .ok (st', ip + 1)
      | .pop =>
        match st.pop with
        | .error e => .error e
        | .ok (_, st') => .ok (st', ip + 1)
      | .jump =>
        match readU16 (I.drop (ip + 1)) with
        | .error e => .error e
        | .ok pos =>
          -- `ip = pos - 1` then `ip += 1`; at `pos == 0` the `usize`
          -- subtraction underflows (debug panic), and no emitted jump
          -- targets 0
          match pos with
          | 0 => .error .panic
          | _ + 1 => .ok (st, pos)
      | .jumpNotTruthy =>
        match readU16 (I.drop (ip + 1)) with
        | .error e => .error e
        | .ok pos =>
          match st.pop with
          | .error e => .error e
          | .ok (condition, st') =>
            if !vmIsTruthy condition then
              match pos with
              | 0 => .error .panic
              | _ + 1 => .ok (st', pos)
            else .ok (st', ip + 3)
      | .setGlobal =>
        match readU16 (I.drop (ip + 1)) with
        | .error e => .error e
        | .ok pos =>
          match st.pop with
          | .error e => .error e
          | .ok (obj, st') =>
            match st'.setGlobal pos obj with
            | .error e => .error e
            | .ok st'' => .ok (st'', ip + 3)
      | .getGlobal =>
        match readU16 (I.drop (ip + 1)) with
        | .error e => .error e
        | .ok pos =>
          match st.globals.get? pos with
          | none => .error .panic
          | some v =>
            match st.push v with
            | .error e => .error e
            | .ok st' => .ok (st', ip + 3)
      | .array =>
        match readU16 (I.drop (ip + 1)) with
        | .error e => .error e
        | .ok len =>
          if st.sp < len then .error .panic
          else
            match buildArray st (st.sp - len) st.sp with
            | .error e => .error e
            | .ok arr =>
              match VMState.push { st with sp := st.sp - len } arr with
              | .error e => .error e
              | .ok st' => .ok (st', ip + 3)

/-- The `while ip < instructions.len()` loop of `VM::run`.  The gas bounds
the number of iterations (a model artefact; compiled fragment code only
jumps forward, so `instructions.length` iterations always suffice). -/
def vmLoop (I : List Nat) (consts : List Object) :
    Nat → VMState → Nat → Except Err VMState
  | 0, _, _ => .error .fuel
  | gas + 1, st, ip =>
    if ip < I.length then
      match vmStep I consts st ip with
      | .error e => .error e
      | .ok (st', ip') => vmLoop I consts gas st' ip'
    else .ok st

/-- `VM::run` from `ip = 0`. -/
def vmRun (gas : Nat) (bc : Bytecode) (st : VMState) : Except Err VMState :=
  vmLoop bc.instructions bc.constants gas st 0

/-- The compile-and-execute pipeline of the drivers and the VM tests
(`repl.rs`, `vm_test.rs`): compile with a fresh compiler, run a fresh VM,
read `last_stack_top`. -/
def compileAndRun (gas : Nat) (prog : Program) : Except Err (Option Object) :=
  match compileProgram Compiler.new prog with
  | .error e => .error e
  | .ok c =>
    match vmRun gas c.toBytecode VMState.new with
    | .error e => .error e
    | .ok st => .ok st.lastStackTop

/-! ### C6: general characterization of pattern-case selection -/

mutual

/-- Whether `eval_pattern_matching` on sub-pattern `p` against value `v`
avoids the "Mismatched types" abort: an array sub-pattern needs an array
value and a hash sub-pattern needs a hash value, recursively along the
zip-truncated prefix. -/
def patSafe : Pattern → Object → Bool
  | .array ps, .array cs => patSafeZip ps cs
  | .array _, _ => false
  | .hash _, .hash _ => true
  | .hash _, _ => false
  | _, _ => true

def patSafeZip : List Pattern → List Object → Bool
  | [], _ => true
  | _ :: _, [] => true
  | p :: ps, c :: cs => patSafe p c && patSafeZip ps cs

end

mutual

/-- The comparison object `eval_pattern_matching` builds for `p` against
`v` when it does not abort (the `.null` arms are unreachable under
`patSafe`). -/
def evaledObj : Pattern → Object → Object
  | .nothing, _ => .ident "_"
  | .ident _, v => v
  | .number n, _ => .number n
  | .str s, _ => .str s
  | .symbol s, _ => .symbol s
  | .boolean b, _ => .boolean b
  | .array ps, .array cs => .array (evaledZip ps cs)
  | .array _, _ => .null
  | .hash entries, .hash ch =>
    .array (entries.map (fun ka => (listGet ch ka.1).getD .null))
  | .hash _, _ => .null

def evaledZip : List Pattern → List Object → List Object
  | [], _ => []
  | _ :: _, [] => []
  | p :: ps, c :: cs => evaledObj p c :: evaledZip ps cs

end

mutual

/-- Whether `eval_match_case` selects the comparison object built for `p`
against `v` (given `patSafe`): identifier and wildcard sub-patterns always
match, literals compare structurally, an array sub-pattern matches its
zip-truncated prefix elementwise, and a hash sub-pattern never matches
inside an array (its comparison object is an array of the bound values,
compared against the hash). -/
def patMatch : Pattern → Object → Bool
  | .nothing, _ => true
  | .ident _, _ => true
  | .number n, v => objBeq (.number n) v
  | .str s, v => objBeq (.str s) v
  | .symbol s, v => objBeq (.symbol s) v
  | .boolean b, v => objBeq (.boolean b) v
  | .array ps, .array cs => patMatchZip ps cs
  | .array _, _ => false
  | .hash _, _ => false

def patMatchZip : List Pattern → List Object → Bool
  | [], _ => true
  | _ :: _, [] => true
  | p :: ps, c :: cs => patMatch p c && patMatchZip ps cs

end

/-! ## C1: the two back-ends on their common fragment

The counterexample below shows the claim false as stated (the two
truthiness rules differ on non-boolean values, see C2).  The amended claim
restricts `!` operands and `if` conditions to boolean-shaped expressions,
requires `if` branches to be non-empty blocks of expression statements and
the program to end in an expression statement, and stays within the VM's
fixed resource limits; under those conditions the back-ends agree, which
the simulation proof at the end of this section establishes. -/

/-- Syntactically boolean-valued expressions: their successful evaluation is
a `boolean`, on which the two truthiness predicates agree. -/
def boolShaped : Expr → Bool
  | .boolean _ => true
  | .infixE _ op _ =>
    op == ">" || op == "<" || op == ">=" || op == "<=" || op == "==" || op == "!="
  | .prefixE op _ => op == "!"
  | _ => false

/-- The expressions of the common fragment: literals, identifiers, prefix
`-`, prefix `!` on boolean-shaped operands, the arithmetic / comparison /
equality infix operators, and if-expressions with boolean-shaped conditions
whose branches are non-empty blocks of fragment expression statements. -/
inductive FragExpr : Expr → Prop where
  | number (n : ℚ) : FragExpr (.number n)
  | str (s : String) : FragExpr (.str s)
  | boolean (b : Bool) : FragExpr (.boolean b)
  | ident (x : Name) : FragExpr (.ident x)
  | neg {e : Expr} : FragExpr e → FragExpr (.prefixE "-" e)
  | bang {e : Expr} : FragExpr e → boolShaped e = true → FragExpr (.prefixE "!" e)
  | binop {l r : Expr} (op : String) :
      (op = "+" ∨ op = "-" ∨ op = "*" ∨ op = "/" ∨ op = "%" ∨ op = ">" ∨
        op = "<" ∨ op = ">=" ∨ op = "<=" ∨ op = "==" ∨ op = "!=") →
      FragExpr l → FragExpr r → FragExpr (.infixE l op r)
  | ifE {c : Expr} {ts es : List Expr} :
      FragExpr c → boolShaped c = true →
      ts ≠ [] → es ≠ [] →
      (∀ e ∈ ts, FragExpr e) → (∀ e ∈ es, FragExpr e) →
      FragExpr (.ifE c (ts.map .expr) (es.map .expr))

/-- The statements of the common fragment: expression statements and
identifier assignments of fragment expressions. -/
inductive FragStmt : Stmt → Prop where
  | expr {e : Expr} : FragExpr e → FragStmt (.expr e)
  | assign {x : Name} {e : Expr} : FragExpr e → FragStmt (.assign (.ident x) e)

mutual

/-- An upper bound on the operand-stack depth a fragment expression needs
(one slot per expression node is generous and composes well). -/
def exprNodes : Expr → Nat
  | .prefixE _ e => exprNodes e + 1
  | .infixE l _ r => exprNodes l + exprNodes r + 1
  | .ifE c t a => exprNodes c + blockNodes t + blockNodes a + 1
  | _ => 1

def stmtNodes : Stmt → Nat
  | .expr e => exprNodes e + 1
  | .assign _ e => exprNodes e + 1
  | _ => 1

def blockNodes : List Stmt → Nat
  | [] => 0
  | s :: rest => stmtNodes s + blockNodes rest

end

/-- The values a fragment computation produces. -/
def ValClass (v : Object) : Prop :=
  (∃ n : ℚ, v = .number n) ∨ (∃ s : String, v = .str s) ∨ (∃ b : Bool, v = .boolean b)

/-- Compilation from `c` to `c'` only appends to and rewrites bytes at or
beyond `c`'s end, and only appends constants. -/
def Ext (c c' : Compiler) : Prop :=
  c.instructions.length ≤ c'.instructions.length ∧
  (∀ k, k < c.instructions.length → c'.instructions.get? k = c.instructions.get? k) ∧
  (∀ k x, c.constants.get? k = some x → c'.constants.get? k = some x) ∧
  c.constants.length ≤ c'.constants.length

/-- The final instruction buffer `I` holds `c`'s bytes on `[lo, hi)`. -/
def Agree (I : List Nat) (c : Compiler) (lo hi : Nat) : Prop :=
  ∀ k, lo ≤ k → k < hi → I.get? k = c.instructions.get? k

/-- Every constant of `c` sits at its index in the final pool. -/
def ConstsLe (c : Compiler) (consts : List Object) : Prop :=
  ∀ k x, c.constants.get? k = some x → consts.get? k = some x

/-- The correspondence between the compiler's symbol table, the evaluator's
root store and the VM's globals vector. -/
def GlobalsInv (syms : SymbolTable) (store : List (Name × Object))
    (g : List Object) : Prop :=
  g.length = syms.num_definitions ∧
  ∀ nm sym, listGet syms.store nm = some sym →
    sym.index < g.length ∧
    ∃ val, g.get? sym.index = some val ∧ listGet store nm = some val ∧ ValClass val

/-- The physical VM state realises logical stack `s` (bottom first) and
globals `g`; junk may sit above the stack pointer. -/
def VMOk (vm : VMState) (s : List Object) (g : List Object) : Prop :=
  vm.sp = s.length ∧ vm.stack.take s.length = s ∧
  s.length ≤ vm.stack.length ∧ vm.globals = g

/-- Running the VM from `(vm, p)` reaches `(vm', q)`: with `k` more gas,
running from `(vm, p)` equals running from `(vm', q)`. -/
def RunsTo (I : List Nat) (consts : List Object) (vm : VMState) (p : Nat)
    (vm' : VMState) (q : Nat) : Prop :=
  ∃ k, ∀ gas, vmLoop I consts (gas + k) vm p = vmLoop I consts gas vm' q

/-- The root-environment state the fragment evaluator stays in. -/
def rootState (store : List (Name × Object)) : EvalState :=
  ⟨[⟨store, none⟩], 0⟩

/-- The opcode `compile_expr` emits for a non-swapped infix operator. -/
def opcodeOf : String → Opcode
  | "+" => .add
  | "-" => .sub
  | "*" => .mul
  | "/" => .div
  | "%" => .mod
  | ">" => .greater
  | ">=" => .greaterEqual
  | "==" => .equal
  | "!=" => .notEqual
  | _ => .pop

/-- The simulation property of a fragment expression: a successful
evaluation in the root environment and a successful compilation yield a VM
run over the compiled region that pushes exactly the evaluated value. -/
def SimE (e : Expr) : Prop :=
  ∀ (c0 c1 : Compiler) (fuel : Nat) (store : List (Name × Object))
    (v : Object) (st' : EvalState) (I : List Nat) (consts : List Object)
    (s g : List Object) (vm : VMState),
    compileExpr c0 e = .ok c1 →
    evalExpr fuel e (rootState store) = (.ok v, st') →
    Agree I c1 c0.instructions.length c1.instructions.length →
    c1.instructions.length ≤ I.length →
    I.length ≤ 65535 →
    ConstsLe c1 consts →
    consts.length ≤ 65536 →
    GlobalsInv c0.symbols store g →
    g.length ≤ 65536 →
    VMOk vm s g →
    s.length + exprNodes e ≤ STACK_SIZE →
    st' = rootState store ∧ ValClass v ∧
    ∃ vm', RunsTo I consts vm c0.instructions.length vm'
        c1.instructions.length ∧
      VMOk vm' (s ++ [v]) g

/-- The program `x = 5; x`, used to witness `c1_amended`. -/
def c1WitnessProg : List Stmt :=
  [.assign (.ident "x") (.number 5), .expr (.ident "x")]

theorem Opcode.fromByte_byte (op : Opcode) : Opcode.fromByte op.byte = some op := by
  cases op <;> rfl

/-! ## Auxiliary lemmas -/

theorem listGet_listInsert {α : Type} (m : List (Name × α)) (k : Name) (v : α) :
    listGet (listInsert m k v) k = some v := by
  induction m with
  | nil => simp [listInsert, listGet]
  | cons h t ih =>
    obtain ⟨k', v'⟩ := h
    by_cases hk : (k' == k)
    · simp [listInsert, hk, listGet]
    · simp only [listInsert, hk, if_false, Bool.false_eq_true]
      simp only [listGet, hk, if_false, Bool.false_eq_true]
      exact ih

/-! ## The claims -/

/-- C2, counterexample: the claim says the truthiness predicate the VM
applies holds exactly when the value is `boolean(true)`; but the VM finds
`number 5` truthy although it is not `boolean(true)` (the evaluator finds
it falsy). -/
theorem c2_counterexample :
    vmIsTruthy (Object.number 5) = true ∧ Object.number 5 ≠ Object.boolean true ∧
    isTruthy (Object.number 5) = false :=
  ⟨rfl, fun h => Object.noConfusion h, rfl⟩

/-- C2, amended: the truthiness predicate the VM applies in `Bang` and
`JumpNotTruthy` holds exactly when the value is anything other than
`boolean(false)`, while the evaluator treats only `boolean(true)` as truthy;
the two predicates agree on booleans and disagree on every non-boolean
value. -/
theorem c2_amended (v : Object) :
    (vmIsTruthy v = true ↔ v ≠ Object.boolean false) ∧
    (isTruthy v = true ↔ v = Object.boolean true) ∧
    ((∀ b : Bool, v ≠ Object.boolean b) → vmIsTruthy v ≠ isTruthy v) := by
  cases v
  case boolean b =>
    refine ⟨?_, ?_, fun h => absurd rfl (h b)⟩ <;> cases b <;> simp [vmIsTruthy, isTruthy]
  all_goals exact ⟨by simp [vmIsTruthy], by simp [isTruthy], fun _ => by simp [vmIsTruthy, isTruthy]⟩

theorem c2_amended_witness :
    vmIsTruthy (Object.number 7) = true ∧
    vmIsTruthy (Object.number 7) ≠ isTruthy (Object.number 7) :=
  ⟨(c2_amended (Object.number 7)).1.mpr (fun h => Object.noConfusion h),
   (c2_amended (Object.number 7)).2.2 (fun b h => Object.noConfusion h)⟩

/-- C4, counterexample: the claim says the evaluator treats an import
statement as a no-op that never errors; evaluating one returns the error
"statement not supported". -/
theorem c4_counterexample :
    evalStmt 1 (Stmt.importS (Expr.str "module") (Pattern.ident "m")) initState =
      (.error (.msg "statement not supported"), initState) := rfl

/-- C4, amended: the evaluator rejects every import statement with the
error "statement not supported" (the catch-all arm of `eval_stmt`), leaving
the environment unchanged. -/
theorem c4_amended (fuel : Nat) (src : Expr) (nm : Pattern) (st : EvalState) :
    evalStmt (fuel + 1) (.importS src nm) st =
      (.error (.msg "statement not supported"), st) := rfl

/-- C5, counterexample: the claim says re-defining an existing name reuses
that name's index; defining "x" twice from a fresh table gives the second
symbol index 1, not the first symbol's index 0. -/
theorem c5_counterexample :
    ((SymbolTable.new.define "x").2.define "x").1.index ≠
      (SymbolTable.new.define "x").1.index := by decide

/-- C5, amended: `define` assigns indexes 0,1,2,… in define order — every
call returns a symbol whose index is the current `num_definitions` and
increments the counter — and re-defining an existing name allocates a fresh
index, re-pointing the name at it (the previous index is abandoned), rather
than reusing the old index. -/
theorem c5_amended (t : SymbolTable) (nm : Name) :
    (t.define nm).1.index = t.num_definitions ∧
    (t.define nm).2.num_definitions = t.num_definitions + 1 ∧
    (t.define nm).2.resolve nm = some (t.define nm).1 :=
  ⟨rfl, rfl, listGet_listInsert t.store nm (t.define nm).1⟩

/-- C9, counterexample: the claim says `remove_last_pop` after `emit(Pop)`
restores the instruction buffer, the last-instruction record and the
previous-instruction record; at a state whose previous and last records
differ, the previous-instruction record ends up changed. -/
theorem c9_counterexample :
    ((({ Compiler.new with
          instructions := [7, 7, 7],
          last_instruction := ⟨.add, 3⟩,
          previous_instruction := ⟨.constant, 0⟩ } : Compiler).emit .pop
        []).2.removeLastPop).previous_instruction ≠
      ({ Compiler.new with
          instructions := [7, 7, 7],
          last_instruction := ⟨.add, 3⟩,
          previous_instruction := ⟨.constant, 0⟩ } : Compiler).previous_instruction := by
  decide

/-- C9, amended: `emit(Pop, [])` followed by `remove_last_pop` restores the
instruction buffer, the last-instruction record, the constant pool and the
symbol table exactly; the previous-instruction record is not restored — it
ends up holding the pre-emit last-instruction record. -/
theorem c9_amended (c : Compiler) :
    ((c.emit .pop []).2.removeLastPop).instructions = c.instructions ∧
    ((c.emit .pop []).2.removeLastPop).last_instruction = c.last_instruction ∧
    ((c.emit .pop []).2.removeLastPop).previous_instruction = c.last_instruction ∧
    ((c.emit .pop []).2.removeLastPop).constants = c.constants ∧
    ((c.emit .pop []).2.removeLastPop).symbols = c.symbols := by
  refine ⟨?_, rfl, rfl, rfl, rfl⟩
  show (c.instructions ++ make .pop []).take c.instructions.length = c.instructions
  exact List.take_left _ _

theorem rustRound_near (q : ℚ) : |q - (rustRound q : ℚ)| ≤ 1 / 2 := by
  unfold rustRound
  by_cases h : 0 ≤ q
  · rw [if_pos h, abs_le]
    have h1 := Int.floor_le (q + 1 / 2)
    have h2 := Int.lt_floor_add_one (q + 1 / 2)
    constructor <;> linarith
  · rw [if_neg h, abs_le]
    have h1 := Int.floor_le (-q + 1 / 2)
    have h2 := Int.lt_floor_add_one (-q + 1 / 2)
    push_cast
    constructor <;> linarith

theorem rustRound_mono {a b : ℚ} (h : b ≤ a) : rustRound b ≤ rustRound a := by
  unfold rustRound
  by_cases hb : 0 ≤ b
  · rw [if_pos hb, if_pos (le_trans hb h)]
    exact Int.floor_le_floor (by linarith)
  · rw [if_neg hb]
    by_cases ha : 0 ≤ a
    · rw [if_pos ha]
      have h1 : (0 : ℤ) ≤ ⌊a + 1 / 2⌋ := Int.floor_nonneg.mpr (by linarith)
      have h2 : (0 : ℤ) ≤ ⌊-b + 1 / 2⌋ := Int.floor_nonneg.mpr (by linarith)
      omega
    · rw [if_neg ha]
      have : ⌊-a + 1 / 2⌋ ≤ ⌊-b + 1 / 2⌋ := Int.floor_le_floor (by linarith)
      omega

theorem rangeItems_eq (l r : ℤ) :
    rangeItems l r =
      (List.range (r - l).toNat).map
        (fun i : ℕ => Object.number ((l + (i : ℤ) : ℤ) : ℚ)) := by
  generalize hn : (r - l).toNat = n
  induction n generalizing l with
  | zero =>
    rw [rangeItems, if_neg (by omega)]
    simp
  | succ n ih =>
    rw [rangeItems, if_pos (by omega)]
    rw [List.range_succ_eq_map, List.map_cons, List.map_map]
    congr 1
    · norm_num
    · rw [ih (l + 1) (by omega)]
      apply List.map_congr_left
      intro i _
      simp only [Function.comp_apply]
      congr 1
      push_cast
      ring

/-- C7 (confirmed): evaluating the range expression on operands that are not
both numbers is an error; on numbers `a` and `b` it yields the array of the
consecutive integers from `rustRound a` up to `rustRound b - 1` as numbers,
where `rustRound` is the nearest integer (within 1/2, ties away from zero),
and the array is empty whenever `a ≥ b`. -/
theorem c7_range_operator :
    (∀ a b : ℚ,
      evalRangeOperator (.number a) (.number b) =
        .ok (.array ((List.range (rustRound b - rustRound a).toNat).map
          (fun i : ℕ => Object.number ((rustRound a + (i : ℤ) : ℤ) : ℚ)))) ∧
      (a ≥ b → evalRangeOperator (.number a) (.number b) = .ok (.array []))) ∧
    (∀ q : ℚ, |q - (rustRound q : ℚ)| ≤ 1 / 2) ∧
    (∀ l r : Object, ((∀ a : ℚ, l ≠ .number a) ∨ (∀ b : ℚ, r ≠ .number b)) →
      evalRangeOperator l r = .error (.msg "Can't use range operator on {} and {}")) := by
  refine ⟨fun a b => ⟨?_, fun hab => ?_⟩, rustRound_near, fun l r h => ?_⟩
  · simp only [evalRangeOperator]
    rw [rangeItems_eq]
  · simp only [evalRangeOperator]
    rw [rangeItems_eq]
    have := rustRound_mono hab
    have h0 : (rustRound b - rustRound a).toNat = 0 := by omega
    rw [h0]
    simp
  · cases l <;> cases r <;> try rfl
    rcases h with h | h
    · exact absurd rfl (h _)
    · exact absurd rfl (h _)

theorem c7_range_operator_witness :
    evalRangeOperator (.number 4) (.number 2) = .ok (.array []) ∧
    evalRangeOperator (.str "a") (.number 2) =
      .error (.msg "Can't use range operator on {} and {}") :=
  ⟨(c7_range_operator.1 4 2).2 (by norm_num),
   c7_range_operator.2.2 (.str "a") (.number 2)
     (.inl (fun a h => Object.noConfusion h))⟩

/-- C10 (confirmed): on a non-empty array the builtins `tail` and `init`
return the array without its first (respectively last) element; on the empty
array their slice indexing is out of bounds — a panic, so they are total
only for non-empty arrays — while `head` and `last` return null for the
empty array. -/
theorem c10_tail_init :
    (∀ xs : List Object, xs ≠ [] →
      builtinTail (.array xs) = .ok (.array (xs.drop 1)) ∧
      builtinInit (.array xs) = .ok (.array xs.dropLast)) ∧
    builtinTail (.array []) = .error .panic ∧
    builtinInit (.array []) = .error .panic ∧
    builtinHead (.array []) = .ok .null ∧
    builtinLast (.array []) = .ok .null := by
  refine ⟨fun xs hxs => ?_, rfl, rfl, rfl, rfl⟩
  cases xs with
  | nil => exact absurd rfl hxs
  | cons x rest => exact ⟨rfl, rfl⟩

theorem c10_tail_init_witness :
    builtinTail (.array [.number 1, .number 2]) = .ok (.array [.number 2]) ∧
    builtinInit (.array [.number 1, .number 2]) = .ok (.array [.number 1]) :=
  ⟨(c10_tail_init.1 [.number 1, .number 2] (by simp)).1,
   (c10_tail_init.1 [.number 1, .number 2] (by simp)).2⟩

/-- C8 (code bug): the claim (and the spec's error policy) says every
evaluator operation yields a value or a textual error, with the member
lookup's failure branch handled; but `eval_member_components` unwraps the
element lookup, so the computed member access `[1, 2][5]` panics (a process
abort), while an in-range access returns its value. -/
theorem c8_member_panic :
    (evalProgram 10
      [.expr (.member (.number 5) (.array [.number 1, .number 2]) true)]
      initState).1 = .error .panic ∧
    (evalMemberComponents 1 (.number 5) (.array [.number 1, .number 2]) true
      initState).1 = .error .panic ∧
    (evalMemberComponents 1 (.number 1) (.array [.number 1, .number 2]) true
      initState).1 = .ok (.number 2) :=
  ⟨rfl, rfl, rfl⟩

/-- C3 (code bug): the claim (and the spec) says a function call restores
the caller's environment on success and on error.  In the code, a
successful call leaves the evaluator in the callee's captured environment
(arena index 1, a fresh child — not the caller's index 0), a failing body
leaves it in the activation environment (index 2), and the leak is
observable: in `let g = fn() -> y; let f = fn() -> 2; f(); let y = 5; g()`
the binding of `y` lands in `f`'s captured environment, so `g()` fails with
"Identifier not found" where restoration of the caller's environment would
yield 5. -/
theorem c3_env_not_restored :
    ((evalProgram 10 [.expr (.call (.function [] [.expr (.number 1)]) [])]
        initState).1 = .ok (.number 1) ∧
      (evalProgram 10 [.expr (.call (.function [] [.expr (.number 1)]) [])]
        initState).2.cur = 1 ∧
      initState.cur = 0) ∧
    (evalProgram 10 [.expr (.call (.function [] [.expr (.ident "y")]) [])]
        initState).2.cur = 2 ∧
    (evalProgram 20
      [.assign (.ident "g") (.function [] [.expr (.ident "y")]),
       .assign (.ident "f") (.function [] [.expr (.number 2)]),
       .expr (.call (.ident "f") []),
       .assign (.ident "y") (.number 5),
       .expr (.call (.ident "g") [])] initState).1 =
      .error (.msg "Identifier not found: {}") :=
  ⟨⟨rfl, rfl, rfl⟩, rfl, rfl⟩

/-! Reflexivity of the derived structural equalities (needed because an
identifier sub-pattern's comparison object is the condition itself, so its
selection test compares the condition with itself). -/

mutual

theorem exprBeq_refl : ∀ e : Expr, exprBeq e e = true
  | .number _ => by simp [exprBeq]
  | .ident _ => by simp [exprBeq]
  | .prefixE _ r => by simp [exprBeq, exprBeq_refl r]
  | .infixE l _ r => by simp [exprBeq, exprBeq_refl l, exprBeq_refl r]
  | .boolean _ => by simp [exprBeq]
  | .str _ => by simp [exprBeq]
  | .symbol _ => by simp [exprBeq]
  | .ifE c t e => by
    simp [exprBeq, exprBeq_refl c, stmtListBeq_refl t, stmtListBeq_refl e]
  | .function _ b => by simp [exprBeq, stmtListBeq_refl b]
  | .call f a => by simp [exprBeq, exprBeq_refl f, exprListBeq_refl a]
  | .matchE c cs => by simp [exprBeq, exprBeq_refl c, caseListBeq_refl cs]
  | .array a => by simp [exprBeq, exprListBeq_refl a]
  | .hash a => by simp [exprBeq, hashEntryListBeq_refl a]
  | .member p o _ => by simp [exprBeq, exprBeq_refl p, exprBeq_refl o]

theorem exprListBeq_refl : ∀ xs : List Expr, exprListBeq xs xs = true
  | [] => by simp [exprListBeq]
  | x :: xs => by simp [exprListBeq, exprBeq_refl x, exprListBeq_refl xs]

theorem hashEntryListBeq_refl :
    ∀ xs : List (Name × Expr), hashEntryListBeq xs xs = true
  | [] => by simp [hashEntryListBeq]
  | (_, v) :: xs => by
    simp [hashEntryListBeq, exprBeq_refl v, hashEntryListBeq_refl xs]

theorem stmtBeq_refl : ∀ s : Stmt, stmtBeq s s = true
  | .assign n v => by simp [stmtBeq, patternBeq_refl n, exprBeq_refl v]
  | .ret e => by simp [stmtBeq, exprBeq_refl e]
  | .expr e => by simp [stmtBeq, exprBeq_refl e]
  | .importS s n => by simp [stmtBeq, exprBeq_refl s, patternBeq_refl n]

theorem stmtListBeq_refl : ∀ xs : List Stmt, stmtListBeq xs xs = true
  | [] => by simp [stmtListBeq]
  | x :: xs => by simp [stmtListBeq, stmtBeq_refl x, stmtListBeq_refl xs]

theorem caseListBeq_refl :
    ∀ xs : List (Pattern × List Stmt), caseListBeq xs xs = true
  | [] => by simp [caseListBeq]
  | (p, b) :: xs => by
    simp [caseListBeq, patternBeq_refl p, stmtListBeq_refl b, caseListBeq_refl xs]

theorem patternBeq_refl : ∀ p : Pattern, patternBeq p p = true
  | .str _ => by simp [patternBeq]
  | .number _ => by simp [patternBeq]
  | .boolean _ => by simp [patternBeq]
  | .symbol _ => by simp [patternBeq]
  | .ident _ => by simp [patternBeq]
  | .array ps => by simp [patternBeq, patternListBeq_refl ps]
  | .hash _ => by simp [patternBeq]
  | .nothing => rfl

theorem patternListBeq_refl : ∀ xs : List Pattern, patternListBeq xs xs = true
  | [] => rfl
  | x :: xs => by simp [patternListBeq, patternBeq_refl x, patternListBeq_refl xs]

end

mutual

theorem objBeq_refl : ∀ v : Object, objBeq v v = true
  | .number _ => by simp [objBeq]
  | .str _ => by simp [objBeq]
  | .symbol _ => by simp [objBeq]
  | .ident _ => by simp [objBeq]
  | .boolean _ => by simp [objBeq]
  | .array xs => by simp [objBeq, objListBeq_refl xs]
  | .hash h => by simp [objBeq, objHashBeq_refl h]
  | .ret o => by simp [objBeq, objBeq_refl o]
  | .function _ b _ => by simp [objBeq, stmtListBeq_refl b]
  | .builtin _ _ => by simp [objBeq]
  | .void => rfl
  | .null => rfl

theorem objListBeq_refl : ∀ xs : List Object, objListBeq xs xs = true
  | [] => rfl
  | x :: xs => by simp [objListBeq, objBeq_refl x, objListBeq_refl xs]

theorem objHashBeq_refl : ∀ xs : List (Name × Object), objHashBeq xs xs = true
  | [] => rfl
  | (_, v) :: xs => by simp [objHashBeq, objBeq_refl v, objHashBeq_refl xs]

end

mutual

theorem evalMatchCase_self : ∀ v : Object, evalMatchCase v v = some true
  | .number a => by simp [evalMatchCase, objBeq_refl (.number a)]
  | .str s => by simp [evalMatchCase, objBeq_refl (.str s)]
  | .symbol s => by simp [evalMatchCase, objBeq_refl (.symbol s)]
  | .ident _ => rfl
  | .boolean b => by simp [evalMatchCase, objBeq_refl (.boolean b)]
  | .array xs => evalMatchCaseList_self xs
  | .hash h => by simp [evalMatchCase, objBeq_refl (.hash h)]
  | .ret o => by simp [evalMatchCase, objBeq_refl (.ret o)]
  | .function p b e => by simp [evalMatchCase, objBeq_refl (.function p b e)]
  | .builtin a f => by simp [evalMatchCase, objBeq_refl (.builtin a f)]
  | .void => rfl
  | .null => rfl

theorem evalMatchCaseList_self :
    ∀ xs : List Object, evalMatchCaseList xs xs = some true
  | [] => rfl
  | x :: xs => by
    show (match evalMatchCase x x with
      | none => none
      | some false => some false
      | some true => evalMatchCaseList xs xs) = some true
    rw [evalMatchCase_self x]
    exact evalMatchCaseList_self xs

end

mutual

theorem evalMatchCase_evaled : ∀ (p : Pattern) (v : Object),
    patSafe p v = true → evalMatchCase (evaledObj p v) v = some (patMatch p v)
  | .nothing, _, _ => rfl
  | .ident _, v, _ => evalMatchCase_self v
  | .number _, _, _ => rfl
  | .str _, _, _ => rfl
  | .symbol _, _, _ => rfl
  | .boolean _, _, _ => rfl
  | .array ps, .array cs, h => evalMatchCaseList_evaled ps cs h
  | .array _, .number _, h => Bool.noConfusion h
  | .array _, .str _, h => Bool.noConfusion h
  | .array _, .symbol _, h => Bool.noConfusion h
  | .array _, .ident _, h => Bool.noConfusion h
  | .array _, .boolean _, h => Bool.noConfusion h
  | .array _, .hash _, h => Bool.noConfusion h
  | .array _, .ret _, h => Bool.noConfusion h
  | .array _, .function _ _ _, h => Bool.noConfusion h
  | .array _, .builtin _ _, h => Bool.noConfusion h
  | .array _, .void, h => Bool.noConfusion h
  | .array _, .null, h => Bool.noConfusion h
  | .hash _, .hash _, _ => rfl
  | .hash _, .number _, h => Bool.noConfusion h
  | .hash _, .str _, h => Bool.noConfusion h
  | .hash _, .symbol _, h => Bool.noConfusion h
  | .hash _, .ident _, h => Bool.noConfusion h
  | .hash _, .boolean _, h => Bool.noConfusion h
  | .hash _, .array _, h => Bool.noConfusion h
  | .hash _, .ret _, h => Bool.noConfusion h
  | .hash _, .function _ _ _, h => Bool.noConfusion h
  | .hash _, .builtin _ _, h => Bool.noConfusion h
  | .hash _, .void, h => Bool.noConfusion h
  | .hash _, .null, h => Bool.noConfusion h

theorem evalMatchCaseList_evaled : ∀ (ps : List Pattern) (cs : List Object),
    patSafeZip ps cs = true →
    evalMatchCaseList (evaledZip ps cs) cs = some (patMatchZip ps cs)
  | [], _, _ => rfl
  | _ :: _, [], _ => rfl
  | p :: ps, c :: cs, h => by
    have hsplit : patSafe p c = true ∧ patSafeZip ps cs = true := by
      have hx := h
      simp [patSafeZip, Bool.and_eq_true] at hx
      exact hx
    obtain ⟨h1, h2⟩ := hsplit
    show (match evalMatchCase (evaledObj p c) c with
      | none => none
      | some false => some false
      | some true => evalMatchCaseList (evaledZip ps cs) cs) =
      some (patMatch p c && patMatchZip ps cs)
    rw [evalMatchCase_evaled p c h1]
    cases hm : patMatch p c with
    | false => rfl
    | true =>
      rw [evalMatchCaseList_evaled ps cs h2]
      simp

end

theorem evalPatternHash_ok (env : Nat) :
    ∀ (entries : List (Name × Option Name)) (ch : List (Name × Object))
      (st : EvalState),
      ∃ st', evalPatternHash env entries ch st =
        (.ok (entries.map (fun ka => (listGet ch ka.1).getD .null)), st')
  | [], _, st => ⟨st, rfl⟩
  | (key, al) :: rest, ch, st => by
    obtain ⟨st', h⟩ := evalPatternHash_ok env rest ch
      (envSet st env (al.getD key) ((listGet ch key).getD .null))
    refine ⟨st', ?_⟩
    show M.bind (evalPatternHash env rest ch) _
        (envSet st env (al.getD key) ((listGet ch key).getD .null)) = _
    simp only [M.bind, h, M.pure, List.map]

mutual

theorem evalPatternMatching_safe (env : Nat) :
    ∀ (p : Pattern) (v : Object) (st : EvalState), patSafe p v = true →
      ∃ st', evalPatternMatching env p v st = (.ok (evaledObj p v), st')
  | .nothing, _, st, _ => ⟨st, rfl⟩
  | .ident id, v, st, _ => ⟨envSet st env id v, rfl⟩
  | .number _, _, st, _ => ⟨st, rfl⟩
  | .str _, _, st, _ => ⟨st, rfl⟩
  | .symbol _, _, st, _ => ⟨st, rfl⟩
  | .boolean _, _, st, _ => ⟨st, rfl⟩
  | .array ps, .array cs, st, h => by
    obtain ⟨st', h'⟩ := evalPatternArray_safe env ps cs st h
    refine ⟨st', ?_⟩
    show M.bind (evalPatternArray env ps cs) _ st = _
    simp only [M.bind, h', M.pure]
    simp [evaledObj]
  | .array _, .number _, _, h => Bool.noConfusion h
  | .array _, .str _, _, h => Bool.noConfusion h
  | .array _, .symbol _, _, h => Bool.noConfusion h
  | .array _, .ident _, _, h => Bool.noConfusion h
  | .array _, .boolean _, _, h => Bool.noConfusion h
  | .array _, .hash _, _, h => Bool.noConfusion h
  | .array _, .ret _, _, h => Bool.noConfusion h
  | .array _, .function _ _ _, _, h => Bool.noConfusion h
  | .array _, .builtin _ _, _, h => Bool.noConfusion h
  | .array _, .void, _, h => Bool.noConfusion h
  | .array _, .null, _, h => Bool.noConfusion h
  | .hash entries, .hash ch, st, _ => by
    obtain ⟨st', h'⟩ := evalPatternHash_ok env entries ch st
    refine ⟨st', ?_⟩
    show M.bind (evalPatternHash env entries ch) _ st = _
    simp only [M.bind, h', M.pure]
    simp [evaledObj]
  | .hash _, .number _, _, h => Bool.noConfusion h
  | .hash _, .str _, _, h => Bool.noConfusion h
  | .hash _, .symbol _, _, h => Bool.noConfusion h
  | .hash _, .ident _, _, h => Bool.noConfusion h
  | .hash _, .boolean _, _, h => Bool.noConfusion h
  | .hash _, .array _, _, h => Bool.noConfusion h
  | .hash _, .ret _, _, h => Bool.noConfusion h
  | .hash _, .function _ _ _, _, h => Bool.noConfusion h
  | .hash _, .builtin _ _, _, h => Bool.noConfusion h
  | .hash _, .void, _, h => Bool.noConfusion h
  | .hash _, .null, _, h => Bool.noConfusion h

theorem evalPatternArray_safe (env : Nat) :
    ∀ (ps : List Pattern) (cs : List Object) (st : EvalState),
      patSafeZip ps cs = true →
      ∃ st', evalPatternArray env ps cs st = (.ok (evaledZip ps cs), st')
  | [], _, st, _ => ⟨st, rfl⟩
  | _ :: _, [], st, _ => ⟨st, rfl⟩
  | p :: ps, c :: cs, st, h => by
    have hsplit : patSafe p c = true ∧ patSafeZip ps cs = true := by
      have hx := h
      simp [patSafeZip, Bool.and_eq_true] at hx
      exact hx
    obtain ⟨h1, h2⟩ := hsplit
    obtain ⟨st1, hm⟩ := evalPatternMatching_safe env p c st h1
    obtain ⟨st2, ha⟩ := evalPatternArray_safe env ps cs st1 h2
    refine ⟨st2, ?_⟩
    show M.bind (evalPatternMatching env p c) _ st = _
    simp only [M.bind, hm, ha, M.pure]
    simp [evaledZip]

end

mutual

theorem evalPatternMatching_mismatch (env : Nat) :
    ∀ (p : Pattern) (v : Object) (st : EvalState), patSafe p v = false →
      ∃ st', evalPatternMatching env p v st =
        (.error (.msg "Mismatched types"), st')
  | .nothing, _, _, h => Bool.noConfusion h
  | .ident _, _, _, h => Bool.noConfusion h
  | .number _, _, _, h => Bool.noConfusion h
  | .str _, _, _, h => Bool.noConfusion h
  | .symbol _, _, _, h => Bool.noConfusion h
  | .boolean _, _, _, h => Bool.noConfusion h
  | .array ps, .array cs, st, h => by
    obtain ⟨st', h'⟩ := evalPatternArray_mismatch env ps cs st h
    refine ⟨st', ?_⟩
    show M.bind (evalPatternArray env ps cs) _ st = _
    simp only [M.bind, h']
  | .array _, .number _, st, _ => ⟨st, rfl⟩
  | .array _, .str _, st, _ => ⟨st, rfl⟩
  | .array _, .symbol _, st, _ => ⟨st, rfl⟩
  | .array _, .ident _, st, _ => ⟨st, rfl⟩
  | .array _, .boolean _, st, _ => ⟨st, rfl⟩
  | .array _, .hash _, st, _ => ⟨st, rfl⟩
  | .array _, .ret _, st, _ => ⟨st, rfl⟩
  | .array _, .function _ _ _, st, _ => ⟨st, rfl⟩
  | .array _, .builtin _ _, st, _ => ⟨st, rfl⟩
  | .array _, .void, st, _ => ⟨st, rfl⟩
  | .array _, .null, st, _ => ⟨st, rfl⟩
  | .hash _, .hash _, _, h => Bool.noConfusion h
  | .hash _, .number _, st, _ => ⟨st, rfl⟩
  | .hash _, .str _, st, _ => ⟨st, rfl⟩
  | .hash _, .symbol _, st, _ => ⟨st, rfl⟩
  | .hash _, .ident _, st, _ => ⟨st, rfl⟩
  | .hash _, .boolean _, st, _ => ⟨st, rfl⟩
  | .hash _, .array _, st, _ => ⟨st, rfl⟩
  | .hash _, .ret _, st, _ => ⟨st, rfl⟩
  | .hash _, .function _ _ _, st, _ => ⟨st, rfl⟩
  | .hash _, .builtin _ _, st, _ => ⟨st, rfl⟩
  | .hash _, .void, st, _ => ⟨st, rfl⟩
  | .hash _, .null, st, _ => ⟨st, rfl⟩

theorem evalPatternArray_mismatch (env : Nat) :
    ∀ (ps : List Pattern) (cs : List Object) (st : EvalState),
      patSafeZip ps cs = false →
      ∃ st', evalPatternArray env ps cs st =
        (.error (.msg "Mismatched types"), st')
  | [], _, _, h => Bool.noConfusion h
  | _ :: _, [], _, h => Bool.noConfusion h
  | p :: ps, c :: cs, st, h => by
    cases hpc : patSafe p c with
    | false =>
      obtain ⟨st', h'⟩ := evalPatternMatching_mismatch env p c st hpc
      refine ⟨st', ?_⟩
      show M.bind (evalPatternMatching env p c) _ st = _
      simp only [M.bind, h']
    | true =>
      have h2 : patSafeZip ps cs = false := by
        have hand : (patSafe p c && patSafeZip ps cs) = false := by
          have hx := h
          simpa [patSafeZip] using hx
        rw [hpc] at hand
        simpa using hand
      obtain ⟨st1, hm⟩ := evalPatternMatching_safe env p c st hpc
      obtain ⟨st2, ha⟩ := evalPatternArray_mismatch env ps cs st1 h2
      refine ⟨st2, ?_⟩
      show M.bind (evalPatternMatching env p c) _ st = _
      simp only [M.bind, hm, ha]

end

theorem evalMatchLoop_case_safe (fuel : Nat) (ps : List Pattern)
    (body : List Stmt) (rest : List (Pattern × List Stmt)) (cs : List Object)
    (current : Nat) (st : EvalState) (h : patSafeZip ps cs = true) :
    ∃ st',
      evalPatternMatching current (.array ps) (.array cs) st =
        (.ok (.array (evaledZip ps cs)), st') ∧
      evalMatchLoop (fuel + 1) ((.array ps, body) :: rest) (.array cs)
          current st =
        (if patMatchZip ps cs = true then
          M.bind (M.modify (fun s => { s with cur := current })) (fun _ =>
            M.bind (evalBlockStmt fuel body) (fun result =>
              M.bind (M.modify (fun s => { s with cur := current })) (fun _ =>
                M.pure result))) st'
         else evalMatchLoop fuel rest (.array cs) current st') := by
  obtain ⟨st', hm⟩ :=
    evalPatternMatching_safe current (.array ps) (.array cs) st h
  refine ⟨st', hm, ?_⟩
  show M.bind (evalPatternMatching current (.array ps) (.array cs))
      (fun evaled =>
        match evalMatchCase evaled (.array cs) with
        | none => M.throw Err.panic
        | some true =>
          M.bind (M.modify (fun s => { s with cur := current })) (fun _ =>
            M.bind (evalBlockStmt fuel body) (fun result =>
              M.bind (M.modify (fun s => { s with cur := current })) (fun _ =>
                M.pure result)))
        | some false => evalMatchLoop fuel rest (.array cs) current) st = _
  simp only [M.bind, hm]
  have hc : evalMatchCase (evaledObj (.array ps) (.array cs)) (.array cs) =
      some (patMatchZip ps cs) :=
    evalMatchCase_evaled (.array ps) (.array cs) h
  rw [hc]
  cases hm2 : patMatchZip ps cs with
  | false =>
    rw [if_neg (by simp)]
  | true =>
    rw [if_pos rfl]
    simp only [M.bind]

theorem evalMatchLoop_nomatch :
    ∀ (cases : List (Pattern × List Stmt)) (fuel : Nat) (v : Object)
      (current : Nat) (st : EvalState),
      (∀ pb ∈ cases, patSafe pb.1 v = true ∧ patMatch pb.1 v = false) →
      ∃ st', evalMatchLoop (fuel + cases.length + 1) cases v current st =
        (.ok .void, st')
  | [], _, _, _, st, _ => ⟨st, rfl⟩
  | (pat, body) :: rest, fuel, v, current, st, hall => by
    obtain ⟨hs, hmf⟩ := hall (pat, body) (List.mem_cons_self _ _)
    obtain ⟨st1, hm⟩ := evalPatternMatching_safe current pat v st hs
    obtain ⟨st2, hrest⟩ := evalMatchLoop_nomatch rest fuel v current st1
      (fun pb hmem => hall pb (List.mem_cons_of_mem _ hmem))
    refine ⟨st2, ?_⟩
    have harith : fuel + ((pat, body) :: rest).length + 1 =
        (fuel + rest.length + 1) + 1 := by
      simp only [List.length_cons]
      omega
    rw [harith]
    show M.bind (evalPatternMatching current pat v)
        (fun evaled =>
          match evalMatchCase evaled v with
          | none => M.throw Err.panic
          | some true =>
            M.bind (M.modify (fun s => { s with cur := current })) (fun _ =>
              M.bind (evalBlockStmt (fuel + rest.length + 1) body)
                (fun result =>
                  M.bind (M.modify (fun s => { s with cur := current }))
                    (fun _ => M.pure result)))
          | some false =>
            evalMatchLoop (fuel + rest.length + 1) rest v current) st =
      (.ok .void, st2)
    simp only [M.bind, hm]
    have hc : evalMatchCase (evaledObj pat v) v = some false := by
      rw [evalMatchCase_evaled pat v hs, hmf]
    rw [hc]
    exact hrest

/-- C6, counterexample: the claim says an array-pattern case is selected
only if the scrutinee is an array of the same length (so here, with pattern
length 1 against scrutinee length 2, no case should match and the match
should yield void); the case is selected and the match yields `:yes`. -/
theorem c6_counterexample :
    (evalProgram 10
      [.expr (.matchE (.array [.number 1, .number 2])
        [(.array [.number 1], [.expr (.symbol "yes")])])] initState).1 =
      .ok (.symbol "yes") := rfl

/-- C6, amended: for an array-pattern case `[p1, …, pn]` over arbitrary
sub-patterns: (i) against an array scrutinee whose nested shapes are
compatible (`patSafeZip`), building the comparison object succeeds and the
selection test computes exactly the zip-truncated elementwise match
`patMatchZip` — identifier and wildcard sub-patterns always match
(identifiers also bind the element), literal sub-patterns compare
structurally, nested array sub-patterns recurse with the same truncation,
and length equality is not required in either direction; (ii) when the
shapes are incompatible — a non-array scrutinee, or a nested array (hash)
sub-pattern meeting a non-array (non-hash) element — pattern matching
aborts with the "Mismatched types" error, which aborts the whole match
rather than skipping the case; (iii) in the case loop, a shape-compatible
array-pattern case runs its consequence block exactly when the truncated
prefix matches, and otherwise falls through to the remaining cases with
any identifier bindings retained; (iv) when every case is shape-compatible
and non-matching, the match expression evaluates to void. -/
theorem c6_amended :
    (∀ (env : Nat) (st : EvalState) (ps : List Pattern) (cs : List Object),
      patSafeZip ps cs = true →
      ∃ st', evalPatternMatching env (.array ps) (.array cs) st =
          (.ok (.array (evaledZip ps cs)), st') ∧
        evalMatchCase (.array (evaledZip ps cs)) (.array cs) =
          some (patMatchZip ps cs)) ∧
    (∀ (env : Nat) (st : EvalState) (ps : List Pattern) (v : Object),
      patSafe (.array ps) v = false →
      ∃ st', evalPatternMatching env (.array ps) v st =
        (.error (.msg "Mismatched types"), st')) ∧
    (∀ (fuel : Nat) (ps : List Pattern) (body : List Stmt)
      (rest : List (Pattern × List Stmt)) (cs : List Object) (current : Nat)
      (st : EvalState), patSafeZip ps cs = true →
      ∃ st',
        evalPatternMatching current (.array ps) (.array cs) st =
          (.ok (.array (evaledZip ps cs)), st') ∧
        evalMatchLoop (fuel + 1) ((.array ps, body) :: rest) (.array cs)
            current st =
          (if patMatchZip ps cs = true then
            M.bind (M.modify (fun s => { s with cur := current })) (fun _ =>
              M.bind (evalBlockStmt fuel body) (fun result =>
                M.bind (M.modify (fun s => { s with cur := current })) (fun _ =>
                  M.pure result))) st'
           else evalMatchLoop fuel rest (.array cs) current st')) ∧
    (∀ (fuel : Nat) (cases : List (Pattern × List Stmt)) (v : Object)
      (current : Nat) (st : EvalState),
      (∀ pb ∈ cases, patSafe pb.1 v = true ∧ patMatch pb.1 v = false) →
      ∃ st', evalMatchLoop (fuel + cases.length + 1) cases v current st =
        (.ok .void, st')) := by
  refine ⟨?_, ?_, ?_, ?_⟩
  · intro env st ps cs h
    obtain ⟨st', hm⟩ :=
      evalPatternMatching_safe env (.array ps) (.array cs) st h
    exact ⟨st', hm, evalMatchCase_evaled (.array ps) (.array cs) h⟩
  · intro env st ps v h
    exact evalPatternMatching_mismatch env (.array ps) v st h
  · intro fuel ps body rest cs current st h
    exact evalMatchLoop_case_safe fuel ps body rest cs current st h
  · intro fuel cases v current st h
    exact evalMatchLoop_nomatch cases fuel v current st h

theorem c6_amended_witness :
    (∃ st', evalPatternMatching 0
          (.array [.ident "x", .nothing, .array [.boolean true]])
          (.array [.symbol "a", .str "s",
            .array [.boolean true, .boolean false]]) initState =
        (.ok (.array (evaledZip [.ident "x", .nothing, .array [.boolean true]]
          [.symbol "a", .str "s", .array [.boolean true, .boolean false]])),
          st') ∧
      evalMatchCase
          (.array (evaledZip [.ident "x", .nothing, .array [.boolean true]]
            [.symbol "a", .str "s", .array [.boolean true, .boolean false]]))
          (.array [.symbol "a", .str "s",
            .array [.boolean true, .boolean false]]) =
        some (patMatchZip [.ident "x", .nothing, .array [.boolean true]]
          [.symbol "a", .str "s", .array [.boolean true, .boolean false]])) ∧
    (∃ st', evalPatternMatching 0 (.array [.array [.nothing]])
        (.array [.number 1]) initState =
      (.error (.msg "Mismatched types"), st')) ∧
    (∃ st',
      evalPatternMatching 0 (.array [.ident "y", .nothing])
          (.array [.boolean true, .str "z"]) initState =
        (.ok (.array (evaledZip [.ident "y", .nothing]
          [.boolean true, .str "z"])), st') ∧
      evalMatchLoop (5 + 1)
          [(.array [.ident "y", .nothing], [.expr (.symbol "hit")])]
          (.array [.boolean true, .str "z"]) 0 initState =
        (if patMatchZip [.ident "y", .nothing] [.boolean true, .str "z"] =
            true then
          M.bind (M.modify (fun s => { s with cur := 0 })) (fun _ =>
            M.bind (evalBlockStmt 5 [.expr (.symbol "hit")]) (fun result =>
              M.bind (M.modify (fun s => { s with cur := 0 })) (fun _ =>
                M.pure result))) st'
         else evalMatchLoop 5 [] (.array [.boolean true, .str "z"]) 0 st')) ∧
    (∃ st', evalMatchLoop
        (0 + ([(.array [.ident "x", .boolean true], []), (.number 1, [])] :
          List (Pattern × List Stmt)).length + 1)
        [(.array [.ident "x", .boolean true], []), (.number 1, [])]
        (.array [.symbol "a", .boolean false]) 0 initState =
      (.ok .void, st')) :=
  ⟨c6_amended.1 0 initState [.ident "x", .nothing, .array [.boolean true]]
     [.symbol "a", .str "s", .array [.boolean true, .boolean false]] rfl,
   c6_amended.2.1 0 initState [.array [.nothing]] (.array [.number 1]) rfl,
   c6_amended.2.2.1 5 [.ident "y", .nothing] [.expr (.symbol "hit")] []
     [.boolean true, .str "z"] 0 initState rfl,
   c6_amended.2.2.2 0
     [(.array [.ident "x", .boolean true], []), (.number 1, [])]
     (.array [.symbol "a", .boolean false]) 0 initState
     (by
       intro pb hmem
       simp only [List.mem_cons, List.not_mem_nil, or_false] at hmem
       rcases hmem with rfl | rfl
       · exact ⟨rfl, rfl⟩
       · exact ⟨rfl, rfl⟩)⟩

def Ext.refl (c : Compiler) : Ext c c :=
  ⟨le_rfl, fun _ _ => rfl, fun _ _ h => h, le_rfl⟩

def Ext.trans {a b c : Compiler} (h1 : Ext a b) (h2 : Ext b c) : Ext a c :=
  ⟨le_trans h1.1 h2.1,
   fun k hk => (h2.2.1 k (lt_of_lt_of_le hk h1.1)).trans (h1.2.1 k hk),
   fun k x hx => h2.2.2.1 k x (h1.2.2.1 k x hx),
   le_trans h1.2.2.2 h2.2.2.2⟩

theorem RunsTo.refl (I : List Nat) (consts : List Object) (vm : VMState)
    (p : Nat) : RunsTo I consts vm p vm p :=
  ⟨0, fun _ => rfl⟩

theorem RunsTo.trans {I : List Nat} {consts : List Object}
    {vm vm' vm'' : VMState} {p q r : Nat}
    (h1 : RunsTo I consts vm p vm' q) (h2 : RunsTo I consts vm' q vm'' r) :
    RunsTo I consts vm p vm'' r := by
  obtain ⟨k1, h1⟩ := h1
  obtain ⟨k2, h2⟩ := h2
  refine ⟨k2 + k1, fun gas => ?_⟩
  have h3 := h1 (gas + k2)
  rw [show gas + (k2 + k1) = gas + k2 + k1 by omega, h3, h2 gas]

theorem RunsTo.single {I : List Nat} {consts : List Object} {vm vm' : VMState}
    {p q : Nat} (hp : p < I.length)
    (hstep : vmStep I consts vm p = .ok (vm', q)) :
    RunsTo I consts vm p vm' q := by
  refine ⟨1, fun gas => ?_⟩
  show vmLoop I consts (gas + 1) vm p = _
  rw [vmLoop, if_pos hp, hstep]

theorem RunsTo.run {I : List Nat} {consts : List Object} {vm vm' : VMState}
    {q : Nat} (h : RunsTo I consts vm 0 vm' q) (hq : I.length ≤ q) :
    ∃ gas, vmLoop I consts gas vm 0 = .ok vm' := by
  obtain ⟨k, hk⟩ := h
  refine ⟨1 + k, ?_⟩
  rw [hk 1, vmLoop, if_neg (by omega)]

theorem VMOk.push {vm : VMState} {s g : List Object} (h : VMOk vm s g)
    (v : Object) (hs : s.length < STACK_SIZE) :
    ∃ vm', vm.push v = .ok vm' ∧ VMOk vm' (s ++ [v]) g := by
  obtain ⟨hsp, htake, hlen, hg⟩ := h
  have hpush : vm.push v = .ok
      { vm with
        stack := if vm.sp ≥ vm.stack.length then vm.stack ++ [v]
                 else vm.stack.set vm.sp v,
        sp := vm.sp + 1 } := by
    rw [VMState.push, if_neg (by rw [hsp]; omega)]
  refine ⟨_, hpush, ?_, ?_, ?_, hg⟩
  · simp [hsp]
  · simp only [List.length_append, List.length_singleton]
    by_cases hgrow : vm.sp ≥ vm.stack.length
    · rw [if_pos hgrow]
      have hlen' : vm.stack.length = s.length := by omega
      have hstack : vm.stack = s := by
        rw [← htake, ← hlen', List.take_length]
      rw [hstack, show s.length + 1 = (s ++ [v]).length by simp,
        List.take_length]
    · rw [if_neg hgrow]
      push_neg at hgrow
      rw [hsp, List.set_eq_take_cons_drop v (by omega),
        List.take_append_eq_append_take]
      have h1 : (vm.stack.take s.length).length = s.length := by
        rw [List.length_take]
        omega
      rw [h1, htake, show s.length + 1 - s.length = 1 by omega]
      simp
  · simp only [List.length_append, List.length_singleton]
    by_cases hgrow : vm.sp ≥ vm.stack.length
    · rw [if_pos hgrow]
      simp only [List.length_append, List.length_singleton]
      omega
    · rw [if_neg hgrow]
      rw [List.length_set]
      omega

theorem VMOk.pop {vm : VMState} {s g : List Object} {v : Object}
    (h : VMOk vm (s ++ [v]) g) :
    vm.pop = .ok (v, { vm with sp := s.length }) ∧
      VMOk { vm with sp := s.length } s g ∧
      vm.stack.get? s.length = some v := by
  obtain ⟨hsp, htake, hlen, hg⟩ := h
  simp only [List.length_append, List.length_singleton] at hsp htake hlen
  have hget : vm.stack.get? s.length = some v := by
    have h1 : (vm.stack.take (s.length + 1)).get? s.length = some v := by
      rw [htake]
      rw [List.get?_append_right (by simp)]
      simp
    rw [List.get?_take (by omega)] at h1
    exact h1
  have htk : vm.stack.take s.length = s := by
    have h2 : (vm.stack.take (s.length + 1)).take s.length = s := by
      rw [htake, List.take_append_eq_append_take]
      simp
    rw [List.take_take] at h2
    rw [show min s.length (s.length + 1) = s.length by omega] at h2
    exact h2
  constructor
  · show VMState.pop vm = _
    rw [VMState.pop]
    rw [hsp]
    simp only [hget]
  · exact ⟨⟨rfl, htk, by simp only [List.length_set]; omega, hg⟩, hget⟩

theorem get?_drop' {α : Type} (l : List α) (n m : Nat) :
    (l.drop n).get? m = l.get? (n + m) := by
  simp [List.get?_eq_getElem?, List.getElem?_drop]

theorem readU16_of_get? {l : List Nat} {b1 b2 : Nat} (h1 : l.get? 0 = some b1)
    (h2 : l.get? 1 = some b2) : readU16 l = .ok (b1 * 256 + b2) := by
  cases l with
  | nil => exact absurd h1 (by simp)
  | cons a t =>
    cases t with
    | nil => exact absurd h2 (by simp)
    | cons b t' =>
      simp only [List.get?] at h1 h2
      obtain rfl : a = b1 := by injection h1
      obtain rfl : b = b2 := by injection h2
      rfl

/-- Reading the two operand bytes following position `p`. -/
theorem readU16_at {I : List Nat} {p b1 b2 : Nat}
    (h1 : I.get? (p + 1) = some b1) (h2 : I.get? (p + 2) = some b2) :
    readU16 (I.drop (p + 1)) = .ok (b1 * 256 + b2) := by
  apply readU16_of_get?
  · rw [get?_drop']
    simpa using h1
  · rw [get?_drop']
    rw [show p + 1 + 1 = p + 2 by omega]
    exact h2

theorem encode_decode (x : Nat) (h : x < 65536) :
    x % 65536 / 256 * 256 + x % 256 = x := by
  omega

theorem make_nil (op : Opcode) : make op [] = [op.byte] := rfl

theorem make_width2 (op : Opcode) (x : Nat) (h : operandWidths op = [2]) :
    make op [x] = [op.byte, x % 65536 / 256, x % 256] := by
  rw [make, h]
  rfl

/-! ### One-step execution lemmas for the opcodes the fragment uses -/

theorem step_constant {I : List Nat} {consts : List Object} {vm : VMState}
    {s g : List Object} {p idx : Nat} {v : Object}
    (hb : I.get? p = some (Opcode.byte .constant))
    (hb1 : I.get? (p + 1) = some (idx % 65536 / 256))
    (hb2 : I.get? (p + 2) = some (idx % 256))
    (hidx : idx < 65536)
    (hconst : consts.get? idx = some v)
    (hvm : VMOk vm s g) (hs : s.length < STACK_SIZE) :
    ∃ vm', vmStep I consts vm p = .ok (vm', p + 3) ∧ VMOk vm' (s ++ [v]) g := by
  obtain ⟨vm', hpush, hok⟩ := hvm.push v hs
  refine ⟨vm', ?_, hok⟩
  simp only [vmStep, hb, Opcode.fromByte_byte, readU16_at hb1 hb2,
    encode_decode idx hidx, hconst, hpush]

theorem step_true {I : List Nat} {consts : List Object} {vm : VMState}
    {s g : List Object} {p : Nat}
    (hb : I.get? p = some (Opcode.byte .true_))
    (hvm : VMOk vm s g) (hs : s.length < STACK_SIZE) :
    ∃ vm', vmStep I consts vm p = .ok (vm', p + 1) ∧
      VMOk vm' (s ++ [.boolean true]) g := by
  obtain ⟨vm', hpush, hok⟩ := hvm.push (.boolean true) hs
  refine ⟨vm', ?_, hok⟩
  simp only [vmStep, hb, Opcode.fromByte_byte, hpush]

theorem step_false {I : List Nat} {consts : List Object} {vm : VMState}
    {s g : List Object} {p : Nat}
    (hb : I.get? p = some (Opcode.byte .false_))
    (hvm : VMOk vm s g) (hs : s.length < STACK_SIZE) :
    ∃ vm', vmStep I consts vm p = .ok (vm', p + 1) ∧
      VMOk vm' (s ++ [.boolean false]) g := by
  obtain ⟨vm', hpush, hok⟩ := hvm.push (.boolean false) hs
  refine ⟨vm', ?_, hok⟩
  simp only [vmStep, hb, Opcode.fromByte_byte, hpush]

theorem step_pop {I : List Nat} {consts : List Object} {vm : VMState}
    {s g : List Object} {v : Object} {p : Nat}
    (hb : I.get? p = some (Opcode.byte .pop))
    (hvm : VMOk vm (s ++ [v]) g) :
    ∃ vm', vmStep I consts vm p = .ok (vm', p + 1) ∧ VMOk vm' s g ∧
      vm'.stack.get? s.length = some v := by
  obtain ⟨hpop, hok, hget⟩ := hvm.pop
  refine ⟨_, ?_, hok, hget⟩
  simp only [vmStep, hb, Opcode.fromByte_byte, hpop]

theorem step_minus {I : List Nat} {consts : List Object} {vm : VMState}
    {s g : List Object} {p : Nat} {n : ℚ}
    (hb : I.get? p = some (Opcode.byte .minus))
    (hvm : VMOk vm (s ++ [.number n]) g) (hs : s.length < STACK_SIZE) :
    ∃ vm', vmStep I consts vm p = .ok (vm', p + 1) ∧
      VMOk vm' (s ++ [.number (-n)]) g := by
  obtain ⟨hpop, hok, _⟩ := hvm.pop
  obtain ⟨vm', hpush, hok'⟩ := hok.push (.number (-n)) hs
  refine ⟨vm', ?_, hok'⟩
  simp only [vmStep, hb, Opcode.fromByte_byte, executeMinusOp, hpop, hpush]

theorem step_bang {I : List Nat} {consts : List Object} {vm : VMState}
    {s g : List Object} {p : Nat} {v : Object}
    (hb : I.get? p = some (Opcode.byte .bang))
    (hvm : VMOk vm (s ++ [v]) g) (hs : s.length < STACK_SIZE) :
    ∃ vm', vmStep I consts vm p = .ok (vm', p + 1) ∧
      VMOk vm' (s ++ [.boolean (!vmIsTruthy v)]) g := by
  obtain ⟨hpop, hok, _⟩ := hvm.pop
  obtain ⟨vm', hpush, hok'⟩ := hok.push (.boolean (!vmIsTruthy v)) hs
  refine ⟨vm', ?_, hok'⟩
  simp only [vmStep, hb, Opcode.fromByte_byte, executeBangOp, hpop, hpush]

theorem step_equality {I : List Nat} {consts : List Object} {vm : VMState}
    {s g : List Object} {p : Nat} {l r : Object} {op : Opcode}
    (hop : op = .equal ∨ op = .notEqual)
    (hb : I.get? p = some (Opcode.byte op))
    (hvm : VMOk vm ((s ++ [l]) ++ [r]) g) (hs : s.length < STACK_SIZE) :
    ∃ vm', vmStep I consts vm p = .ok (vm', p + 1) ∧
      VMOk vm' (s ++ [.boolean (if op = .equal then objBeq l r else !objBeq l r)]) g := by
  obtain ⟨hpop1, hok1, _⟩ := hvm.pop
  obtain ⟨hpop2, hok2, _⟩ := hok1.pop
  rcases hop with rfl | rfl
  · obtain ⟨vm', hpush, hok'⟩ := hok2.push (.boolean (objBeq l r)) hs
    refine ⟨vm', ?_, by simpa using hok'⟩
    simp only [vmStep, hb, Opcode.fromByte_byte, executeEqualityOp, hpop1,
      hpop2, hpush]
  · obtain ⟨vm', hpush, hok'⟩ := hok2.push (.boolean (!objBeq l r)) hs
    refine ⟨vm', ?_, by simpa using hok'⟩
    simp only [vmStep, hb, Opcode.fromByte_byte, executeEqualityOp, hpop1,
      hpop2, hpush]

theorem executeBinaryOp_num {vm : VMState} {s g : List Object} {a b : ℚ}
    {v : Object} {op : Opcode}
    (hvm : VMOk vm ((s ++ [.number a]) ++ [.number b]) g)
    (hcomp : executeBinaryNumberOp op a b = .ok v)
    (hs : s.length < STACK_SIZE) :
    ∃ vm', executeBinaryOp vm op = .ok vm' ∧ VMOk vm' (s ++ [v]) g := by
  obtain ⟨hpop1, hok1, _⟩ := hvm.pop
  obtain ⟨hpop2, hok2, _⟩ := hok1.pop
  obtain ⟨vm', hpush, hok'⟩ := hok2.push v hs
  refine ⟨vm', ?_, hok'⟩
  simp only [executeBinaryOp, hpop1, hpop2, hcomp, hpush]

theorem executeBinaryOp_str {vm : VMState} {s g : List Object} {a b : String}
    {v : Object} {op : Opcode}
    (hvm : VMOk vm ((s ++ [.str a]) ++ [.str b]) g)
    (hcomp : executeBinaryStringOp op a b = .ok v)
    (hs : s.length < STACK_SIZE) :
    ∃ vm', executeBinaryOp vm op = .ok vm' ∧ VMOk vm' (s ++ [v]) g := by
  obtain ⟨hpop1, hok1, _⟩ := hvm.pop
  obtain ⟨hpop2, hok2, _⟩ := hok1.pop
  obtain ⟨vm', hpush, hok'⟩ := hok2.push v hs
  refine ⟨vm', ?_, hok'⟩
  simp only [executeBinaryOp, hpop1, hpop2, hcomp, hpush]

theorem step_binary {I : List Nat} {consts : List Object} {vm : VMState}
    {p : Nat} {op : Opcode} {v' : VMState}
    (hop : op = .add ∨ op = .sub ∨ op = .mul ∨ op = .div ∨ op = .mod ∨
      op = .greater ∨ op = .greaterEqual)
    (hb : I.get? p = some (Opcode.byte op))
    (hexec : executeBinaryOp vm op = .ok v') :
    vmStep I consts vm p = .ok (v', p + 1) := by
  rcases hop with rfl | rfl | rfl | rfl | rfl | rfl | rfl <;>
    simp only [vmStep, hb, Opcode.fromByte_byte, hexec]

theorem step_jump {I : List Nat} {consts : List Object} {vm : VMState}
    {p t : Nat}
    (hb : I.get? p = some (Opcode.byte .jump))
    (hb1 : I.get? (p + 1) = some (t % 65536 / 256))
    (hb2 : I.get? (p + 2) = some (t % 256))
    (ht : t < 65536) (ht0 : 0 < t) :
    vmStep I consts vm p = .ok (vm, t) := by
  simp only [vmStep, hb, Opcode.fromByte_byte, readU16_at hb1 hb2,
    encode_decode t ht]
  cases t with
  | zero => omega
  | succ t' => rfl

theorem step_jumpNotTruthy {I : List Nat} {consts : List Object} {vm : VMState}
    {s g : List Object} {p t : Nat} {v : Object}
    (hb : I.get? p = some (Opcode.byte .jumpNotTruthy))
    (hb1 : I.get? (p + 1) = some (t % 65536 / 256))
    (hb2 : I.get? (p + 2) = some (t % 256))
    (ht : t < 65536) (ht0 : 0 < t)
    (hvm : VMOk vm (s ++ [v]) g) :
    ∃ vm', vmStep I consts vm p =
        .ok (vm', if vmIsTruthy v then p + 3 else t) ∧
      VMOk vm' s g := by
  obtain ⟨hpop, hok, _⟩ := hvm.pop
  refine ⟨_, ?_, hok⟩
  simp only [vmStep, hb, Opcode.fromByte_byte, readU16_at hb1 hb2,
    encode_decode t ht, hpop]
  by_cases hv : vmIsTruthy v
  · simp only [hv, Bool.not_true, if_true]
    rfl
  · rw [Bool.not_eq_true] at hv
    simp only [hv, Bool.not_false, if_false]
    cases t with
    | zero => omega
    | succ t' => rfl

theorem setGlobal_append (st : VMState) (v : Object)
    (h : st.globals.length < GLOBALS_SIZE) :
    st.setGlobal st.globals.length v = .ok { st with globals := st.globals ++ [v] } := by
  rw [VMState.setGlobal, if_neg (by omega), if_pos (le_refl _)]

theorem step_setGlobal {I : List Nat} {consts : List Object} {vm : VMState}
    {s g : List Object} {p : Nat} {v : Object}
    (hb : I.get? p = some (Opcode.byte .setGlobal))
    (hb1 : I.get? (p + 1) = some (g.length % 65536 / 256))
    (hb2 : I.get? (p + 2) = some (g.length % 256))
    (hlt : g.length < 65536)
    (hvm : VMOk vm (s ++ [v]) g) :
    ∃ vm', vmStep I consts vm p = .ok (vm', p + 3) ∧ VMOk vm' s (g ++ [v]) := by
  obtain ⟨hpop, hok, -⟩ := hvm.pop
  generalize hst : ({ vm with sp := s.length } : VMState) = st1 at hpop hok
  obtain ⟨hsp, htake, hlen, hg⟩ := hok
  have hglen : g.length = st1.globals.length := by rw [hg]
  have hset : st1.setGlobal g.length v = .ok { st1 with globals := st1.globals ++ [v] } := by
    rw [hglen]
    exact setGlobal_append st1 v (by rw [← hglen]; simp only [GLOBALS_SIZE]; omega)
  refine ⟨{ st1 with globals := st1.globals ++ [v] }, ?_, hsp, htake, hlen, ?_⟩
  · simp only [vmStep, hb, Opcode.fromByte_byte, readU16_at hb1 hb2,
      encode_decode g.length hlt, hpop, hset]
  · show st1.globals ++ [v] = g ++ [v]
    rw [hg]

theorem step_getGlobal {I : List Nat} {consts : List Object} {vm : VMState}
    {s g : List Object} {p idx : Nat} {v : Object}
    (hb : I.get? p = some (Opcode.byte .getGlobal))
    (hb1 : I.get? (p + 1) = some (idx % 65536 / 256))
    (hb2 : I.get? (p + 2) = some (idx % 256))
    (hidx : idx < 65536)
    (hval : g.get? idx = some v)
    (hvm : VMOk vm s g) (hs : s.length < STACK_SIZE) :
    ∃ vm', vmStep I consts vm p = .ok (vm', p + 3) ∧ VMOk vm' (s ++ [v]) g := by
  obtain ⟨vm', hpush, hok⟩ := hvm.push v hs
  refine ⟨vm', ?_, hok⟩
  have hgv : vm.globals.get? idx = some v := by rw [hvm.2.2.2]; exact hval
  simp only [vmStep, hb, Opcode.fromByte_byte, readU16_at hb1 hb2,
    encode_decode idx hidx, hgv, hpush]

/-! ### Evaluator-side helpers for the simulation -/

theorem listGet_listInsert_ne {α : Type} (m : List (Name × α)) {k k' : Name}
    (v : α) (h : k' ≠ k) : listGet (listInsert m k v) k' = listGet m k' := by
  induction m with
  | nil =>
    simp only [listInsert, listGet]
    rw [if_neg (by simpa using Ne.symm h)]
  | cons hd t ih =>
    obtain ⟨kh, vh⟩ := hd
    by_cases hk : (kh == k)
    · have : kh = k := by simpa using hk
      subst this
      simp only [listInsert, hk, if_true, listGet]
      rw [if_neg (by simp; exact fun hn => h hn.symm), if_neg (by simp; exact fun hn => h hn.symm)]
    · simp only [listInsert, hk, if_false, Bool.false_eq_true, listGet]
      by_cases hk' : (kh == k')
      · rw [if_pos hk', if_pos hk']
      · rw [if_neg hk', if_neg hk']
        exact ih

theorem envGet_root (store : List (Name × Object)) (key : Name) :
    envGet (rootState store) 0 key = listGet store key := by
  show envGetAux _ 1 0 key = _
  rw [envGetAux]
  show (match listGet store key with
    | some v => some v
    | none => none) = _
  cases listGet store key <;> rfl

theorem envSet_root (store : List (Name × Object)) (key : Name) (v : Object) :
    envSet (rootState store) 0 key v = rootState (listInsert store key v) := rfl

theorem M.bind_eq_ok {α β : Type} {x : M α} {f : α → M β} {st st' : EvalState}
    {b : β} (h : M.bind x f st = (.ok b, st')) :
    ∃ a stm, x st = (.ok a, stm) ∧ f a stm = (.ok b, st') := by
  unfold M.bind at h
  match hx : x st with
  | (.ok a, stm) =>
    rw [hx] at h
    exact ⟨a, stm, rfl, h⟩
  | (.error e, stm) =>
    rw [hx] at h
    simp at h

theorem M.ofExcept_eq_ok {α : Type} {x : Except Err α} {st st' : EvalState}
    {a : α} (h : M.ofExcept x st = (.ok a, st')) : x = .ok a ∧ st' = st := by
  unfold M.ofExcept at h
  obtain ⟨h1, h2⟩ := Prod.mk.injEq .. ▸ h
  exact ⟨h1, h2.symm⟩

theorem nativeBool_eq (b : Bool) : nativeBoolToObject b = .boolean b := by
  cases b <;> rfl

theorem evalNumberOperator_shape {l r v : Object} {op : String}
    (h : evalNumberOperator l op r = .ok v) :
    ∃ a b : ℚ, l = .number a ∧ r = .number b := by
  cases l <;> cases r <;> first
    | exact ⟨_, _, rfl, rfl⟩
    | simp [evalNumberOperator] at h

theorem numOp_sim {a b : ℚ} {v : Object} {op : String}
    (hop : op = "-" ∨ op = "*" ∨ op = "/" ∨ op = "%" ∨ op = ">" ∨ op = ">=")
    (h : evalNumberOperator (.number a) op (.number b) = .ok v) :
    executeBinaryNumberOp (opcodeOf op) a b = .ok v ∧ ValClass v := by
  rcases hop with rfl | rfl | rfl | rfl | rfl | rfl <;>
    simp only [evalNumberOperator] at h <;>
    injection h with h <;> subst h <;>
    exact ⟨rfl, by first
      | exact Or.inl ⟨_, rfl⟩
      | exact Or.inr (Or.inr ⟨_, rfl⟩)⟩

theorem ltOp_sim {a b : ℚ} {v : Object} {op : String}
    (hop : op = "<" ∨ op = "<=")
    (h : evalNumberOperator (.number a) op (.number b) = .ok v) :
    executeBinaryNumberOp (if op = "<" then .greater else .greaterEqual) b a =
      .ok v ∧ ValClass v := by
  rcases hop with rfl | rfl <;> simp only [evalNumberOperator] at h <;>
    injection h with h <;> subst h
  · refine ⟨?_, Or.inr (Or.inr ⟨_, rfl⟩)⟩
    simp only [executeBinaryNumberOp, if_pos rfl]
    congr 1
  · refine ⟨?_, Or.inr (Or.inr ⟨_, rfl⟩)⟩
    simp only [executeBinaryNumberOp, if_neg (by decide : ¬ ("<=" = "<"))]

theorem plus_cases {l r v : Object} (h : evalPlusOperator l r = .ok v)
    (hl : ValClass l) :
    (∃ a b : ℚ, l = .number a ∧ r = .number b ∧ v = .number (a + b)) ∨
    (∃ a b : String, l = .str a ∧ r = .str b ∧ v = .str (a ++ b)) := by
  rcases hl with ⟨a, rfl⟩ | ⟨a, rfl⟩ | ⟨b, rfl⟩
  · cases r <;> simp only [evalPlusOperator] at h <;> first
      | (injection h with h; exact Or.inl ⟨_, _, rfl, rfl, h.symm⟩)
      | simp at h
  · cases r <;> simp only [evalPlusOperator] at h <;> first
      | (injection h with h; exact Or.inr ⟨_, _, rfl, rfl, h.symm⟩)
      | simp at h
  · simp only [evalPlusOperator] at h
    simp at h

theorem boolOp_sim {l r v : Object} {op : String}
    (hop : op = "==" ∨ op = "!=")
    (h : evalBooleanOperator l op r = .ok v) :
    v = .boolean (if op = "==" then objBeq l r else !objBeq l r) ∧ ValClass v := by
  rcases hop with rfl | rfl <;> simp only [evalBooleanOperator] at h <;>
    injection h with h <;> subst h <;>
    rw [nativeBool_eq] <;>
    exact ⟨by simp, Or.inr (Or.inr ⟨_, rfl⟩)⟩

/-! ### Compiler-side extension and shape lemmas -/

theorem get?_append_left_of_some {α : Type} {l l' : List α} {k : Nat} {x : α}
    (h : l.get? k = some x) : (l ++ l').get? k = some x := by
  have hk : k < l.length := by
    by_contra hk
    push_neg at hk
    rw [List.get?_eq_none.2 hk] at h
    cases h
  rw [List.get?_append hk]
  exact h

theorem get?_append_length {α : Type} (l : List α) (x : α) (l' : List α) :
    (l ++ x :: l').get? l.length = some x := by
  rw [List.get?_append_right (le_refl _)]
  simp

theorem emit_fst (c : Compiler) (op : Opcode) (ops : List Nat) :
    (c.emit op ops).1 = c.instructions.length := rfl

theorem emit_instructions (c : Compiler) (op : Opcode) (ops : List Nat) :
    (c.emit op ops).2.instructions = c.instructions ++ make op ops := rfl

theorem emit_constants (c : Compiler) (op : Opcode) (ops : List Nat) :
    (c.emit op ops).2.constants = c.constants := rfl

theorem emit_symbols (c : Compiler) (op : Opcode) (ops : List Nat) :
    (c.emit op ops).2.symbols = c.symbols := rfl

theorem emit_last (c : Compiler) (op : Opcode) (ops : List Nat) :
    (c.emit op ops).2.last_instruction = ⟨op, c.instructions.length⟩ := rfl

theorem make_length_pos (op : Opcode) (ops : List Nat) :
    0 < (make op ops).length := by
  simp [make]

theorem make_single_length_le (op : Opcode) (x : Nat) :
    (make op [x]).length ≤ 3 := by
  cases op <;> simp [make, operandWidths, putOperand]

theorem Ext.emit (c : Compiler) (op : Opcode) (ops : List Nat) :
    Ext c (c.emit op ops).2 := by
  refine ⟨?_, ?_, fun k x hx => hx, le_rfl⟩
  · show c.instructions.length ≤ (c.instructions ++ make op ops).length
    simp
  · intro k hk
    show (c.instructions ++ make op ops).get? k = _
    exact List.get?_append hk

theorem Ext.addConstant (c : Compiler) (obj : Object) :
    Ext c (c.addConstant obj).2 := by
  refine ⟨le_rfl, fun k _ => rfl, ?_, ?_⟩
  · intro k x hx
    exact get?_append_left_of_some hx
  · show c.constants.length ≤ (c.constants ++ [obj]).length
    simp

theorem writeAt_length (xs : List Nat) (pos : Nat) (new : List Nat) :
    (writeAt xs pos new).length = xs.length := by
  induction new generalizing xs pos with
  | nil => rfl
  | cons b rest ih => rw [writeAt, ih, List.length_set]

theorem writeAt_get?_lt {k : Nat} (xs : List Nat) (pos : Nat) (new : List Nat)
    (h : k < pos) : (writeAt xs pos new).get? k = xs.get? k := by
  induction new generalizing xs pos with
  | nil => rfl
  | cons b rest ih =>
    rw [writeAt, ih (xs.set pos b) (pos + 1) (by omega),
      List.get?_set_ne _ _ (by omega)]

theorem writeAt_get?_ge {k : Nat} (xs : List Nat) (pos : Nat) (new : List Nat)
    (h : pos + new.length ≤ k) : (writeAt xs pos new).get? k = xs.get? k := by
  induction new generalizing xs pos with
  | nil => rfl
  | cons b rest ih =>
    rw [writeAt, ih (xs.set pos b) (pos + 1) (by simp at h ⊢; omega),
      List.get?_set_ne _ _ (by simp at h; omega)]

theorem writeAt_get?_in {i : Nat} (xs : List Nat) (pos : Nat) (new : List Nat)
    (hi : i < new.length) (hin : pos + i < xs.length) :
    (writeAt xs pos new).get? (pos + i) = new.get? i := by
  induction new generalizing xs pos i with
  | nil => exact absurd hi (by simp)
  | cons b rest ih =>
    rw [writeAt]
    cases i with
    | zero =>
      rw [writeAt_get?_lt _ _ _ (by omega)]
      simp only [Nat.add_zero] at hin ⊢
      simp [List.get?_eq_getElem?, List.getElem?_set, hin]
    | succ j =>
      rw [show pos + (j + 1) = (pos + 1) + j by omega,
        ih (xs.set pos b) (pos + 1) (by simpa using hi)
          (by rw [List.length_set]; omega)]
      rfl

theorem changeOperand_ok {c : Compiler} {pos : Nat} {op : Opcode} (t : Nat)
    (hb : c.instructions.get? pos = some (Opcode.byte op)) :
    c.changeOperand pos t = .ok (c.replaceInstruction pos (make op [t])) := by
  simp only [Compiler.changeOperand, hb, Opcode.fromByte_byte]

theorem Ext.writeAt_high {c : Compiler} (pos : Nat) (new : List Nat)
    (hpos : c.instructions.length ≤ pos) :
    Ext c { c with instructions := writeAt c.instructions pos new } := by
  refine ⟨?_, ?_, fun k x hx => hx, le_rfl⟩
  · show c.instructions.length ≤ (writeAt c.instructions pos new).length
    rw [writeAt_length]
  · intro k hk
    show (writeAt c.instructions pos new).get? k = _
    exact writeAt_get?_lt _ _ _ (by omega)

theorem Ext.truncate {c c' : Compiler} (hext : Ext c c')
    (hlast : c'.last_instruction.position = c'.instructions.length - 1)
    (hgrow : c.instructions.length + 2 ≤ c'.instructions.length) :
    Ext c c'.removeLastPop ∧
      (c'.removeLastPop).instructions.length = c'.instructions.length - 1 := by
  have hlen : (c'.removeLastPop).instructions.length =
      c'.instructions.length - 1 := by
    show (c'.instructions.take c'.last_instruction.position).length = _
    rw [hlast, List.length_take]
    omega
  refine ⟨⟨?_, ?_, hext.2.2.1, hext.2.2.2⟩, hlen⟩
  · rw [hlen]
    omega
  · intro k hk
    show (c'.instructions.take c'.last_instruction.position).get? k = _
    rw [hlast, List.get?_take (by omega)]
    exact hext.2.1 k hk

def Agree.mono {I : List Nat} {c c' : Compiler} {lo hi hi' : Nat}
    (hext : Ext c c') (h : Agree I c' lo hi')
    (hhi : hi ≤ c.instructions.length) (hhi' : hi ≤ hi') : Agree I c lo hi :=
  fun k hk1 hk2 =>
    (h k hk1 (lt_of_lt_of_le hk2 hhi')).trans
      (hext.2.1 k (lt_of_lt_of_le hk2 hhi))

theorem Agree.get {I : List Nat} {c : Compiler} {lo hi k b : Nat}
    (h : Agree I c lo hi) (hk1 : lo ≤ k) (hk2 : k < hi)
    (hb : c.instructions.get? k = some b) : I.get? k = some b := by
  rw [h k hk1 hk2]
  exact hb

theorem Ext.writeAt_of_le {c0 c : Compiler} (hext : Ext c0 c) {pos : Nat}
    (new : List Nat) (hpos : c0.instructions.length ≤ pos) :
    Ext c0 { c with instructions := writeAt c.instructions pos new } := by
  refine ⟨?_, ?_, hext.2.2.1, hext.2.2.2⟩
  · show _ ≤ (writeAt c.instructions pos new).length
    rw [writeAt_length]
    exact hext.1
  · intro k hk
    show (writeAt c.instructions pos new).get? k = _
    rw [writeAt_get?_lt _ _ _ (by omega)]
    exact hext.2.1 k hk

theorem compileStmt_expr_ok {c c1 : Compiler} {e : Expr}
    (h : compileStmt c (.expr e) = .ok c1) :
    ∃ ce, compileExpr c e = .ok ce ∧ c1 = (ce.emit .pop []).2 := by
  simp only [compileStmt] at h
  split at h
  · exact Except.noConfusion h
  · rename_i ce heq
    injection h with h
    exact ⟨ce, heq, h.symm⟩

theorem compileBlock_shape (ts : List Expr)
    (IH : ∀ e ∈ ts, ∀ c c' : Compiler, compileExpr c e = .ok c' →
      Ext c c' ∧ c'.symbols = c.symbols ∧
      c.instructions.length + 1 ≤ c'.instructions.length) :
    ∀ c c' : Compiler, compileProgram c (ts.map .expr) = .ok c' →
      Ext c c' ∧ c'.symbols = c.symbols ∧
      (ts = [] → c' = c) ∧
      (ts ≠ [] →
        c.instructions.length + 2 ≤ c'.instructions.length ∧
        c'.last_instruction = ⟨.pop, c'.instructions.length - 1⟩ ∧
        c'.instructions.get? (c'.instructions.length - 1) =
          some (Opcode.byte .pop)) := by
  induction ts with
  | nil =>
    intro c c' h
    simp only [List.map_nil, compileProgram] at h
    injection h with h
    subst h
    exact ⟨Ext.refl c, rfl, fun _ => rfl, fun hne => absurd rfl hne⟩
  | cons e rest ih =>
    intro c c' h
    simp only [List.map_cons, compileProgram] at h
    split at h
    · exact Except.noConfusion h
    · rename_i c1 heq
      obtain ⟨ce, hce, rfl⟩ := compileStmt_expr_ok heq
      obtain ⟨hext_e, hsym_e, hgrow_e⟩ := IH e (by simp) c ce hce
      have hext1 : Ext c (ce.emit .pop []).2 :=
        hext_e.trans (Ext.emit ce .pop [])
      have hlen1 : ((ce.emit .pop []).2).instructions.length =
          ce.instructions.length + 1 := by
        rw [emit_instructions, make_nil]
        simp
      obtain ⟨hext_r, hsym_r, hnil_r, hne_r⟩ :=
        ih (fun x hx => IH x (by simp [hx])) (ce.emit .pop []).2 c' h
      refine ⟨hext1.trans hext_r, by rw [hsym_r, emit_symbols, hsym_e],
        fun hh => List.noConfusion hh, fun _ => ?_⟩
      cases rest with
      | nil =>
        have hc' : c' = (ce.emit .pop []).2 := hnil_r rfl
        subst hc'
        refine ⟨by omega, ?_, ?_⟩
        · rw [emit_last, hlen1]
          simp
        · rw [hlen1]
          rw [emit_instructions, make_nil]
          simp only [Nat.add_sub_cancel]
          exact get?_append_length _ _ _
      | cons e2 r2 =>
        obtain ⟨hg, hl, hb⟩ := hne_r (by simp)
        exact ⟨by omega, hl, hb⟩

theorem ext_two_emit {c c1 c2 : Compiler} (op : Opcode)
    (h1 : Ext c c1 ∧ c1.symbols = c.symbols ∧
      c.instructions.length + 1 ≤ c1.instructions.length)
    (h2 : Ext c1 c2 ∧ c2.symbols = c1.symbols ∧
      c1.instructions.length + 1 ≤ c2.instructions.length) :
    Ext c (c2.emit op []).2 ∧ (c2.emit op []).2.symbols = c.symbols ∧
      c.instructions.length + 1 ≤ (c2.emit op []).2.instructions.length := by
  obtain ⟨e1, s1, g1⟩ := h1
  obtain ⟨e2, s2, g2⟩ := h2
  refine ⟨(e1.trans e2).trans (Ext.emit c2 op []),
    by rw [emit_symbols, s2, s1], ?_⟩
  have hl : (c2.emit op []).2.instructions.length =
      c2.instructions.length + 1 := by
    rw [emit_instructions, make_nil]
    simp
  omega

theorem emit_len_nil (c : Compiler) (op : Opcode) :
    (c.emit op []).2.instructions.length = c.instructions.length + 1 := by
  rw [emit_instructions, make_nil]
  simp

theorem replaceInstruction_instructions (c : Compiler) (pos : Nat)
    (new : List Nat) :
    (c.replaceInstruction pos new).instructions =
      writeAt c.instructions pos new := rfl

theorem Ext.replace_of_le {c0 c : Compiler} (hext : Ext c0 c) {pos : Nat}
    (new : List Nat) (hpos : c0.instructions.length ≤ pos) :
    Ext c0 (c.replaceInstruction pos new) :=
  Ext.writeAt_of_le hext new hpos

/-- `compile_expr` on an if-expression, written with explicit stage
projections instead of the source's tuple bindings (definitionally equal). -/
theorem compileExpr_ifE (c : Compiler) (cond : Expr) (cons alt : List Stmt) :
    compileExpr c (.ifE cond cons alt) =
      match compileExpr c cond with
      | .error e => .error e
      | .ok c1 =>
        match compileProgram (c1.emit .jumpNotTruthy [9999]).2 cons with
        | .error e => .error e
        | .ok c3 =>
          match ((if c3.lastInstructionIs .pop then c3.removeLastPop
                  else c3).emit .jump [9999]).2.changeOperand
              (c1.emit .jumpNotTruthy [9999]).1
              ((if c3.lastInstructionIs .pop then c3.removeLastPop
                else c3).emit .jump [9999]).2.instructions.length with
          | .error e => .error e
          | .ok c6 =>
            match compileProgram c6 alt with
            | .error e => .error e
            | .ok c7 =>
              (if c7.lastInstructionIs .pop then c7.removeLastPop
               else c7).changeOperand
                ((if c3.lastInstructionIs .pop then c3.removeLastPop
                  else c3).emit .jump [9999]).1
                (if c7.lastInstructionIs .pop then c7.removeLastPop
                 else c7).instructions.length := by
  rfl

theorem emit_len_w2 (c : Compiler) (op : Opcode) (x : Nat)
    (hw : operandWidths op = [2]) :
    (c.emit op [x]).2.instructions.length = c.instructions.length + 3 := by
  rw [emit_instructions, make_width2 op x hw]
  simp

theorem fragCompile_ext {e : Expr} (he : FragExpr e) :
    ∀ c c' : Compiler, compileExpr c e = .ok c' →
      Ext c c' ∧ c'.symbols = c.symbols ∧
      c.instructions.length + 1 ≤ c'.instructions.length := by
  induction he with
  | number n =>
    intro c c' h
    simp only [compileExpr, Compiler.addConstant] at h
    injection h with h
    subst h
    refine ⟨(Ext.addConstant c (.number n)).trans (Ext.emit _ .constant _),
      rfl, ?_⟩
    show c.instructions.length + 1 ≤
      (c.instructions ++ make .constant [c.constants.length]).length
    have := make_length_pos .constant [c.constants.length]
    rw [List.length_append]
    omega
  | str s =>
    intro c c' h
    simp only [compileExpr, Compiler.addConstant] at h
    injection h with h
    subst h
    refine ⟨(Ext.addConstant c (.str s)).trans (Ext.emit _ .constant _),
      rfl, ?_⟩
    show c.instructions.length + 1 ≤
      (c.instructions ++ make .constant [c.constants.length]).length
    have := make_length_pos .constant [c.constants.length]
    rw [List.length_append]
    omega
  | boolean b =>
    intro c c' h
    simp only [compileExpr] at h
    injection h with h
    subst h
    refine ⟨Ext.emit c _ [], rfl, ?_⟩
    rw [emit_len_nil]
  | ident x =>
    intro c c' h
    simp only [compileExpr] at h
    split at h
    · rename_i sym hres
      injection h with h
      subst h
      refine ⟨Ext.emit c .getGlobal [sym.index], rfl, ?_⟩
      show c.instructions.length + 1 ≤
        (c.instructions ++ make .getGlobal [sym.index]).length
      have := make_length_pos .getGlobal [sym.index]
      rw [List.length_append]
      omega
    · exact Except.noConfusion h
  | neg hfe ihe =>
    intro c c' h
    simp only [compileExpr] at h
    split at h
    · exact Except.noConfusion h
    · rename_i c1 heq
      obtain ⟨e1, s1, g1⟩ := ihe c c1 heq
      injection h with h
      subst h
      exact ⟨e1.trans (Ext.emit c1 _ []), by rw [emit_symbols, s1],
        by rw [emit_len_nil]; omega⟩
  | bang hfe hbs ihe =>
    intro c c' h
    simp only [compileExpr] at h
    split at h
    · exact Except.noConfusion h
    · rename_i c1 heq
      obtain ⟨e1, s1, g1⟩ := ihe c c1 heq
      injection h with h
      subst h
      exact ⟨e1.trans (Ext.emit c1 _ []), by rw [emit_symbols, s1],
        by rw [emit_len_nil]; omega⟩
  | binop op hop hfl hfr ihl ihr =>
    intro c c' h
    simp only [compileExpr] at h
    split at h
    · split at h
      · exact Except.noConfusion h
      · rename_i c1 heq1
        split at h
        · exact Except.noConfusion h
        · rename_i c2 heq2
          split at h <;>
            (injection h with h; subst h;
             exact ext_two_emit _ (ihr c c1 heq1) (ihl c1 c2 heq2))
    · split at h
      · exact Except.noConfusion h
      · rename_i c1 heq1
        split at h
        · exact Except.noConfusion h
        · rename_i c2 heq2
          split at h <;> first
            | exact Except.noConfusion h
            | (injection h with h; subst h;
               exact ext_two_emit _ (ihl c c1 heq1) (ihr c1 c2 heq2))
  | ifE hfc hbs htne hene hfts hfes ihc ihts ihes =>
    rename_i cond ts es
    intro c0 cf h
    rw [compileExpr_ifE] at h
    split at h
    · exact Except.noConfusion h
    · rename_i c1 heq1
      obtain ⟨ext1, sym1, grow1⟩ := ihc c0 c1 heq1
      rw [emit_fst] at h
      split at h
      · exact Except.noConfusion h
      · rename_i c3 heq3
        obtain ⟨ext3, sym3, -, hne3⟩ :=
          compileBlock_shape ts ihts (c1.emit .jumpNotTruthy [9999]).2 c3 heq3
        obtain ⟨grow3, last3, byte3⟩ := hne3 htne
        have len2 : (c1.emit .jumpNotTruthy [9999]).2.instructions.length =
            c1.instructions.length + 3 := emit_len_w2 _ _ _ rfl
        have ext2 : Ext c1 (c1.emit .jumpNotTruthy [9999]).2 :=
          Ext.emit c1 .jumpNotTruthy [9999]
        have sym2 : (c1.emit .jumpNotTruthy [9999]).2.symbols = c1.symbols :=
          emit_symbols c1 _ _
        rw [if_pos (by simp [Compiler.lastInstructionIs, last3])] at h
        obtain ⟨ext4, len4⟩ := ext3.truncate (by rw [last3]) (by omega)
        have len5 : ((c3.removeLastPop).emit .jump [9999]).2.instructions.length
            = (c3.removeLastPop).instructions.length + 3 :=
          emit_len_w2 _ _ _ rfl
        have ext5 : Ext (c3.removeLastPop)
            ((c3.removeLastPop).emit .jump [9999]).2 :=
          Ext.emit (c3.removeLastPop) .jump [9999]
        have sym5 : ((c3.removeLastPop).emit .jump [9999]).2.symbols =
            (c3.removeLastPop).symbols := emit_symbols _ _ _
        rw [emit_fst] at h
        split at h
        · exact Except.noConfusion h
        · rename_i c6 heq6
          have hb6 : ∃ op6 : Opcode,
              c6 = (((c3.removeLastPop).emit .jump [9999]).2).replaceInstruction
                c1.instructions.length
                (make op6
                  [((c3.removeLastPop).emit .jump [9999]).2.instructions.length]) := by
            rw [Compiler.changeOperand] at heq6
            split at heq6
            · exact Except.noConfusion heq6
            · split at heq6
              · exact Except.noConfusion heq6
              · rename_i op6 hop6
                injection heq6 with heq6
                exact ⟨op6, heq6.symm⟩
          obtain ⟨op6, hc6⟩ := hb6
          have ext6 : Ext c0 c6 := by
            rw [hc6]
            exact Ext.replace_of_le
              (((ext1.trans ext2).trans ext4).trans ext5) _ (by omega)
          have sym6 : c6.symbols =
              ((c3.removeLastPop).emit .jump [9999]).2.symbols := by
            rw [hc6]
            rfl
          have len6 : c6.instructions.length =
              ((c3.removeLastPop).emit .jump [9999]).2.instructions.length := by
            rw [hc6, replaceInstruction_instructions]
            exact writeAt_length _ _ _
          split at h
          · exact Except.noConfusion h
          · rename_i c7 heq7
            obtain ⟨ext7, sym7, -, hne7⟩ :=
              compileBlock_shape es ihes c6 c7 heq7
            obtain ⟨grow7, last7, byte7⟩ := hne7 hene
            rw [if_pos (by simp [Compiler.lastInstructionIs, last7])] at h
            obtain ⟨ext8, len8⟩ := ext7.truncate (by rw [last7]) (by omega)
            have hbf : ∃ opf : Opcode,
                cf = (c7.removeLastPop).replaceInstruction
                  (c3.removeLastPop).instructions.length
                  (make opf [(c7.removeLastPop).instructions.length]) := by
              rw [Compiler.changeOperand] at h
              split at h
              · exact Except.noConfusion h
              · split at h
                · exact Except.noConfusion h
                · rename_i opf hopf
                  injection h with h
                  exact ⟨opf, h.symm⟩
            obtain ⟨opf, hcf⟩ := hbf
            have extf : Ext c0 cf := by
              rw [hcf]
              exact Ext.replace_of_le (ext6.trans ext8) _ (by omega)
            have symf : cf.symbols = c0.symbols := by
              rw [hcf]
              show c7.symbols = c0.symbols
              rw [sym7, sym6, sym5]
              show c3.symbols = c0.symbols
              rw [sym3, sym2, sym1]
            have lenf : cf.instructions.length =
                (c7.removeLastPop).instructions.length := by
              rw [hcf, replaceInstruction_instructions]
              exact writeAt_length _ _ _
            exact ⟨extf, symf, by omega⟩

/-! ### Evaluator-side elimination lemmas for the fragment -/

theorem get?_some_lt {α : Type} {l : List α} {k : Nat} {x : α}
    (h : l.get? k = some x) : k < l.length := by
  by_contra hk
  push_neg at hk
  rw [List.get?_eq_none.2 hk] at h
  exact Option.noConfusion h

theorem get?_append_length_succ {α : Type} (l : List α) (x y : α)
    (l' : List α) : (l ++ x :: y :: l').get? (l.length + 1) = some y := by
  rw [List.get?_append_right (by omega)]
  simp

theorem get?_append_length_two {α : Type} (l : List α) (x y z : α)
    (l' : List α) : (l ++ x :: y :: z :: l').get? (l.length + 2) = some z := by
  rw [List.get?_append_right (by omega)]
  simp

theorem ConstsLe.mono {c c' : Compiler} {consts : List Object} (hext : Ext c c')
    (h : ConstsLe c' consts) : ConstsLe c consts :=
  fun k x hx => h k x (hext.2.2.1 k x hx)

theorem rootState_cur (store : List (Name × Object)) :
    (rootState store).cur = 0 := rfl

theorem isTruthy_boolean (b : Bool) : isTruthy (.boolean b) = b := by
  cases b <;> rfl

theorem vmIsTruthy_boolean (b : Bool) : vmIsTruthy (.boolean b) = b := by
  cases b <;> rfl

theorem evalStmt_expr (fuel : Nat) (e : Expr) :
    evalStmt (fuel + 1) (.expr e) = evalExpr fuel e := rfl

theorem evalNumberOperator_bool {l r v : Object} {op : String}
    (hop : op = ">" ∨ op = "<" ∨ op = ">=" ∨ op = "<=")
    (h : evalNumberOperator l op r = .ok v) : ∃ b : Bool, v = .boolean b := by
  obtain ⟨a, b, rfl, rfl⟩ := evalNumberOperator_shape h
  rcases hop with rfl | rfl | rfl | rfl <;>
    simp only [evalNumberOperator] at h <;>
    exact ⟨_, by injection h with h; exact h.symm⟩

theorem boolShaped_eval {e : Expr} (hb : boolShaped e = true) {fuel : Nat}
    {st st' : EvalState} {v : Object}
    (h : evalExpr fuel e st = (.ok v, st')) : ∃ b : Bool, v = .boolean b := by
  cases fuel with
  | zero => exact absurd h (by simp [evalExpr, M.throw])
  | succ fuel =>
    cases e
    case boolean b =>
      simp only [evalExpr, M.pure] at h
      obtain ⟨h1, h2⟩ := Prod.mk.injEq .. ▸ h
      injection h1 with h1
      exact ⟨b, by rw [← h1, nativeBool_eq]⟩
    case prefixE op r =>
      have hop : op = "!" := by simpa [boolShaped] using hb
      subst hop
      simp only [evalExpr] at h
      obtain ⟨a, stm, ha, hf⟩ := M.bind_eq_ok h
      obtain ⟨h1, h2⟩ := M.ofExcept_eq_ok hf
      simp only [evalPrefixExpression] at h1
      injection h1 with h1
      exact ⟨_, by rw [← h1, evalBangOperator, nativeBool_eq]⟩
    case infixE l op r =>
      simp only [evalExpr] at h
      obtain ⟨lv, st1, hl, h2⟩ := M.bind_eq_ok h
      obtain ⟨rv, st2, hr, h3⟩ := M.bind_eq_ok h2
      obtain ⟨h4, h5⟩ := M.ofExcept_eq_ok h3
      have hop : op = ">" ∨ op = "<" ∨ op = ">=" ∨ op = "<=" ∨ op = "==" ∨
          op = "!=" := by
        have hb' := hb
        simp [boolShaped] at hb'
        tauto
      rcases hop with rfl | rfl | rfl | rfl | rfl | rfl
      · have h4' : evalNumberOperator lv ">" rv = Except.ok v := h4
        exact evalNumberOperator_bool (by simp) h4'
      · have h4' : evalNumberOperator lv "<" rv = Except.ok v := h4
        exact evalNumberOperator_bool (by simp) h4'
      · have h4' : evalNumberOperator lv ">=" rv = Except.ok v := h4
        exact evalNumberOperator_bool (by simp) h4'
      · have h4' : evalNumberOperator lv "<=" rv = Except.ok v := h4
        exact evalNumberOperator_bool (by simp) h4'
      · have h4' : evalBooleanOperator lv "==" rv = Except.ok v := h4
        obtain ⟨hv, -⟩ := boolOp_sim (Or.inl rfl) h4'
        exact ⟨_, hv⟩
      · have h4' : evalBooleanOperator lv "!=" rv = Except.ok v := h4
        obtain ⟨hv, -⟩ := boolOp_sim (Or.inr rfl) h4'
        exact ⟨_, hv⟩
    all_goals exact absurd hb (by simp [boolShaped])

theorem evalBlockGo_cons_elim {fuel : Nat} {stmt : Stmt} {rest : List Stmt}
    {acc : Object} {st st' : EvalState} {out : Object}
    (h : evalBlockGo (fuel + 1) (stmt :: rest) acc st = (.ok out, st')) :
    ∃ v st1, evalStmt fuel stmt st = (.ok v, st1) ∧
      ((∃ w, v = .ret w ∧ out = .ret w ∧ st' = st1) ∨
       ((∀ w, v ≠ .ret w) ∧ evalBlockGo fuel rest v st1 = (.ok out, st'))) := by
  simp only [evalBlockGo] at h
  obtain ⟨a, st1, ha, hf⟩ := M.bind_eq_ok h
  refine ⟨a, st1, ha, ?_⟩
  cases a
  case ret w =>
    refine Or.inl ⟨w, rfl, ?_, ?_⟩
    · have hf' : (.ok (Object.ret w), st1) = ((Except.ok out : Except Err Object), st') := hf
      obtain ⟨h1, h2⟩ := Prod.mk.injEq .. ▸ hf'
      injection h1 with h1
      exact h1.symm
    · have hf' : (.ok (Object.ret w), st1) = ((Except.ok out : Except Err Object), st') := hf
      obtain ⟨h1, h2⟩ := Prod.mk.injEq .. ▸ hf'
      exact h2.symm
  all_goals exact Or.inr ⟨fun w hw => Object.noConfusion hw, hf⟩

theorem evalProgramGo_cons_elim {fuel : Nat} {stmt : Stmt} {rest : List Stmt}
    {acc : Object} {st st' : EvalState} {out : Object}
    (h : evalProgramGo (fuel + 1) (stmt :: rest) acc st = (.ok out, st')) :
    ∃ v st1, evalStmt fuel stmt st = (.ok v, st1) ∧
      ((∃ w, v = .ret w ∧ out = w ∧ st' = st1) ∨
       ((∀ w, v ≠ .ret w) ∧ evalProgramGo fuel rest v st1 = (.ok out, st'))) := by
  simp only [evalProgramGo] at h
  obtain ⟨a, st1, ha, hf⟩ := M.bind_eq_ok h
  refine ⟨a, st1, ha, ?_⟩
  cases a
  case ret w =>
    refine Or.inl ⟨w, rfl, ?_, ?_⟩
    · have hf' : (.ok w, st1) = ((Except.ok out : Except Err Object), st') := hf
      obtain ⟨h1, h2⟩ := Prod.mk.injEq .. ▸ hf'
      injection h1 with h1
      exact h1.symm
    · have hf' : (.ok w, st1) = ((Except.ok out : Except Err Object), st') := hf
      obtain ⟨h1, h2⟩ := Prod.mk.injEq .. ▸ hf'
      exact h2.symm
  all_goals exact Or.inr ⟨fun w hw => Object.noConfusion hw, hf⟩

theorem simE_number (n : ℚ) : SimE (.number n) := by
  intro c0 c1 fuel store v st' I consts s g vm hcomp heval hagree hlen hI65
    hconsts hc65 hginv hg65 hvm hstack
  simp only [compileExpr, Compiler.addConstant] at hcomp
  injection hcomp with hcomp
  cases fuel with
  | zero => exact absurd heval (by simp [evalExpr, M.throw])
  | succ fuel =>
    simp only [evalExpr, M.pure] at heval
    obtain ⟨hv, hst⟩ := Prod.mk.injEq .. ▸ heval
    injection hv with hv
    subst hv
    refine ⟨hst.symm, Or.inl ⟨n, rfl⟩, ?_⟩
    have hlen1 : c1.instructions.length = c0.instructions.length + 3 := by
      rw [← hcomp]
      exact emit_len_w2 _ _ _ rfl
    have hins : c1.instructions =
        c0.instructions ++ make .constant [c0.constants.length] := by
      rw [← hcomp]
      rfl
    have hcst : c1.constants.get? c0.constants.length = some (.number n) := by
      rw [← hcomp]
      show (c0.constants ++ [Object.number n]).get? c0.constants.length = _
      exact get?_append_length _ _ _
    have hcon : consts.get? c0.constants.length = some (.number n) :=
      hconsts _ _ hcst
    have hidx : c0.constants.length < 65536 :=
      lt_of_lt_of_le (get?_some_lt hcon) hc65
    have hb0 : I.get? c0.instructions.length = some (Opcode.byte .constant) :=
      hagree.get (le_refl _) (by omega)
        (by rw [hins, make_width2 .constant _ rfl]; exact get?_append_length _ _ _)
    have hb1 : I.get? (c0.instructions.length + 1) =
        some (c0.constants.length % 65536 / 256) :=
      hagree.get (by omega) (by omega)
        (by rw [hins, make_width2 .constant _ rfl]; exact get?_append_length_succ _ _ _ _)
    have hb2 : I.get? (c0.instructions.length + 2) =
        some (c0.constants.length % 256) :=
      hagree.get (by omega) (by omega)
        (by rw [hins, make_width2 .constant _ rfl]; exact get?_append_length_two _ _ _ _ _)
    have hroom : s.length < STACK_SIZE := by
      have h1 : exprNodes (.number n) = 1 := rfl
      omega
    obtain ⟨vm', hstep, hok⟩ :=
      step_constant hb0 hb1 hb2 hidx hcon hvm hroom
    refine ⟨vm', ?_, hok⟩
    rw [hlen1]
    exact RunsTo.single (by omega) hstep

theorem simE_str (sv : String) : SimE (.str sv) := by
  intro c0 c1 fuel store v st' I consts s g vm hcomp heval hagree hlen hI65
    hconsts hc65 hginv hg65 hvm hstack
  simp only [compileExpr, Compiler.addConstant] at hcomp
  injection hcomp with hcomp
  cases fuel with
  | zero => exact absurd heval (by simp [evalExpr, M.throw])
  | succ fuel =>
    simp only [evalExpr, M.pure] at heval
    obtain ⟨hv, hst⟩ := Prod.mk.injEq .. ▸ heval
    injection hv with hv
    subst hv
    refine ⟨hst.symm, Or.inr (Or.inl ⟨sv, rfl⟩), ?_⟩
    have hlen1 : c1.instructions.length = c0.instructions.length + 3 := by
      rw [← hcomp]
      exact emit_len_w2 _ _ _ rfl
    have hins : c1.instructions =
        c0.instructions ++ make .constant [c0.constants.length] := by
      rw [← hcomp]
      rfl
    have hcst : c1.constants.get? c0.constants.length = some (.str sv) := by
      rw [← hcomp]
      show (c0.constants ++ [Object.str sv]).get? c0.constants.length = _
      exact get?_append_length _ _ _
    have hcon : consts.get? c0.constants.length = some (.str sv) :=
      hconsts _ _ hcst
    have hidx : c0.constants.length < 65536 :=
      lt_of_lt_of_le (get?_some_lt hcon) hc65
    have hb0 : I.get? c0.instructions.length = some (Opcode.byte .constant) :=
      hagree.get (le_refl _) (by omega)
        (by rw [hins, make_width2 .constant _ rfl]; exact get?_append_length _ _ _)
    have hb1 : I.get? (c0.instructions.length + 1) =
        some (c0.constants.length % 65536 / 256) :=
      hagree.get (by omega) (by omega)
        (by rw [hins, make_width2 .constant _ rfl]; exact get?_append_length_succ _ _ _ _)
    have hb2 : I.get? (c0.instructions.length + 2) =
        some (c0.constants.length % 256) :=
      hagree.get (by omega) (by omega)
        (by rw [hins, make_width2 .constant _ rfl]; exact get?_append_length_two _ _ _ _ _)
    have hroom : s.length < STACK_SIZE := by
      have h1 : exprNodes (.str sv) = 1 := rfl
      omega
    obtain ⟨vm', hstep, hok⟩ :=
      step_constant hb0 hb1 hb2 hidx hcon hvm hroom
    refine ⟨vm', ?_, hok⟩
    rw [hlen1]
    exact RunsTo.single (by omega) hstep

theorem simE_boolean (b : Bool) : SimE (.boolean b) := by
  intro c0 c1 fuel store v st' I consts s g vm hcomp heval hagree hlen hI65
    hconsts hc65 hginv hg65 hvm hstack
  simp only [compileExpr] at hcomp
  injection hcomp with hcomp
  cases fuel with
  | zero => exact absurd heval (by simp [evalExpr, M.throw])
  | succ fuel =>
    simp only [evalExpr, M.pure] at heval
    obtain ⟨hv, hst⟩ := Prod.mk.injEq .. ▸ heval
    injection hv with hv
    subst hv
    rw [nativeBool_eq]
    refine ⟨hst.symm, Or.inr (Or.inr ⟨b, rfl⟩), ?_⟩
    have hlen1 : c1.instructions.length = c0.instructions.length + 1 := by
      rw [← hcomp]
      exact emit_len_nil _ _
    have hins : c1.instructions =
        c0.instructions ++ [(if b then Opcode.true_ else Opcode.false_).byte] := by
      rw [← hcomp, emit_instructions, make_nil]
    have hroom : s.length < STACK_SIZE := by
      have h1 : exprNodes (.boolean b) = 1 := rfl
      omega
    cases b
    · have hb0 : I.get? c0.instructions.length = some (Opcode.byte .false_) :=
        hagree.get (le_refl _) (by omega)
          (by rw [hins]; exact get?_append_length _ _ _)
      obtain ⟨vm', hstep, hok⟩ := step_false hb0 hvm hroom
      refine ⟨vm', ?_, hok⟩
      rw [hlen1]
      exact RunsTo.single (by omega) hstep
    · have hb0 : I.get? c0.instructions.length = some (Opcode.byte .true_) :=
        hagree.get (le_refl _) (by omega)
          (by rw [hins]; exact get?_append_length _ _ _)
      obtain ⟨vm', hstep, hok⟩ := step_true hb0 hvm hroom
      refine ⟨vm', ?_, hok⟩
      rw [hlen1]
      exact RunsTo.single (by omega) hstep

theorem simE_ident (x : Name) : SimE (.ident x) := by
  intro c0 c1 fuel store v st' I consts s g vm hcomp heval hagree hlen hI65
    hconsts hc65 hginv hg65 hvm hstack
  simp only [compileExpr, SymbolTable.resolve] at hcomp
  split at hcomp
  · rename_i sym hres
    injection hcomp with hcomp
    cases fuel with
    | zero => exact absurd heval (by simp [evalExpr, M.throw])
    | succ fuel =>
      obtain ⟨hidxlt, val, hgval, hsval, hvc⟩ := hginv.2 x sym hres
      simp only [evalExpr, rootState_cur, envGet_root, hsval] at heval
      obtain ⟨hv, hst⟩ := Prod.mk.injEq .. ▸ heval
      injection hv with hv
      subst hv
      refine ⟨hst.symm, hvc, ?_⟩
      have hlen1 : c1.instructions.length = c0.instructions.length + 3 := by
        rw [← hcomp]
        exact emit_len_w2 _ _ _ rfl
      have hins : c1.instructions =
          c0.instructions ++ make .getGlobal [sym.index] := by
        rw [← hcomp]
        rfl
      have hidx : sym.index < 65536 := by omega
      have hb0 : I.get? c0.instructions.length =
          some (Opcode.byte .getGlobal) :=
        hagree.get (le_refl _) (by omega)
          (by rw [hins, make_width2 .getGlobal _ rfl]; exact get?_append_length _ _ _)
      have hb1 : I.get? (c0.instructions.length + 1) =
          some (sym.index % 65536 / 256) :=
        hagree.get (by omega) (by omega)
          (by rw [hins, make_width2 .getGlobal _ rfl]
              exact get?_append_length_succ _ _ _ _)
      have hb2 : I.get? (c0.instructions.length + 2) =
          some (sym.index % 256) :=
        hagree.get (by omega) (by omega)
          (by rw [hins, make_width2 .getGlobal _ rfl]
              exact get?_append_length_two _ _ _ _ _)
      have hroom : s.length < STACK_SIZE := by
        have h1 : exprNodes (.ident x) = 1 := rfl
        omega
      obtain ⟨vm', hstep, hok⟩ :=
        step_getGlobal hb0 hb1 hb2 hidx hgval hvm hroom
      refine ⟨vm', ?_, hok⟩
      rw [hlen1]
      exact RunsTo.single (by omega) hstep
  · exact Except.noConfusion hcomp

theorem simE_neg {e : Expr} (hfe : FragExpr e) (ihe : SimE e) :
    SimE (.prefixE "-" e) := by
  intro c0 c1 fuel store v st' I consts s g vm hcomp heval hagree hlen hI65
    hconsts hc65 hginv hg65 hvm hstack
  simp only [compileExpr] at hcomp
  split at hcomp
  · exact Except.noConfusion hcomp
  · rename_i cA heqA
    injection hcomp with hcomp
    subst hcomp
    obtain ⟨extA, symA, growA⟩ := fragCompile_ext hfe c0 cA heqA
    have hlenA : (cA.emit .minus []).2.instructions.length =
        cA.instructions.length + 1 := emit_len_nil _ _
    cases fuel with
    | zero => exact absurd heval (by simp [evalExpr, M.throw])
    | succ fuel =>
      simp only [evalExpr] at heval
      obtain ⟨r, stm, hr, hf⟩ := M.bind_eq_ok heval
      obtain ⟨hpe, hst⟩ := M.ofExcept_eq_ok hf
      have hnodes : exprNodes (.prefixE "-" e) = exprNodes e + 1 := rfl
      obtain ⟨hstm, hvc, vmA, hrunA, hokA⟩ :=
        ihe c0 cA fuel store r stm I consts s g vm heqA hr
          (Agree.mono (Ext.emit cA .minus []) hagree (le_refl _) (by omega))
          (by omega) hI65 (ConstsLe.mono (Ext.emit cA .minus []) hconsts)
          hc65 hginv hg65 hvm (by omega)
      rcases hvc with ⟨nq, rfl⟩ | ⟨sq, rfl⟩ | ⟨bq, rfl⟩
      · simp only [evalPrefixExpression] at hpe
        injection hpe with hpe
        subst hpe
        refine ⟨by rw [hst, hstm], Or.inl ⟨-nq, rfl⟩, ?_⟩
        have hb0 : I.get? cA.instructions.length = some (Opcode.byte .minus) :=
          hagree.get (by omega) (by omega)
            (by rw [emit_instructions, make_nil]
                exact get?_append_length _ _ _)
        obtain ⟨vm', hstep, hok⟩ := step_minus hb0 hokA (by omega)
        refine ⟨vm', ?_, hok⟩
        rw [hlenA]
        exact hrunA.trans (RunsTo.single (by omega) hstep)
      · simp [evalPrefixExpression] at hpe
      · simp [evalPrefixExpression] at hpe

theorem simE_bang {e : Expr} (hfe : FragExpr e) (hbs : boolShaped e = true)
    (ihe : SimE e) : SimE (.prefixE "!" e) := by
  intro c0 c1 fuel store v st' I consts s g vm hcomp heval hagree hlen hI65
    hconsts hc65 hginv hg65 hvm hstack
  simp only [compileExpr] at hcomp
  split at hcomp
  · exact Except.noConfusion hcomp
  · rename_i cA heqA
    injection hcomp with hcomp
    subst hcomp
    obtain ⟨extA, symA, growA⟩ := fragCompile_ext hfe c0 cA heqA
    have hlenA : (cA.emit .bang []).2.instructions.length =
        cA.instructions.length + 1 := emit_len_nil _ _
    cases fuel with
    | zero => exact absurd heval (by simp [evalExpr, M.throw])
    | succ fuel =>
      simp only [evalExpr] at heval
      obtain ⟨r, stm, hr, hf⟩ := M.bind_eq_ok heval
      obtain ⟨hpe, hst⟩ := M.ofExcept_eq_ok hf
      have hnodes : exprNodes (.prefixE "!" e) = exprNodes e + 1 := rfl
      obtain ⟨hstm, hvc, vmA, hrunA, hokA⟩ :=
        ihe c0 cA fuel store r stm I consts s g vm heqA hr
          (Agree.mono (Ext.emit cA .bang []) hagree (le_refl _) (by omega))
          (by omega) hI65 (ConstsLe.mono (Ext.emit cA .bang []) hconsts)
          hc65 hginv hg65 hvm (by omega)
      obtain ⟨b, rfl⟩ := boolShaped_eval hbs hr
      simp only [evalPrefixExpression] at hpe
      injection hpe with hpe
      have hv : v = .boolean (!b) := by
        rw [← hpe, evalBangOperator, isTruthy_boolean, nativeBool_eq]
      subst hv
      refine ⟨by rw [hst, hstm], Or.inr (Or.inr ⟨!b, rfl⟩), ?_⟩
      have hb0 : I.get? cA.instructions.length = some (Opcode.byte .bang) :=
        hagree.get (by omega) (by omega)
          (by rw [emit_instructions, make_nil]
              exact get?_append_length _ _ _)
      obtain ⟨vm', hstep, hok⟩ := step_bang hb0 hokA (by omega)
      rw [vmIsTruthy_boolean] at hok
      refine ⟨vm', ?_, hok⟩
      rw [hlenA]
      exact hrunA.trans (RunsTo.single (by omega) hstep)

theorem exprNodes_pos (e : Expr) : 1 ≤ exprNodes e := by
  cases e <;> simp [exprNodes]

/-- Fragment block evaluation keeps the evaluator in the root state. -/
theorem fragEvalBlock_state (ts : List Expr)
    (IH : ∀ e ∈ ts, ∀ (fuel : Nat) (store : List (Name × Object))
      (v : Object) (st' : EvalState),
      evalExpr fuel e (rootState store) = (.ok v, st') →
      st' = rootState store) :
    ∀ (fuel : Nat) (store : List (Name × Object)) (acc out : Object)
      (st' : EvalState),
      evalBlockGo fuel (ts.map .expr) acc (rootState store) = (.ok out, st') →
      st' = rootState store := by
  induction ts with
  | nil =>
    intro fuel store acc out st' h
    cases fuel with
    | zero => exact absurd h (by simp [evalBlockGo, M.throw])
    | succ fuel =>
      simp only [List.map_nil, evalBlockGo, M.pure] at h
      exact ((Prod.mk.injEq .. ▸ h).2).symm
  | cons e rest ih =>
    intro fuel store acc out st' h
    cases fuel with
    | zero => exact absurd h (by simp [evalBlockGo, M.throw])
    | succ fuel =>
      rw [List.map_cons] at h
      obtain ⟨v1, st1, hstmt, hbr⟩ := evalBlockGo_cons_elim h
      cases fuel with
      | zero => exact absurd hstmt (by simp [evalStmt, M.throw])
      | succ fuel =>
        rw [evalStmt_expr] at hstmt
        have hst1 : st1 = rootState store := IH e (by simp) _ _ _ _ hstmt
        rcases hbr with ⟨w, -, -, hst'⟩ | ⟨-, hcont⟩
        · rw [hst', hst1]
        · rw [hst1] at hcont
          exact ih (fun x hx => IH x (by simp [hx])) _ _ _ _ _ hcont

/-- Fragment expression evaluation keeps the evaluator in the root state. -/
theorem fragEval_state {e : Expr} (he : FragExpr e) :
    ∀ (fuel : Nat) (store : List (Name × Object)) (v : Object)
      (st' : EvalState),
      evalExpr fuel e (rootState store) = (.ok v, st') →
      st' = rootState store := by
  induction he with
  | number n =>
    intro fuel store v st' h
    cases fuel with
    | zero => exact absurd h (by simp [evalExpr, M.throw])
    | succ fuel =>
      simp only [evalExpr, M.pure] at h
      exact ((Prod.mk.injEq .. ▸ h).2).symm
  | str s =>
    intro fuel store v st' h
    cases fuel with
    | zero => exact absurd h (by simp [evalExpr, M.throw])
    | succ fuel =>
      simp only [evalExpr, M.pure] at h
      exact ((Prod.mk.injEq .. ▸ h).2).symm
  | boolean b =>
    intro fuel store v st' h
    cases fuel with
    | zero => exact absurd h (by simp [evalExpr, M.throw])
    | succ fuel =>
      simp only [evalExpr, M.pure] at h
      exact ((Prod.mk.injEq .. ▸ h).2).symm
  | ident x =>
    intro fuel store v st' h
    cases fuel with
    | zero => exact absurd h (by simp [evalExpr, M.throw])
    | succ fuel =>
      simp only [evalExpr] at h
      split at h
      · exact ((Prod.mk.injEq .. ▸ h).2).symm
      · exact Except.noConfusion (Prod.mk.injEq .. ▸ h).1
  | neg hfe ihe =>
    intro fuel store v st' h
    cases fuel with
    | zero => exact absurd h (by simp [evalExpr, M.throw])
    | succ fuel =>
      simp only [evalExpr] at h
      obtain ⟨r, stm, hr, hf⟩ := M.bind_eq_ok h
      obtain ⟨-, hst⟩ := M.ofExcept_eq_ok hf
      rw [hst]
      exact ihe _ _ _ _ hr
  | bang hfe hbs ihe =>
    intro fuel store v st' h
    cases fuel with
    | zero => exact absurd h (by simp [evalExpr, M.throw])
    | succ fuel =>
      simp only [evalExpr] at h
      obtain ⟨r, stm, hr, hf⟩ := M.bind_eq_ok h
      obtain ⟨-, hst⟩ := M.ofExcept_eq_ok hf
      rw [hst]
      exact ihe _ _ _ _ hr
  | binop op hop hfl hfr ihl ihr =>
    intro fuel store v st' h
    cases fuel with
    | zero => exact absurd h (by simp [evalExpr, M.throw])
    | succ fuel =>
      simp only [evalExpr] at h
      obtain ⟨lv, st1, hl, h2⟩ := M.bind_eq_ok h
      obtain ⟨rv, st2, hr2, h3⟩ := M.bind_eq_ok h2
      obtain ⟨-, hst⟩ := M.ofExcept_eq_ok h3
      have hst1 := ihl _ _ _ _ hl
      rw [hst1] at hr2
      have hst2 := ihr _ _ _ _ hr2
      rw [hst, hst2]
  | ifE hfc hbs htne hene hfts hfes ihc ihts ihes =>
    intro fuel store v st' h
    cases fuel with
    | zero => exact absurd h (by simp [evalExpr, M.throw])
    | succ fuel =>
      simp only [evalExpr] at h
      cases fuel with
      | zero => exact absurd h (by simp [evalIfExpression, M.throw])
      | succ fuel =>
        simp only [evalIfExpression] at h
        obtain ⟨cv, st1, hcv, hf⟩ := M.bind_eq_ok h
        have hst1 := ihc _ _ _ _ hcv
        rw [hst1] at hf
        by_cases hb : isTruthy cv
        · rw [if_pos hb] at hf
          cases fuel with
          | zero => exact absurd hf (by simp [evalBlockStmt, M.throw])
          | succ fuel =>
            have hf' : evalBlockGo fuel _ Object.void (rootState store) =
                (.ok v, st') := hf
            exact fragEvalBlock_state _ ihts _ _ _ _ _ hf'
        · rw [if_neg hb] at hf
          cases fuel with
          | zero => exact absurd hf (by simp [evalBlockStmt, M.throw])
          | succ fuel =>
            have hf' : evalBlockGo fuel _ Object.void (rootState store) =
                (.ok v, st') := hf
            exact fragEvalBlock_state _ ihes _ _ _ _ _ hf'

/-- Running two already-compiled subexpressions back to back pushes both
values (used for both operand orders of an infix operator). -/
theorem simE_two_subs {f sec : Expr} (ihf : SimE f) (ihsec : SimE sec)
    {c0 cA cB c1 : Compiler} {fuel : Nat} {store : List (Name × Object)}
    {fv sv : Object} {stX stY : EvalState} {I : List Nat}
    {consts s g : List Object} {vm : VMState}
    (heqA : compileExpr c0 f = .ok cA) (heqB : compileExpr cA sec = .ok cB)
    (hevf : evalExpr fuel f (rootState store) = (.ok fv, stX))
    (hevs : evalExpr fuel sec (rootState store) = (.ok sv, stY))
    (hextAB : Ext cA cB) (hextC : Ext cB c1)
    (hsymA : cA.symbols = c0.symbols)
    (hloA : c0.instructions.length ≤ cA.instructions.length)
    (hagree : Agree I c1 c0.instructions.length c1.instructions.length)
    (hlen : c1.instructions.length ≤ I.length) (hI65 : I.length ≤ 65535)
    (hconsts : ConstsLe c1 consts) (hc65 : consts.length ≤ 65536)
    (hginv : GlobalsInv c0.symbols store g) (hg65 : g.length ≤ 65536)
    (hvm : VMOk vm s g)
    (hstkf : s.length + exprNodes f ≤ STACK_SIZE)
    (hstks : s.length + 1 + exprNodes sec ≤ STACK_SIZE) :
    ValClass fv ∧ ValClass sv ∧
    ∃ vmB, RunsTo I consts vm c0.instructions.length vmB
        cB.instructions.length ∧ VMOk vmB ((s ++ [fv]) ++ [sv]) g := by
  have h1 := hextAB.1
  have h2 := hextC.1
  obtain ⟨-, hvcf, vmA, hrunA, hokA⟩ :=
    ihf c0 cA fuel store fv stX I consts s g vm heqA hevf
      (Agree.mono (hextAB.trans hextC) hagree (le_refl _) (by omega))
      (by omega) hI65 (ConstsLe.mono (hextAB.trans hextC) hconsts) hc65
      hginv hg65 hvm hstkf
  obtain ⟨-, hvcs, vmB, hrunB, hokB⟩ :=
    ihsec cA cB fuel store sv stY I consts (s ++ [fv]) g vmA heqB hevs
      (fun k hk1 hk2 =>
        Agree.mono hextC hagree (le_refl _) h2 k (by omega) hk2)
      (by omega) hI65 (ConstsLe.mono hextC hconsts) hc65
      (by rw [hsymA]; exact hginv) hg65 hokA
      (by simp only [List.length_append, List.length_singleton]; omega)
  exact ⟨hvcf, hvcs, vmB, hrunA.trans hrunB, hokB⟩

theorem simE_binop {l r : Expr} {op : String}
    (hop : op = "+" ∨ op = "-" ∨ op = "*" ∨ op = "/" ∨ op = "%" ∨ op = ">" ∨
      op = "<" ∨ op = ">=" ∨ op = "<=" ∨ op = "==" ∨ op = "!=")
    (hfl : FragExpr l) (hfr : FragExpr r) (ihl : SimE l) (ihr : SimE r) :
    SimE (.infixE l op r) := by
  intro c0 c1 fuel store v st' I consts s g vm hcomp heval hagree hlen hI65
    hconsts hc65 hginv hg65 hvm hstack
  cases fuel with
  | zero => exact absurd heval (by simp [evalExpr, M.throw])
  | succ fuel =>
    simp only [evalExpr] at heval
    obtain ⟨lv, st1, hl, h2⟩ := M.bind_eq_ok heval
    obtain ⟨rv, st2, hrv, h3⟩ := M.bind_eq_ok h2
    obtain ⟨hinf, hstf⟩ := M.ofExcept_eq_ok h3
    have hst1 : st1 = rootState store := fragEval_state hfl _ _ _ _ hl
    rw [hst1] at hrv
    have hst2 : st2 = rootState store := fragEval_state hfr _ _ _ _ hrv
    have hstout : st' = rootState store := by rw [hstf, hst2]
    have hnodes : exprNodes (.infixE l op r) =
        exprNodes l + exprNodes r + 1 := rfl
    have hposl := exprNodes_pos l
    have hposr := exprNodes_pos r
    have hstk : s.length + (exprNodes l + exprNodes r + 1) ≤ STACK_SIZE := by
      omega
    simp only [compileExpr] at hcomp
    split at hcomp
    · rename_i hcond
      split at hcomp
      · exact Except.noConfusion hcomp
      · rename_i cA heqA
        split at hcomp
        · exact Except.noConfusion hcomp
        · rename_i cB heqB
          obtain ⟨extA, symA, growA⟩ := fragCompile_ext hfr c0 cA heqA
          obtain ⟨extB, symB, growB⟩ := fragCompile_ext hfl cA cB heqB
          split at hcomp
          · rename_i hlt
            have hople : op = "<" := by simpa using hlt
            subst hople
            injection hcomp with hcomp
            subst hcomp
            obtain ⟨hvcr, hvcl, vmB, hrunB, hokB⟩ :=
              simE_two_subs ihr ihl heqA heqB hrv hl extB
                (Ext.emit cB .greater []) symA (by omega) hagree hlen hI65
                hconsts hc65 hginv hg65 hvm (by omega) (by omega)
            have hinf' : evalNumberOperator lv "<" rv = Except.ok v := hinf
            obtain ⟨aq, bq, rfl, rfl⟩ := evalNumberOperator_shape hinf'
            obtain ⟨hexec, hvcv⟩ := ltOp_sim (Or.inl rfl) hinf'
            rw [if_pos rfl] at hexec
            have hlenE := emit_len_nil cB .greater
            have hb0 : I.get? cB.instructions.length =
                some (Opcode.byte .greater) :=
              hagree.get (by omega) (by omega)
                (by rw [emit_instructions, make_nil]
                    exact get?_append_length _ _ _)
            obtain ⟨vmC, hexecC, hokC⟩ :=
              executeBinaryOp_num hokB hexec (by omega)
            refine ⟨hstout, hvcv, vmC, ?_, hokC⟩
            rw [hlenE]
            exact hrunB.trans (RunsTo.single (by omega)
              (step_binary (by decide) hb0 hexecC))
          · rename_i hlt
            have hople : op = "<=" := by
              have hcond' : op = "<" ∨ op = "<=" := by simpa using hcond
              rcases hcond' with h | h
              · exact absurd (by simp [h]) hlt
              · exact h
            subst hople
            injection hcomp with hcomp
            subst hcomp
            obtain ⟨hvcr, hvcl, vmB, hrunB, hokB⟩ :=
              simE_two_subs ihr ihl heqA heqB hrv hl extB
                (Ext.emit cB .greaterEqual []) symA (by omega) hagree hlen
                hI65 hconsts hc65 hginv hg65 hvm (by omega) (by omega)
            have hinf' : evalNumberOperator lv "<=" rv = Except.ok v := hinf
            obtain ⟨aq, bq, rfl, rfl⟩ := evalNumberOperator_shape hinf'
            obtain ⟨hexec, hvcv⟩ := ltOp_sim (Or.inr rfl) hinf'
            rw [if_neg (by decide : ¬ ("<=" = "<"))] at hexec
            have hlenE := emit_len_nil cB .greaterEqual
            have hb0 : I.get? cB.instructions.length =
                some (Opcode.byte .greaterEqual) :=
              hagree.get (by omega) (by omega)
                (by rw [emit_instructions, make_nil]
                    exact get?_append_length _ _ _)
            obtain ⟨vmC, hexecC, hokC⟩ :=
              executeBinaryOp_num hokB hexec (by omega)
            refine ⟨hstout, hvcv, vmC, ?_, hokC⟩
            rw [hlenE]
            exact hrunB.trans (RunsTo.single (by omega)
              (step_binary (by decide) hb0 hexecC))
    · rename_i hcond
      split at hcomp
      · exact Except.noConfusion hcomp
      · rename_i cA heqA
        split at hcomp
        · exact Except.noConfusion hcomp
        · rename_i cB heqB
          obtain ⟨extA, symA, growA⟩ := fragCompile_ext hfl c0 cA heqA
          obtain ⟨extB, symB, growB⟩ := fragCompile_ext hfr cA cB heqB
          split at hcomp
          · injection hcomp with hcomp
            subst hcomp
            obtain ⟨hvcl, hvcr, vmB, hrunB, hokB⟩ :=
              simE_two_subs ihl ihr heqA heqB hl hrv extB
                (Ext.emit cB .add []) symA (by omega) hagree hlen hI65
                hconsts hc65 hginv hg65 hvm (by omega) (by omega)
            have hinf' : evalPlusOperator lv rv = Except.ok v := hinf
            have hlenE := emit_len_nil cB .add
            have hb0 : I.get? cB.instructions.length =
                some (Opcode.byte .add) :=
              hagree.get (by omega) (by omega)
                (by rw [emit_instructions, make_nil]
                    exact get?_append_length _ _ _)
            rcases plus_cases hinf' hvcl with ⟨aq, bq, rfl, rfl, rfl⟩ |
              ⟨s1, s2, rfl, rfl, rfl⟩
            · obtain ⟨vmC, hexecC, hokC⟩ :=
                executeBinaryOp_num hokB
                  (rfl : executeBinaryNumberOp .add aq bq =
                    Except.ok (.number (aq + bq))) (by omega)
              refine ⟨hstout, Or.inl ⟨_, rfl⟩, vmC, ?_, hokC⟩
              rw [hlenE]
              exact hrunB.trans (RunsTo.single (by omega)
                (step_binary (Or.inl rfl) hb0 hexecC))
            · obtain ⟨vmC, hexecC, hokC⟩ :=
                executeBinaryOp_str hokB
                  (rfl : executeBinaryStringOp .add s1 s2 =
                    Except.ok (.str (s1 ++ s2))) (by omega)
              refine ⟨hstout, Or.inr (Or.inl ⟨_, rfl⟩), vmC, ?_, hokC⟩
              rw [hlenE]
              exact hrunB.trans (RunsTo.single (by omega)
                (step_binary (Or.inl rfl) hb0 hexecC))
          · injection hcomp with hcomp
            subst hcomp
            obtain ⟨hvcl, hvcr, vmB, hrunB, hokB⟩ :=
              simE_two_subs ihl ihr heqA heqB hl hrv extB
                (Ext.emit cB .sub []) symA (by omega) hagree hlen hI65
                hconsts hc65 hginv hg65 hvm (by omega) (by omega)
            have hinf' : evalNumberOperator lv "-" rv = Except.ok v := hinf
            obtain ⟨aq, bq, rfl, rfl⟩ := evalNumberOperator_shape hinf'
            obtain ⟨hexec, hvcv⟩ := numOp_sim (by simp) hinf'
            rw [show opcodeOf "-" = Opcode.sub from rfl] at hexec
            have hlenE := emit_len_nil cB .sub
            have hb0 : I.get? cB.instructions.length =
                some (Opcode.byte .sub) :=
              hagree.get (by omega) (by omega)
                (by rw [emit_instructions, make_nil]
                    exact get?_append_length _ _ _)
            obtain ⟨vmC, hexecC, hokC⟩ :=
              executeBinaryOp_num hokB hexec (by omega)
            refine ⟨hstout, hvcv, vmC, ?_, hokC⟩
            rw [hlenE]
            exact hrunB.trans (RunsTo.single (by omega)
              (step_binary (by decide) hb0 hexecC))
          · injection hcomp with hcomp
            subst hcomp
            obtain ⟨hvcl, hvcr, vmB, hrunB, hokB⟩ :=
              simE_two_subs ihl ihr heqA heqB hl hrv extB
                (Ext.emit cB .mul []) symA (by omega) hagree hlen hI65
                hconsts hc65 hginv hg65 hvm (by omega) (by omega)
            have hinf' : evalNumberOperator lv "*" rv = Except.ok v := hinf
            obtain ⟨aq, bq, rfl, rfl⟩ := evalNumberOperator_shape hinf'
            obtain ⟨hexec, hvcv⟩ := numOp_sim (by simp) hinf'
            rw [show opcodeOf "*" = Opcode.mul from rfl] at hexec
            have hlenE := emit_len_nil cB .mul
            have hb0 : I.get? cB.instructions.length =
                some (Opcode.byte .mul) :=
              hagree.get (by omega) (by omega)
                (by rw [emit_instructions, make_nil]
                    exact get?_append_length _ _ _)
            obtain ⟨vmC, hexecC, hokC⟩ :=
              executeBinaryOp_num hokB hexec (by omega)
            refine ⟨hstout, hvcv, vmC, ?_, hokC⟩
            rw [hlenE]
            exact hrunB.trans (RunsTo.single (by omega)
              (step_binary (by decide) hb0 hexecC))
          · injection hcomp with hcomp
            subst hcomp
            obtain ⟨hvcl, hvcr, vmB, hrunB, hokB⟩ :=
              simE_two_subs ihl ihr heqA heqB hl hrv extB
                (Ext.emit cB .div []) symA (by omega) hagree hlen hI65
                hconsts hc65 hginv hg65 hvm (by omega) (by omega)
            have hinf' : evalNumberOperator lv "/" rv = Except.ok v := hinf
            obtain ⟨aq, bq, rfl, rfl⟩ := evalNumberOperator_shape hinf'
            obtain ⟨hexec, hvcv⟩ := numOp_sim (by simp) hinf'
            rw [show opcodeOf "/" = Opcode.div from rfl] at hexec
            have hlenE := emit_len_nil cB .div
            have hb0 : I.get? cB.instructions.length =
                some (Opcode.byte .div) :=
              hagree.get (by omega) (by omega)
                (by rw [emit_instructions, make_nil]
                    exact get?_append_length _ _ _)
            obtain ⟨vmC, hexecC, hokC⟩ :=
              executeBinaryOp_num hokB hexec (by omega)
            refine ⟨hstout, hvcv, vmC, ?_, hokC⟩
            rw [hlenE]
            exact hrunB.trans (RunsTo.single (by omega)
              (step_binary (by decide) hb0 hexecC))
          · injection hcomp with hcomp
            subst hcomp
            obtain ⟨hvcl, hvcr, vmB, hrunB, hokB⟩ :=
              simE_two_subs ihl ihr heqA heqB hl hrv extB
                (Ext.emit cB .mod []) symA (by omega) hagree hlen hI65
                hconsts hc65 hginv hg65 hvm (by omega) (by omega)
            have hinf' : evalNumberOperator lv "%" rv = Except.ok v := hinf
            obtain ⟨aq, bq, rfl, rfl⟩ := evalNumberOperator_shape hinf'
            obtain ⟨hexec, hvcv⟩ := numOp_sim (by simp) hinf'
            rw [show opcodeOf "%" = Opcode.mod from rfl] at hexec
            have hlenE := emit_len_nil cB .mod
            have hb0 : I.get? cB.instructions.length =
                some (Opcode.byte .mod) :=
              hagree.get (by omega) (by omega)
                (by rw [emit_instructions, make_nil]
                    exact get?_append_length _ _ _)
            obtain ⟨vmC, hexecC, hokC⟩ :=
              executeBinaryOp_num hokB hexec (by omega)
            refine ⟨hstout, hvcv, vmC, ?_, hokC⟩
            rw [hlenE]
            exact hrunB.trans (RunsTo.single (by omega)
              (step_binary (by decide) hb0 hexecC))
          · injection hcomp with hcomp
            subst hcomp
            obtain ⟨hvcl, hvcr, vmB, hrunB, hokB⟩ :=
              simE_two_subs ihl ihr heqA heqB hl hrv extB
                (Ext.emit cB .greater []) symA (by omega) hagree hlen hI65
                hconsts hc65 hginv hg65 hvm (by omega) (by omega)
            have hinf' : evalNumberOperator lv ">" rv = Except.ok v := hinf
            obtain ⟨aq, bq, rfl, rfl⟩ := evalNumberOperator_shape hinf'
            obtain ⟨hexec, hvcv⟩ := numOp_sim (by simp) hinf'
            rw [show opcodeOf ">" = Opcode.greater from rfl] at hexec
            have hlenE := emit_len_nil cB .greater
            have hb0 : I.get? cB.instructions.length =
                some (Opcode.byte .greater) :=
              hagree.get (by omega) (by omega)
                (by rw [emit_instructions, make_nil]
                    exact get?_append_length _ _ _)
            obtain ⟨vmC, hexecC, hokC⟩ :=
              executeBinaryOp_num hokB hexec (by omega)
            refine ⟨hstout, hvcv, vmC, ?_, hokC⟩
            rw [hlenE]
            exact hrunB.trans (RunsTo.single (by omega)
              (step_binary (by decide) hb0 hexecC))
          · injection hcomp with hcomp
            subst hcomp
            obtain ⟨hvcl, hvcr, vmB, hrunB, hokB⟩ :=
              simE_two_subs ihl ihr heqA heqB hl hrv extB
                (Ext.emit cB .greaterEqual []) symA (by omega) hagree hlen
                hI65 hconsts hc65 hginv hg65 hvm (by omega) (by omega)
            have hinf' : evalNumberOperator lv ">=" rv = Except.ok v := hinf
            obtain ⟨aq, bq, rfl, rfl⟩ := evalNumberOperator_shape hinf'
            obtain ⟨hexec, hvcv⟩ := numOp_sim (by simp) hinf'
            rw [show opcodeOf ">=" = Opcode.greaterEqual from rfl] at hexec
            have hlenE := emit_len_nil cB .greaterEqual
            have hb0 : I.get? cB.instructions.length =
                some (Opcode.byte .greaterEqual) :=
              hagree.get (by omega) (by omega)
                (by rw [emit_instructions, make_nil]
                    exact get?_append_length _ _ _)
            obtain ⟨vmC, hexecC, hokC⟩ :=
              executeBinaryOp_num hokB hexec (by omega)
            refine ⟨hstout, hvcv, vmC, ?_, hokC⟩
            rw [hlenE]
            exact hrunB.trans (RunsTo.single (by omega)
              (step_binary (by decide) hb0 hexecC))
          · injection hcomp with hcomp
            subst hcomp
            obtain ⟨hvcl, hvcr, vmB, hrunB, hokB⟩ :=
              simE_two_subs ihl ihr heqA heqB hl hrv extB
                (Ext.emit cB .equal []) symA (by omega) hagree hlen hI65
                hconsts hc65 hginv hg65 hvm (by omega) (by omega)
            have hinf' : evalBooleanOperator lv "==" rv = Except.ok v := hinf
            obtain ⟨hv, hvcv⟩ := boolOp_sim (Or.inl rfl) hinf'
            rw [if_pos rfl] at hv
            subst hv
            have hlenE := emit_len_nil cB .equal
            have hb0 : I.get? cB.instructions.length =
                some (Opcode.byte .equal) :=
              hagree.get (by omega) (by omega)
                (by rw [emit_instructions, make_nil]
                    exact get?_append_length _ _ _)
            obtain ⟨vmC, hstepC, hokC⟩ :=
              step_equality (Or.inl rfl) hb0 hokB (by omega)
            rw [if_pos rfl] at hokC
            refine ⟨hstout, hvcv, vmC, ?_, hokC⟩
            rw [hlenE]
            exact hrunB.trans (RunsTo.single (by omega) hstepC)
          · injection hcomp with hcomp
            subst hcomp
            obtain ⟨hvcl, hvcr, vmB, hrunB, hokB⟩ :=
              simE_two_subs ihl ihr heqA heqB hl hrv extB
                (Ext.emit cB .notEqual []) symA (by omega) hagree hlen hI65
                hconsts hc65 hginv hg65 hvm (by omega) (by omega)
            have hinf' : evalBooleanOperator lv "!=" rv = Except.ok v := hinf
            obtain ⟨hv, hvcv⟩ := boolOp_sim (Or.inr rfl) hinf'
            rw [if_neg (by decide : ¬ ("!=" = "=="))] at hv
            subst hv
            have hlenE := emit_len_nil cB .notEqual
            have hb0 : I.get? cB.instructions.length =
                some (Opcode.byte .notEqual) :=
              hagree.get (by omega) (by omega)
                (by rw [emit_instructions, make_nil]
                    exact get?_append_length _ _ _)
            obtain ⟨vmC, hstepC, hokC⟩ :=
              step_equality (Or.inr rfl) hb0 hokB (by omega)
            rw [if_neg (by decide : ¬ (Opcode.notEqual = Opcode.equal))] at hokC
            refine ⟨hstout, hvcv, vmC, ?_, hokC⟩
            rw [hlenE]
            exact hrunB.trans (RunsTo.single (by omega) hstepC)
          · exact Except.noConfusion hcomp

/-- Simulation for a non-empty block of expression statements: the VM run
stops just before the block's final `Pop` (the if-compiler removes it), so
the block's value is left on the stack. -/
theorem simBlock (ts : List Expr)
    (IHext : ∀ e ∈ ts, ∀ c c' : Compiler, compileExpr c e = .ok c' →
      Ext c c' ∧ c'.symbols = c.symbols ∧
      c.instructions.length + 1 ≤ c'.instructions.length)
    (IHst : ∀ e ∈ ts, ∀ (fuel : Nat) (store : List (Name × Object))
      (v : Object) (st' : EvalState),
      evalExpr fuel e (rootState store) = (.ok v, st') → st' = rootState store)
    (IH : ∀ e ∈ ts, SimE e) :
    ∀ (c0 c1 : Compiler) (fuel : Nat) (store : List (Name × Object))
      (acc out : Object) (st' : EvalState) (I : List Nat)
      (consts s g : List Object) (vm : VMState),
      ts ≠ [] →
      compileProgram c0 (ts.map .expr) = .ok c1 →
      evalBlockGo fuel (ts.map .expr) acc (rootState store) = (.ok out, st') →
      Agree I c1 c0.instructions.length (c1.instructions.length - 1) →
      c1.instructions.length - 1 ≤ I.length →
      I.length ≤ 65535 →
      ConstsLe c1 consts → consts.length ≤ 65536 →
      GlobalsInv c0.symbols store g → g.length ≤ 65536 →
      VMOk vm s g →
      s.length + blockNodes (ts.map .expr) ≤ STACK_SIZE →
      ValClass out ∧
      ∃ vm', RunsTo I consts vm c0.instructions.length vm'
          (c1.instructions.length - 1) ∧ VMOk vm' (s ++ [out]) g := by
  induction ts with
  | nil =>
    intro c0 c1 fuel store acc out st' I consts s g vm hne
    exact absurd rfl hne
  | cons e rest ih =>
    intro c0 c1 fuel store acc out st' I consts s g vm hne hcomp heval hagree
      hlen hI65 hconsts hc65 hginv hg65 hvm hstk
    rw [List.map_cons] at hcomp heval
    simp only [compileProgram] at hcomp
    split at hcomp
    · exact Except.noConfusion hcomp
    · rename_i cP heqP
      obtain ⟨cE, heqE, rfl⟩ := compileStmt_expr_ok heqP
      obtain ⟨extE, symE, growE⟩ := IHext e (by simp) c0 cE heqE
      have hlenP : ((cE.emit .pop []).2).instructions.length =
          cE.instructions.length + 1 := emit_len_nil _ _
      cases fuel with
      | zero => exact absurd heval (by simp [evalBlockGo, M.throw])
      | succ fuel =>
        obtain ⟨v1, st1, hstmt, hbr⟩ := evalBlockGo_cons_elim heval
        cases fuel with
        | zero => exact absurd hstmt (by simp [evalStmt, M.throw])
        | succ fuel =>
          rw [evalStmt_expr] at hstmt
          have hst1 : st1 = rootState store := IHst e (by simp) _ _ _ _ hstmt
          cases rest with
          | nil =>
            simp only [List.map_nil, compileProgram] at hcomp
            injection hcomp with hcomp
            subst hcomp
            have hbn : blockNodes (List.map Stmt.expr [e]) =
                exprNodes e + 1 := rfl
            obtain ⟨-, hvc1, vmA, hrunA, hokA⟩ :=
              IH e (by simp) c0 cE fuel store v1 st1 I consts s g vm
                heqE hstmt
                (fun k hk1 hk2 =>
                  (hagree k hk1 (by omega)).trans
                    ((Ext.emit cE .pop []).2.1 k hk2))
                (by omega) hI65 (ConstsLe.mono (Ext.emit cE .pop []) hconsts)
                hc65 hginv hg65 hvm (by omega)
            rcases hbr with ⟨w, hw, -, -⟩ | ⟨-, hcont⟩
            · exact absurd hw
                (by rcases hvc1 with ⟨n, rfl⟩ | ⟨s1, rfl⟩ | ⟨b1, rfl⟩ <;> simp)
            · simp only [List.map_nil, evalBlockGo, M.pure] at hcont
              obtain ⟨ho, hs'⟩ := Prod.mk.injEq .. ▸ hcont
              injection ho with ho
              subst ho
              refine ⟨hvc1, vmA, ?_, hokA⟩
              rw [hlenP]
              simp only [Nat.add_sub_cancel]
              exact hrunA
          | cons e2 rest' =>
            obtain ⟨extR, symR, -, hneR⟩ :=
              compileBlock_shape (e2 :: rest')
                (fun x hx => IHext x (by simp [hx])) _ c1 hcomp
            obtain ⟨growR, lastR, byteR⟩ := hneR (by simp)
            rw [hlenP] at growR
            have hbn : blockNodes (List.map Stmt.expr (e :: e2 :: rest')) =
                exprNodes e + 1 + blockNodes (List.map Stmt.expr (e2 :: rest')) :=
              rfl
            obtain ⟨-, hvc1, vmA, hrunA, hokA⟩ :=
              IH e (by simp) c0 cE fuel store v1 st1 I consts s g vm
                heqE hstmt
                (fun k hk1 hk2 =>
                  (hagree k hk1 (by omega)).trans
                    (((Ext.emit cE .pop []).trans extR).2.1 k hk2))
                (by omega) hI65
                (ConstsLe.mono ((Ext.emit cE .pop []).trans extR) hconsts)
                hc65 hginv hg65 hvm (by omega)
            rcases hbr with ⟨w, hw, -, -⟩ | ⟨-, hcont⟩
            · exact absurd hw
                (by rcases hvc1 with ⟨n, rfl⟩ | ⟨s1, rfl⟩ | ⟨b1, rfl⟩ <;> simp)
            · rw [hst1] at hcont
              have hbP : c1.instructions.get? cE.instructions.length =
                  some (Opcode.byte .pop) :=
                (extR.2.1 cE.instructions.length (by omega)).trans
                  (by rw [emit_instructions, make_nil]
                      exact get?_append_length _ _ _)
              have hIpop : I.get? cE.instructions.length =
                  some (Opcode.byte .pop) :=
                hagree.get (by omega) (by omega) hbP
              obtain ⟨vmP, hstep, hokP, -⟩ := step_pop hIpop hokA
              obtain ⟨hvout, vmR, hrunR, hokR⟩ :=
                ih (fun x hx => IHext x (by simp [hx]))
                  (fun x hx => IHst x (by simp [hx]))
                  (fun x hx => IH x (by simp [hx]))
                  (cE.emit .pop []).2 c1 (fuel + 1) store v1 out st' I consts
                  s g vmP (by simp) hcomp hcont
                  (fun k hk1 hk2 => hagree k (by omega) hk2)
                  hlen hI65 hconsts hc65
                  (by rw [emit_symbols, symE]; exact hginv) hg65 hokP
                  (by omega)
              rw [hlenP] at hrunR
              refine ⟨hvout, vmR, ?_, hokR⟩
              exact (hrunA.trans (RunsTo.single (by omega) hstep)).trans hrunR

theorem removeLastPop_get? {c : Compiler} {k : Nat}
    (hlast : c.last_instruction =
      ⟨.pop, c.instructions.length - 1⟩)
    (hk : k < c.instructions.length - 1) :
    (c.removeLastPop).instructions.get? k = c.instructions.get? k := by
  show (c.instructions.take c.last_instruction.position).get? k = _
  rw [hlast]
  exact List.get?_take hk

theorem emit_get?_lt {c : Compiler} (op : Opcode) (ops : List Nat) {k : Nat}
    (hk : k < c.instructions.length) :
    (c.emit op ops).2.instructions.get? k = c.instructions.get? k := by
  rw [emit_instructions]
  exact List.get?_append hk

theorem emit_get?_byte (c : Compiler) (op : Opcode) (ops : List Nat) :
    (c.emit op ops).2.instructions.get? c.instructions.length =
      some (Opcode.byte op) := by
  rw [emit_instructions, make]
  exact get?_append_length _ _ _

theorem replace_get?_in {c : Compiler} {pos : Nat} (new : List Nat) {i : Nat}
    (hi : i < new.length) (hin : pos + i < c.instructions.length) :
    (c.replaceInstruction pos new).instructions.get? (pos + i) =
      new.get? i := by
  rw [replaceInstruction_instructions]
  exact writeAt_get?_in _ _ _ hi hin

theorem replace_get?_lt {c : Compiler} {pos k : Nat} (new : List Nat)
    (h : k < pos) :
    (c.replaceInstruction pos new).instructions.get? k =
      c.instructions.get? k := by
  rw [replaceInstruction_instructions]
  exact writeAt_get?_lt _ _ _ h

theorem replace_get?_ge {c : Compiler} {pos k : Nat} (new : List Nat)
    (h : pos + new.length ≤ k) :
    (c.replaceInstruction pos new).instructions.get? k =
      c.instructions.get? k := by
  rw [replaceInstruction_instructions]
  exact writeAt_get?_ge _ _ _ h

theorem replace_length (c : Compiler) (pos : Nat) (new : List Nat) :
    (c.replaceInstruction pos new).instructions.length =
      c.instructions.length := by
  rw [replaceInstruction_instructions]
  exact writeAt_length _ _ _

theorem make_w2_length (op : Opcode) (x : Nat) (h : operandWidths op = [2]) :
    (make op [x]).length = 3 := by
  rw [make_width2 op x h]
  rfl

theorem make_w2_get0 (op : Opcode) (x : Nat) (h : operandWidths op = [2]) :
    (make op [x]).get? 0 = some (Opcode.byte op) := by
  rw [make_width2 op x h]
  rfl

theorem make_w2_get1 (op : Opcode) (x : Nat) (h : operandWidths op = [2]) :
    (make op [x]).get? 1 = some (x % 65536 / 256) := by
  rw [make_width2 op x h]
  rfl

theorem make_w2_get2 (op : Opcode) (x : Nat) (h : operandWidths op = [2]) :
    (make op [x]).get? 2 = some (x % 256) := by
  rw [make_width2 op x h]
  rfl

theorem simE_if {cond : Expr} {ts es : List Expr}
    (hfc : FragExpr cond) (hbs : boolShaped cond = true)
    (htne : ts ≠ []) (hene : es ≠ [])
    (hfts : ∀ e ∈ ts, FragExpr e) (hfes : ∀ e ∈ es, FragExpr e)
    (ihc : SimE cond) (ihts : ∀ e ∈ ts, SimE e)
    (ihes : ∀ e ∈ es, SimE e) :
    SimE (.ifE cond (ts.map .expr) (es.map .expr)) := by
  intro c0 cf fuel store v st' I consts s g vm hcomp heval hagree hlen hI65
    hconsts hc65 hginv hg65 hvm hstack
  have hnodes : exprNodes (.ifE cond (ts.map .expr) (es.map .expr)) =
      exprNodes cond + blockNodes (ts.map .expr) +
        blockNodes (es.map .expr) + 1 := rfl
  rw [compileExpr_ifE] at hcomp
  split at hcomp
  · exact Except.noConfusion hcomp
  · rename_i c1 heq1
    obtain ⟨ext1, sym1, grow1⟩ := fragCompile_ext hfc c0 c1 heq1
    rw [emit_fst] at hcomp
    split at hcomp
    · exact Except.noConfusion hcomp
    · rename_i c3 heq3
      obtain ⟨ext3, sym3, -, hne3⟩ :=
        compileBlock_shape ts (fun e he => fragCompile_ext (hfts e he))
          (c1.emit .jumpNotTruthy [9999]).2 c3 heq3
      obtain ⟨grow3, last3, byte3⟩ := hne3 htne
      have len2 : (c1.emit .jumpNotTruthy [9999]).2.instructions.length =
          c1.instructions.length + 3 := emit_len_w2 _ _ _ rfl
      have ext2 : Ext c1 (c1.emit .jumpNotTruthy [9999]).2 :=
        Ext.emit c1 .jumpNotTruthy [9999]
      rw [if_pos (by simp [Compiler.lastInstructionIs, last3])] at hcomp
      obtain ⟨ext4, len4⟩ := ext3.truncate (by rw [last3]) (by omega)
      have len5 : ((c3.removeLastPop).emit .jump [9999]).2.instructions.length
          = (c3.removeLastPop).instructions.length + 3 := emit_len_w2 _ _ _ rfl
      have ext5 : Ext (c3.removeLastPop)
          ((c3.removeLastPop).emit .jump [9999]).2 :=
        Ext.emit (c3.removeLastPop) .jump [9999]
      rw [emit_fst] at hcomp
      split at hcomp
      · exact Except.noConfusion hcomp
      · rename_i c6 heq6
        have hb5 : ((c3.removeLastPop).emit .jump [9999]).2.instructions.get?
            c1.instructions.length = some (Opcode.byte .jumpNotTruthy) := by
          rw [emit_get?_lt _ _ (by omega), ext4.2.1 _ (by omega)]
          exact emit_get?_byte c1 .jumpNotTruthy [9999]
        rw [changeOperand_ok
          ((c3.removeLastPop).emit .jump [9999]).2.instructions.length hb5]
          at heq6
        injection heq6 with heq6
        subst heq6
        have len6 : (((c3.removeLastPop).emit .jump [9999]).2.replaceInstruction
            c1.instructions.length
            (make .jumpNotTruthy
              [((c3.removeLastPop).emit .jump [9999]).2.instructions.length])
            ).instructions.length =
            ((c3.removeLastPop).emit .jump [9999]).2.instructions.length :=
          replace_length _ _ _
        split at hcomp
        · exact Except.noConfusion hcomp
        · rename_i c7 heq7
          obtain ⟨ext7, sym7, -, hne7⟩ :=
            compileBlock_shape es (fun e he => fragCompile_ext (hfes e he))
              _ c7 heq7
          obtain ⟨grow7, last7, byte7⟩ := hne7 hene
          rw [if_pos (by simp [Compiler.lastInstructionIs, last7])] at hcomp
          obtain ⟨ext8, len8⟩ := ext7.truncate (by rw [last7]) grow7
          rw [len6] at grow7
          have hbJ : (c7.removeLastPop).instructions.get?
              (c3.removeLastPop).instructions.length =
              some (Opcode.byte .jump) := by
            rw [ext8.2.1 _ (by omega),
              replace_get?_ge _
                (by rw [make_w2_length .jumpNotTruthy _ rfl]; omega)]
            exact emit_get?_byte (c3.removeLastPop) .jump [9999]
          rw [changeOperand_ok (c7.removeLastPop).instructions.length hbJ]
            at hcomp
          injection hcomp with hcomp
          subst hcomp
          have lenf : ((c7.removeLastPop).replaceInstruction
              (c3.removeLastPop).instructions.length
              (make .jump [(c7.removeLastPop).instructions.length])
              ).instructions.length =
              (c7.removeLastPop).instructions.length := replace_length _ _ _
          have extC1 : Ext c1 ((c7.removeLastPop).replaceInstruction
              (c3.removeLastPop).instructions.length
              (make .jump [(c7.removeLastPop).instructions.length])) :=
            Ext.replace_of_le
              ((Ext.replace_of_le ((ext2.trans ext4).trans ext5) _
                (le_refl _)).trans ext8) _ (by omega)
          -- the three bytes of the patched JumpNotTruthy instruction
          have hcf0 : ((c7.removeLastPop).replaceInstruction
              (c3.removeLastPop).instructions.length
              (make .jump [(c7.removeLastPop).instructions.length])
              ).instructions.get? c1.instructions.length =
              some (Opcode.byte .jumpNotTruthy) := by
            rw [replace_get?_lt _ (by omega), ext8.2.1 _ (by omega)]
            have h0 : (((c3.removeLastPop).emit .jump [9999]).2.replaceInstruction
                c1.instructions.length
                (make .jumpNotTruthy
                  [((c3.removeLastPop).emit .jump [9999]).2.instructions.length])
                ).instructions.get? (c1.instructions.length + 0) =
                (make .jumpNotTruthy
                  [((c3.removeLastPop).emit .jump [9999]).2.instructions.length]
                  ).get? 0 :=
              replace_get?_in _
                (by rw [make_w2_length .jumpNotTruthy _ rfl]; omega) (by omega)
            rw [Nat.add_zero] at h0
            rw [h0, make_w2_get0 .jumpNotTruthy _ rfl]
          have hcf1 : ((c7.removeLastPop).replaceInstruction
              (c3.removeLastPop).instructions.length
              (make .jump [(c7.removeLastPop).instructions.length])
              ).instructions.get? (c1.instructions.length + 1) =
              some (((c3.removeLastPop).emit .jump [9999]).2.instructions.length
                % 65536 / 256) := by
            rw [replace_get?_lt _ (by omega), ext8.2.1 _ (by omega)]
            have h0 : (((c3.removeLastPop).emit .jump [9999]).2.replaceInstruction
                c1.instructions.length
                (make .jumpNotTruthy
                  [((c3.removeLastPop).emit .jump [9999]).2.instructions.length])
                ).instructions.get? (c1.instructions.length + 1) =
                (make .jumpNotTruthy
                  [((c3.removeLastPop).emit .jump [9999]).2.instructions.length]
                  ).get? 1 :=
              replace_get?_in _
                (by rw [make_w2_length .jumpNotTruthy _ rfl]; omega) (by omega)
            rw [h0, make_w2_get1 .jumpNotTruthy _ rfl]
          have hcf2 : ((c7.removeLastPop).replaceInstruction
              (c3.removeLastPop).instructions.length
              (make .jump [(c7.removeLastPop).instructions.length])
              ).instructions.get? (c1.instructions.length + 2) =
              some (((c3.removeLastPop).emit .jump [9999]).2.instructions.length
                % 256) := by
            rw [replace_get?_lt _ (by omega), ext8.2.1 _ (by omega)]
            have h0 : (((c3.removeLastPop).emit .jump [9999]).2.replaceInstruction
                c1.instructions.length
                (make .jumpNotTruthy
                  [((c3.removeLastPop).emit .jump [9999]).2.instructions.length])
                ).instructions.get? (c1.instructions.length + 2) =
                (make .jumpNotTruthy
                  [((c3.removeLastPop).emit .jump [9999]).2.instructions.length]
                  ).get? 2 :=
              replace_get?_in _
                (by rw [make_w2_length .jumpNotTruthy _ rfl]; omega) (by omega)
            rw [h0, make_w2_get2 .jumpNotTruthy _ rfl]
          have hI0 := hagree.get (by omega) (by omega) hcf0
          have hI1 := hagree.get (by omega) (by omega) hcf1
          have hI2 := hagree.get (by omega) (by omega) hcf2
          -- the three bytes of the patched Jump instruction
          have hj0 : ((c7.removeLastPop).replaceInstruction
              (c3.removeLastPop).instructions.length
              (make .jump [(c7.removeLastPop).instructions.length])
              ).instructions.get?
                ((c3.removeLastPop).instructions.length + 0) =
              (make .jump [(c7.removeLastPop).instructions.length]).get? 0 :=
            replace_get?_in _ (by rw [make_w2_length .jump _ rfl]; omega)
              (by omega)
          have hj1 : ((c7.removeLastPop).replaceInstruction
              (c3.removeLastPop).instructions.length
              (make .jump [(c7.removeLastPop).instructions.length])
              ).instructions.get?
                ((c3.removeLastPop).instructions.length + 1) =
              (make .jump [(c7.removeLastPop).instructions.length]).get? 1 :=
            replace_get?_in _ (by rw [make_w2_length .jump _ rfl]; omega)
              (by omega)
          have hj2 : ((c7.removeLastPop).replaceInstruction
              (c3.removeLastPop).instructions.length
              (make .jump [(c7.removeLastPop).instructions.length])
              ).instructions.get?
                ((c3.removeLastPop).instructions.length + 2) =
              (make .jump [(c7.removeLastPop).instructions.length]).get? 2 :=
            replace_get?_in _ (by rw [make_w2_length .jump _ rfl]; omega)
              (by omega)
          rw [Nat.add_zero, make_w2_get0 .jump _ rfl] at hj0
          rw [make_w2_get1 .jump _ rfl] at hj1
          rw [make_w2_get2 .jump _ rfl] at hj2
          have hIj0 := hagree.get (by omega) (by omega) hj0
          have hIj1 := hagree.get (by omega) (by omega) hj1
          have hIj2 := hagree.get (by omega) (by omega) hj2
          rw [len4] at hIj0 hIj1 hIj2
          -- region agreements for the two blocks
          have hagreeT : Agree I c3
              (c1.emit .jumpNotTruthy [9999]).2.instructions.length
              (c3.instructions.length - 1) := by
            intro k hk1 hk2
            refine (hagree k (by omega) (by omega)).trans ?_
            rw [replace_get?_lt _ (by omega), ext8.2.1 _ (by omega),
              replace_get?_ge _
                (by rw [make_w2_length .jumpNotTruthy _ rfl]; omega),
              emit_get?_lt _ _ (by omega)]
            exact removeLastPop_get? last3 (by omega)
          have hagreeE : Agree I c7
              (((c3.removeLastPop).emit .jump [9999]).2.replaceInstruction
                c1.instructions.length
                (make .jumpNotTruthy
                  [((c3.removeLastPop).emit .jump [9999]).2.instructions.length])
                ).instructions.length
              (c7.instructions.length - 1) := by
            intro k hk1 hk2
            refine (hagree k (by omega) (by omega)).trans ?_
            rw [replace_get?_ge _ (by rw [make_w2_length .jump _ rfl]; omega)]
            exact removeLastPop_get? last7 (by omega)
          have hconstsT : ConstsLe c3 consts :=
            fun k x hx => hconsts k x (ext7.2.2.1 k x (ext5.2.2.1 k x hx))
          have hconstsE : ConstsLe c7 consts := fun k x hx => hconsts k x hx
          have hginvT : GlobalsInv
              (c1.emit .jumpNotTruthy [9999]).2.symbols store g := by
            rw [emit_symbols, sym1]
            exact hginv
          have hginvE : GlobalsInv
              (((c3.removeLastPop).emit .jump [9999]).2.replaceInstruction
                c1.instructions.length
                (make .jumpNotTruthy
                  [((c3.removeLastPop).emit .jump [9999]).2.instructions.length])
                ).symbols store g := by
            show GlobalsInv c3.symbols store g
            rw [sym3, emit_symbols, sym1]
            exact hginv
          -- evaluation
          cases fuel with
          | zero => exact absurd heval (by simp [evalExpr, M.throw])
          | succ fuel =>
            simp only [evalExpr] at heval
            cases fuel with
            | zero => exact absurd heval (by simp [evalIfExpression, M.throw])
            | succ fuel =>
              simp only [evalIfExpression] at heval
              obtain ⟨cv, st1, hcv, hf⟩ := M.bind_eq_ok heval
              have hst1 : st1 = rootState store :=
                fragEval_state hfc _ _ _ _ hcv
              obtain ⟨b, rfl⟩ := boolShaped_eval hbs hcv
              rw [hst1] at hf
              obtain ⟨-, -, vmA, hrunA, hokA⟩ :=
                ihc c0 c1 fuel store (.boolean b) st1 I consts s g vm heq1 hcv
                  (Agree.mono extC1 hagree (le_refl _) (by omega))
                  (by omega) hI65 (ConstsLe.mono extC1 hconsts) hc65 hginv
                  hg65 hvm (by omega)
              obtain ⟨vmJ, hstepJ, hokJ⟩ :=
                step_jumpNotTruthy hI0 hI1 hI2 (by omega) (by omega) hokA
              cases b
              · -- condition false: fall to the alternative block
                have hf2 : evalBlockStmt fuel (es.map .expr)
                    (rootState store) = (.ok v, st') := hf
                cases fuel with
                | zero => exact absurd hf2 (by simp [evalBlockStmt, M.throw])
                | succ fuel =>
                  have hf' : evalBlockGo fuel (es.map .expr) Object.void
                      (rootState store) = (.ok v, st') := hf2
                  have hstout : st' = rootState store :=
                    fragEvalBlock_state es
                      (fun e he => fragEval_state (hfes e he)) _ _ _ _ _ hf'
                  have hstepJ' : vmStep I consts vmA c1.instructions.length =
                      .ok (vmJ,
                        ((c3.removeLastPop).emit .jump [9999]).2.instructions.length) :=
                    hstepJ
                  obtain ⟨hvout, vmT, hrunT, hokT⟩ :=
                    simBlock es (fun e he => fragCompile_ext (hfes e he))
                      (fun e he => fragEval_state (hfes e he)) ihes
                      _ c7 fuel store .void v st' I consts s g vmJ hene
                      heq7 hf' hagreeE (by omega) hI65 hconstsE hc65 hginvE
                      hg65 hokJ (by omega)
                  rw [len6] at hrunT
                  refine ⟨hstout, hvout, vmT, ?_, hokT⟩
                  rw [lenf, len8]
                  exact (hrunA.trans
                    (RunsTo.single (by omega) hstepJ')).trans hrunT
              · -- condition true: run the consequence, then jump to the end
                have hf2 : evalBlockStmt fuel (ts.map .expr)
                    (rootState store) = (.ok v, st') := hf
                cases fuel with
                | zero => exact absurd hf2 (by simp [evalBlockStmt, M.throw])
                | succ fuel =>
                  have hf' : evalBlockGo fuel (ts.map .expr) Object.void
                      (rootState store) = (.ok v, st') := hf2
                  have hstout : st' = rootState store :=
                    fragEvalBlock_state ts
                      (fun e he => fragEval_state (hfts e he)) _ _ _ _ _ hf'
                  have hstepJ' : vmStep I consts vmA c1.instructions.length =
                      .ok (vmJ, c1.instructions.length + 3) := hstepJ
                  obtain ⟨hvout, vmT, hrunT, hokT⟩ :=
                    simBlock ts (fun e he => fragCompile_ext (hfts e he))
                      (fun e he => fragEval_state (hfts e he)) ihts
                      (c1.emit .jumpNotTruthy [9999]).2 c3 fuel store
                      .void v st' I consts s g vmJ htne heq3 hf' hagreeT
                      (by omega) hI65 hconstsT hc65 hginvT hg65 hokJ
                      (by omega)
                  rw [len2] at hrunT
                  have hstepEnd : vmStep I consts vmT
                      (c3.instructions.length - 1) =
                      .ok (vmT, (c7.removeLastPop).instructions.length) :=
                    step_jump hIj0 hIj1 hIj2 (by omega) (by omega)
                  refine ⟨hstout, hvout, vmT, ?_, hokT⟩
                  rw [lenf]
                  exact ((hrunA.trans
                    (RunsTo.single (by omega) hstepJ')).trans hrunT).trans
                    (RunsTo.single (by omega) hstepEnd)

/-- Every fragment expression satisfies the simulation property. -/
theorem simExpr {e : Expr} (he : FragExpr e) : SimE e := by
  induction he with
  | number n => exact simE_number n
  | str s => exact simE_str s
  | boolean b => exact simE_boolean b
  | ident x => exact simE_ident x
  | neg hfe ihe => exact simE_neg hfe ihe
  | bang hfe hbs ihe => exact simE_bang hfe hbs ihe
  | binop op hop hfl hfr ihl ihr => exact simE_binop hop hfl hfr ihl ihr
  | ifE hfc hbs htne hene hfts hfes ihc ihts ihes =>
    exact simE_if hfc hbs htne hene hfts hfes ihc ihts ihes

theorem Ext.withSymbols (c : Compiler) (t : SymbolTable) :
    Ext c { c with symbols := t } :=
  ⟨le_refl _, fun _ _ => rfl, fun _ _ hx => hx, le_refl _⟩

theorem fragStmt_ext {stmt : Stmt} (hs : FragStmt stmt) :
    ∀ c c' : Compiler, compileStmt c stmt = .ok c' →
      Ext c c' ∧ c.symbols.num_definitions ≤ c'.symbols.num_definitions := by
  cases hs with
  | expr hfe =>
    intro c c' h
    obtain ⟨cE, heqE, rfl⟩ := compileStmt_expr_ok h
    obtain ⟨extE, symE, -⟩ := fragCompile_ext hfe c cE heqE
    refine ⟨extE.trans (Ext.emit cE .pop []), ?_⟩
    rw [emit_symbols, symE]
  | assign hfe =>
    rename_i x e
    intro c c' h
    simp only [compileStmt, SymbolTable.define] at h
    split at h
    · exact Except.noConfusion h
    · rename_i cE heqE
      injection h with h
      subst h
      obtain ⟨extE, symE, -⟩ := fragCompile_ext hfe c cE heqE
      constructor
      · exact extE.trans ((Ext.withSymbols cE _).trans (Ext.emit _ .setGlobal _))
      · show c.symbols.num_definitions ≤ cE.symbols.num_definitions + 1
        rw [symE]
        omega

theorem fragProg_ext (prog : List Stmt) (hfrag : ∀ s ∈ prog, FragStmt s) :
    ∀ c c' : Compiler, compileProgram c prog = .ok c' →
      Ext c c' ∧ c.symbols.num_definitions ≤ c'.symbols.num_definitions := by
  induction prog with
  | nil =>
    intro c c' h
    simp only [compileProgram] at h
    injection h with h
    subst h
    exact ⟨Ext.refl c, le_refl _⟩
  | cons s rest ih =>
    intro c c' h
    simp only [compileProgram] at h
    split at h
    · exact Except.noConfusion h
    · rename_i cm heqm
      obtain ⟨e1, n1⟩ := fragStmt_ext (hfrag s (by simp)) c cm heqm
      obtain ⟨e2, n2⟩ := ih (fun x hx => hfrag x (by simp [hx])) cm c' h
      exact ⟨e1.trans e2, le_trans n1 n2⟩

/-- Simulation for a single fragment statement at the top level: the VM
run crosses the statement's compiled region with an empty operand stack on
both sides, and for an expression statement the popped value remains in the
physical stack slot `last_stack_top` reads. -/
theorem simStmt {stmt : Stmt} (hs : FragStmt stmt) :
    ∀ (c0 c1 : Compiler) (fuel : Nat) (store : List (Name × Object))
      (v : Object) (st' : EvalState) (I : List Nat)
      (consts g : List Object) (vm : VMState),
      compileStmt c0 stmt = .ok c1 →
      evalStmt fuel stmt (rootState store) = (.ok v, st') →
      Agree I c1 c0.instructions.length c1.instructions.length →
      c1.instructions.length ≤ I.length →
      I.length ≤ 65535 →
      ConstsLe c1 consts → consts.length ≤ 65536 →
      GlobalsInv c0.symbols store g →
      c1.symbols.num_definitions ≤ 65536 →
      stmtNodes stmt ≤ STACK_SIZE →
      VMOk vm [] g →
      (∀ w, v ≠ .ret w) ∧
      ∃ store' g' vm', st' = rootState store' ∧
        GlobalsInv c1.symbols store' g' ∧ VMOk vm' [] g' ∧
        RunsTo I consts vm c0.instructions.length vm'
          c1.instructions.length ∧
        (∀ e, stmt = .expr e → vm'.stack.get? 0 = some v) := by
  cases hs with
  | expr hfe =>
    rename_i e
    intro c0 c1 fuel store v st' I consts g vm hcomp heval hagree hlen hI65
      hconsts hc65 hginv hnd hstk hvm
    obtain ⟨cE, heqE, rfl⟩ := compileStmt_expr_ok hcomp
    obtain ⟨extE, symE, growE⟩ := fragCompile_ext hfe c0 cE heqE
    have hlenP : ((cE.emit .pop []).2).instructions.length =
        cE.instructions.length + 1 := emit_len_nil _ _
    cases fuel with
    | zero => exact absurd heval (by simp [evalStmt, M.throw])
    | succ fuel =>
      rw [evalStmt_expr] at heval
      have hnds : ((cE.emit .pop []).2).symbols.num_definitions =
          c0.symbols.num_definitions := by rw [emit_symbols, symE]
      have hg65 : g.length ≤ 65536 := by
        have h1 := hginv.1
        omega
      have hnodes : stmtNodes (.expr e) = exprNodes e + 1 := rfl
      obtain ⟨hst', hvc, vmA, hrunA, hokA⟩ :=
        simExpr hfe c0 cE fuel store v st' I consts [] g vm heqE heval
          (fun k hk1 hk2 => (hagree k hk1 (by omega)).trans
            ((Ext.emit cE .pop []).2.1 k hk2))
          (by omega) hI65 (ConstsLe.mono (Ext.emit cE .pop []) hconsts) hc65
          hginv hg65 hvm (by simp only [List.length_nil]; omega)
      have hbP : I.get? cE.instructions.length = some (Opcode.byte .pop) :=
        hagree.get (by omega) (by omega) (emit_get?_byte cE .pop [])
      obtain ⟨vmP, hstep, hokP, hgetv⟩ :=
        @step_pop I consts vmA [] g v cE.instructions.length hbP hokA
      refine ⟨fun w hw => by
          rcases hvc with ⟨n, rfl⟩ | ⟨s1, rfl⟩ | ⟨b1, rfl⟩ <;>
            exact Object.noConfusion hw,
        store, g, vmP, hst', ?_, hokP, ?_, fun e' he' => by simpa using hgetv⟩
      · show GlobalsInv ((cE.emit .pop []).2).symbols store g
        rw [emit_symbols, symE]
        exact hginv
      · rw [hlenP]
        exact hrunA.trans (RunsTo.single (by omega) hstep)
  | assign hfe =>
    rename_i x e
    intro c0 c1 fuel store v st' I consts g vm hcomp heval hagree hlen hI65
      hconsts hc65 hginv hnd hstk hvm
    simp only [compileStmt, SymbolTable.define] at hcomp
    split at hcomp
    · exact Except.noConfusion hcomp
    · rename_i cE heqE
      injection hcomp with hcomp
      subst hcomp
      obtain ⟨extE, symE, growE⟩ := fragCompile_ext hfe c0 cE heqE
      have hlenS : (({ cE with symbols := ⟨listInsert cE.symbols.store x ⟨x, "GLOBAL", cE.symbols.num_definitions⟩, cE.symbols.num_definitions + 1⟩ } : Compiler).emit .setGlobal [cE.symbols.num_definitions]).2.instructions.length =
          cE.instructions.length + 3 := emit_len_w2 _ _ _ rfl
      have extMid : Ext cE (({ cE with symbols := ⟨listInsert cE.symbols.store x ⟨x, "GLOBAL", cE.symbols.num_definitions⟩, cE.symbols.num_definitions + 1⟩ } : Compiler).emit .setGlobal [cE.symbols.num_definitions]).2 :=
        (Ext.withSymbols cE _).trans (Ext.emit _ .setGlobal _)
      have hceq : cE.symbols.num_definitions = c0.symbols.num_definitions := by
        rw [symE]
      have hnd1 : (({ cE with symbols := ⟨listInsert cE.symbols.store x ⟨x, "GLOBAL", cE.symbols.num_definitions⟩, cE.symbols.num_definitions + 1⟩ } : Compiler).emit .setGlobal [cE.symbols.num_definitions]).2.symbols.num_definitions =
          cE.symbols.num_definitions + 1 := rfl
      have hg65 : g.length ≤ 65536 := by
        have h1 := hginv.1
        omega
      cases fuel with
      | zero => exact absurd heval (by simp [evalStmt, M.throw])
      | succ fuel =>
        simp only [evalStmt] at heval
        obtain ⟨vv, st1, hv, h2⟩ := M.bind_eq_ok heval
        have hst1 : st1 = rootState store := fragEval_state hfe _ _ _ _ hv
        obtain ⟨u, stS, hset, hpure⟩ := M.bind_eq_ok h2
        have hset' : ((Except.ok () : Except Err Unit),
            envSet st1 st1.cur x vv) = (.ok u, stS) := hset
        obtain ⟨-, hB⟩ := Prod.mk.injEq .. ▸ hset'
        rw [hst1, rootState_cur, envSet_root] at hB
        have hpure' : ((Except.ok Object.void : Except Err Object), stS) =
            (.ok v, st') := hpure
        obtain ⟨hvv, hstv⟩ := Prod.mk.injEq .. ▸ hpure'
        injection hvv with hvv
        subst hvv
        have hnodes : stmtNodes (.assign (.ident x) e) = exprNodes e + 1 := rfl
        obtain ⟨-, hvc, vmA, hrunA, hokA⟩ :=
          simExpr hfe c0 cE fuel store vv st1 I consts [] g vm heqE hv
            (fun k hk1 hk2 => (hagree k hk1 (by omega)).trans
              (extMid.2.1 k hk2))
            (by omega) hI65 (ConstsLe.mono extMid hconsts) hc65 hginv hg65
            hvm (by simp only [List.length_nil]; omega)
        have hidx : g.length = cE.symbols.num_definitions := by
          rw [hginv.1, hceq]
        have hb0 : I.get? cE.instructions.length =
            some (Opcode.byte .setGlobal) :=
          hagree.get (by omega) (by omega) (emit_get?_byte _ .setGlobal _)
        have hb1 : I.get? (cE.instructions.length + 1) =
            some (cE.symbols.num_definitions % 65536 / 256) :=
          hagree.get (by omega) (by omega)
            (by rw [emit_instructions, make_width2 .setGlobal _ rfl]
                exact get?_append_length_succ _ _ _ _)
        have hb2 : I.get? (cE.instructions.length + 2) =
            some (cE.symbols.num_definitions % 256) :=
          hagree.get (by omega) (by omega)
            (by rw [emit_instructions, make_width2 .setGlobal _ rfl]
                exact get?_append_length_two _ _ _ _ _)
        rw [← hidx] at hb1 hb2
        obtain ⟨vmS, hstep, hokS⟩ :=
          step_setGlobal hb0 hb1 hb2 (by omega) hokA
        refine ⟨fun w hw => Object.noConfusion hw,
          listInsert store x vv, g ++ [vv], vmS,
          by rw [← hstv]; exact hB.symm, ?_, hokS,
          ?_, fun e' he' => Stmt.noConfusion he'⟩
        · show GlobalsInv ⟨listInsert cE.symbols.store x
            ⟨x, "GLOBAL", cE.symbols.num_definitions⟩,
            cE.symbols.num_definitions + 1⟩ (listInsert store x vv) (g ++ [vv])
          rw [symE]
          constructor
          · show (g ++ [vv]).length = c0.symbols.num_definitions + 1
            simp only [List.length_append, List.length_singleton]
            have h1 := hginv.1
            omega
          · intro nm sym hres
            by_cases hnm : nm = x
            · subst hnm
              rw [listGet_listInsert] at hres
              injection hres with hres
              subst hres
              refine ⟨?_, vv, ?_, ?_, hvc⟩
              · show c0.symbols.num_definitions < (g ++ [vv]).length
                simp only [List.length_append, List.length_singleton]
                have h1 := hginv.1
                omega
              · show (g ++ [vv]).get? c0.symbols.num_definitions = some vv
                rw [← hginv.1]
                exact get?_append_length _ _ _
              · rw [listGet_listInsert]
            · rw [listGet_listInsert_ne _ _ hnm] at hres
              obtain ⟨hlt2, val, hgv, hsv, hvcv2⟩ := hginv.2 nm sym hres
              refine ⟨?_, val, get?_append_left_of_some hgv, ?_, hvcv2⟩
              · simp only [List.length_append, List.length_singleton]
                omega
              · rw [listGet_listInsert_ne _ _ hnm]
                exact hsv
        · rw [hlenS]
          exact hrunA.trans (RunsTo.single (by omega) hstep)

/-- Simulation for a fragment program with the evaluator's statement loop. -/
theorem simProg (prog : List Stmt) (hfrag : ∀ s ∈ prog, FragStmt s) :
    ∀ (c0 c1 : Compiler) (fuel : Nat) (store : List (Name × Object))
      (acc v : Object) (st' : EvalState) (I : List Nat)
      (consts g : List Object) (vm : VMState),
      compileProgram c0 prog = .ok c1 →
      evalProgramGo fuel prog acc (rootState store) = (.ok v, st') →
      Agree I c1 c0.instructions.length c1.instructions.length →
      c1.instructions.length ≤ I.length → I.length ≤ 65535 →
      ConstsLe c1 consts → consts.length ≤ 65536 →
      GlobalsInv c0.symbols store g →
      c1.symbols.num_definitions ≤ 65536 →
      (∀ s ∈ prog, stmtNodes s ≤ STACK_SIZE) →
      VMOk vm [] g →
      ∃ store' g' vm',
        GlobalsInv c1.symbols store' g' ∧ VMOk vm' [] g' ∧
        RunsTo I consts vm c0.instructions.length vm'
          c1.instructions.length ∧
        (∀ e, prog.getLast? = some (.expr e) →
          vm'.stack.get? 0 = some v) := by
  induction prog with
  | nil =>
    intro c0 c1 fuel store acc v st' I consts g vm hcomp heval hagree hlen
      hI65 hconsts hc65 hginv hnd hnodes hvm
    simp only [compileProgram] at hcomp
    injection hcomp with hcomp
    subst hcomp
    exact ⟨store, g, vm, hginv, hvm, RunsTo.refl _ _ _ _,
      fun e he => by simp at he⟩
  | cons s rest ih =>
    intro c0 c1 fuel store acc v st' I consts g vm hcomp heval hagree hlen
      hI65 hconsts hc65 hginv hnd hnodes hvm
    simp only [compileProgram] at hcomp
    split at hcomp
    · exact Except.noConfusion hcomp
    · rename_i cm heqm
      obtain ⟨extm, ndm⟩ := fragStmt_ext (hfrag s (by simp)) c0 cm heqm
      obtain ⟨extr, ndr⟩ :=
        fragProg_ext rest (fun t ht => hfrag t (by simp [ht])) cm c1 hcomp
      cases fuel with
      | zero => exact absurd heval (by simp [evalProgramGo, M.throw])
      | succ fuel =>
        obtain ⟨v1, st1, hstmt, hbr⟩ := evalProgramGo_cons_elim heval
        obtain ⟨hnr, store1, g1, vm1, hst1, hginv1, hok1, hrun1, hexp1⟩ :=
          simStmt (hfrag s (by simp)) c0 cm fuel store v1 st1 I consts g vm
            heqm hstmt (Agree.mono extr hagree (le_refl _) extr.1)
            (by have := extr.1; omega) hI65 (ConstsLe.mono extr hconsts)
            hc65 hginv (by omega) (hnodes s (by simp)) hvm
        rcases hbr with ⟨w, hw, -, -⟩ | ⟨-, hcont⟩
        · exact absurd hw (hnr w)
        · rw [hst1] at hcont
          cases rest with
          | nil =>
            simp only [compileProgram] at hcomp
            injection hcomp with hcomp
            subst hcomp
            cases fuel with
            | zero => exact absurd hcont (by simp [evalProgramGo, M.throw])
            | succ fuel =>
              simp only [evalProgramGo, M.pure] at hcont
              obtain ⟨hv1, hstv⟩ := Prod.mk.injEq .. ▸ hcont
              injection hv1 with hv1
              subst hv1
              refine ⟨store1, g1, vm1, hginv1, hok1, hrun1, ?_⟩
              intro e he
              have hse : s = .expr e := by simpa using he
              exact hexp1 e hse
          | cons r2 rest2 =>
            obtain ⟨store', g', vm', hginv', hok', hrun', hexp'⟩ :=
              ih (fun t ht => hfrag t (by simp [ht])) cm c1 fuel store1
                v1 v st' I consts g1 vm1 hcomp hcont
                (fun k hk1 hk2 => hagree k (by have := extm.1; omega) hk2)
                hlen hI65 hconsts hc65 hginv1 hnd
                (fun t ht => hnodes t (by simp [ht])) hok1
            refine ⟨store', g', vm', hginv', hok', hrun1.trans hrun', ?_⟩
            intro e he
            exact hexp' e (by rw [← List.getLast?_cons_cons]; exact he)

/-- C1, counterexample: the claim says the two back ends produce the same
result on every program that uses only the constructs both support; `!5`
uses only number literals and prefix `!` (both compile and both evaluate),
but the evaluator yields `boolean true` (only `boolean(true)` is truthy
for it) while the compile-and-run pipeline yields `boolean false`
(everything except `boolean(false)` is truthy for the VM). -/
theorem c1_counterexample :
    (evalProgram 10 [.expr (.prefixE "!" (.number 5))] initState).1 =
      .ok (.boolean true) ∧
    compileAndRun 10 [.expr (.prefixE "!" (.number 5))] =
      .ok (some (.boolean false)) :=
  ⟨rfl, rfl⟩

/-- C1, amended: on the fragment the two back ends implement compatibly —
number/string/boolean/identifier expressions, prefix `-`, prefix `!` on
boolean-shaped operands, the arithmetic/comparison/equality infix
operators, assignments to plain identifiers, and if-expressions whose
condition is boolean-shaped and whose branches are non-empty blocks of
such expression statements — and within the VM's static resource bounds
(per-statement stack need, 16-bit operands, `GLOBALS_SIZE`), the back
ends agree: if the evaluator runs the program to a value `v` and the
program ends in an expression statement, then compiling and running
terminates and `last_stack_top` (how `repl.rs` and the VM tests read a
result) is exactly `some v`. -/
theorem c1_amended (prog : List Stmt) (c : Compiler) (fuel : Nat)
    (v : Object) (st' : EvalState)
    (hfrag : ∀ s ∈ prog, FragStmt s)
    (hlast : ∃ e, prog.getLast? = some (.expr e))
    (hnodes : ∀ s ∈ prog, stmtNodes s ≤ STACK_SIZE)
    (hcomp : compileProgram Compiler.new prog = .ok c)
    (hbytes : c.instructions.length ≤ 65535)
    (hconsts : c.constants.length ≤ 65536)
    (hdefs : c.symbols.num_definitions ≤ 65536)
    (heval : evalProgram fuel prog initState = (.ok v, st')) :
    ∃ gas final, vmRun gas c.toBytecode VMState.new = .ok final ∧
      final.lastStackTop = some v := by
  cases fuel with
  | zero => exact absurd heval (by simp [evalProgram, M.throw])
  | succ fuel =>
    have heval' : evalProgramGo fuel prog .void (rootState rootBuiltins) =
        (.ok v, st') := heval
    have hginv0 : GlobalsInv Compiler.new.symbols rootBuiltins [] :=
      ⟨rfl, fun nm sym h => Option.noConfusion h⟩
    obtain ⟨store', g', vm', hginv', hok', hrun', hlastv⟩ :=
      simProg prog hfrag Compiler.new c fuel rootBuiltins .void v st'
        c.instructions c.constants [] VMState.new hcomp heval'
        (fun k hk1 hk2 => rfl) (le_refl _) hbytes
        (fun k x hx => hx) hconsts hginv0 hdefs hnodes
        ⟨rfl, rfl, by simp, rfl⟩
    obtain ⟨gas, hgas⟩ := hrun'.run (le_refl _)
    obtain ⟨e, hlaste⟩ := hlast
    have hv0 : vm'.stack.get? 0 = some v := hlastv e hlaste
    refine ⟨gas, vm', hgas, ?_⟩
    show vm'.stack.get? vm'.sp = some v
    rw [hok'.1]
    simpa using hv0

/-- Witness for `c1_amended` at the concrete program `x = 5; x`:
both back ends produce `5`. -/
theorem c1_amended_witness :
    ∃ (c : Compiler) (gas : Nat) (final : VMState),
      compileProgram Compiler.new c1WitnessProg = .ok c ∧
      vmRun gas c.toBytecode VMState.new = .ok final ∧
      final.lastStackTop = some (.number 5) := by
  have hcomp : compileProgram Compiler.new c1WitnessProg =
      .ok ((compileProgram Compiler.new c1WitnessProg).toOption.getD
        Compiler.new) := rfl
  obtain ⟨gas, final, hrun, htop⟩ :=
    c1_amended c1WitnessProg _ 10 (.number 5)
      (rootState (listInsert rootBuiltins "x" (.number 5)))
      (by intro s hs
          simp only [c1WitnessProg, List.mem_cons,
            List.not_mem_nil, or_false] at hs
          rcases hs with rfl | rfl
          · exact FragStmt.assign (FragExpr.number 5)
          · exact FragStmt.expr (FragExpr.ident "x"))
      ⟨.ident "x", rfl⟩
      (by intro s hs
          simp only [c1WitnessProg, List.mem_cons,
            List.not_mem_nil, or_false] at hs
          rcases hs with rfl | rfl <;> decide)
      hcomp (by decide) (by decide) (by decide) rfl
  exact ⟨_, gas, final, hcomp, hrun, htop⟩

end Bliss
